import Mathlib

/-!
# gtreap: a persistent treap

Shallow embedding of `treap.go`.  A Go `*node` is a value of `Node α`
(`Node.nil` is the nil pointer), a Go `Item` stored in the tree is a value of
`α`, and an `Item` result or argument that may be the Go `nil` is an
`Option α`.  Go's `int` is embedded as `Int`: priorities are only compared, and
a count is bounded by the number of allocated nodes, so no arithmetic of the
source can wrap.

The operations are embedded twice: as functions on trees (`Treap.split`,
`Treap.union`, `Treap.join`, ...), on which the functional properties are
proved, and as functions on an explicit heap of cells (`splitS`, `unionS`,
`joinS`, ...), which is shown to refine the first and on which persistence is
proved.
-/

namespace Gtreap

/-- The Go `node` record behind a `*node` pointer; `nil` is the nil pointer. -/
inductive Node (α : Type) where
  | nil : Node α
  | mk (item : α) (priority : Int) (left right : Node α) (count : Int) : Node α
  deriving DecidableEq

/-- The Go `Treap` record: the comparison function and the root. -/
structure Treap (α : Type) where
  compare : α → α → Int
  root : Node α

/-- The Go `ItemVisitor`: a callback that may keep state of type `σ` between
calls and answers whether the traversal goes on. -/
abbrev ItemVisitor (σ α : Type) := α → σ → Bool × σ

namespace Node

variable {α : Type}

/-- Method `getCount`: 0 on nil, the cached `count` field otherwise. -/
def getCount : Node α → Int
  | nil => 0
  | mk _ _ _ _ c => c

/-- Number of nodes reachable from a node (a measure, not a source function). -/
def size : Node α → Nat
  | nil => 0
  | mk _ _ l r _ => 1 + l.size + r.size

/-- In-order list of the items of a tree (a measure, not a source function). -/
def toList : Node α → List α
  | nil => []
  | mk i _ l r _ => l.toList ++ i :: r.toList

end Node

namespace Treap

variable {α σ : Type}

/-- Function `NewTreap`: the empty treap over a comparator. -/
def NewTreap (c : α → α → Int) : Treap α := { compare := c, root := Node.nil }

/-- Method `Len`: 0 for a nil root, the root's `count` field otherwise. -/
def Len (t : Treap α) : Int :=
  match t.root with
  | Node.nil => 0
  | Node.mk _ _ _ _ c => c

/-- The loop of `Min`: `item` and `left` are the fields of the current node. -/
def minLoop (item : α) : Node α → α
  | Node.nil => item
  | Node.mk i _ l _ _ => minLoop i l

/-- The loop of `Max`: `item` and `right` are the fields of the current node. -/
def maxLoop (item : α) : Node α → α
  | Node.nil => item
  | Node.mk i _ _ r _ => maxLoop i r

/-- Method `Min`: absent on a nil root, else the item at the end of the left
spine. -/
def Min (t : Treap α) : Option α :=
  match t.root with
  | Node.nil => none
  | Node.mk i _ l _ _ => some (minLoop i l)

/-- Method `Max`: absent on a nil root, else the item at the end of the right
spine. -/
def Max (t : Treap α) : Option α :=
  match t.root with
  | Node.nil => none
  | Node.mk i _ _ r _ => some (maxLoop i r)

/-- The loop of `Get`, started at node `n`. -/
def getLoop (t : Treap α) (target : α) : Node α → Option α
  | Node.nil => none
  | Node.mk i _ l r _ =>
    if t.compare target i < 0 then getLoop t target l
    else if t.compare target i > 0 then getLoop t target r
    else some i

/-- Method `Get`: the lookup loop started at the root. -/
def Get (t : Treap α) (target : α) : Option α := getLoop t target t.root

/-- Method `split`: the triple is (left, middle, right); on a match the middle
is the matching node itself, children included. -/
def split (t : Treap α) : Node α → α → Node α × Node α × Node α
  | Node.nil, _ => (Node.nil, Node.nil, Node.nil)
  | Node.mk i p l r c, s =>
    if t.compare s i = 0 then (l, Node.mk i p l r c, r)
    else if t.compare s i < 0 then
      let lmr := split t l s
      (lmr.1, lmr.2.1,
        Node.mk i p lmr.2.2 r (1 + lmr.2.2.getCount + r.getCount))
    else
      let lmr := split t r s
      (Node.mk i p l lmr.1 (1 + l.getCount + lmr.1.getCount), lmr.2.1, lmr.2.2)

theorem split_size_left (t : Treap α) (n : Node α) (s : α) :
    (split t n s).1.size ≤ n.size := by
  induction n with
  | nil => simp [split, Node.size]
  | mk i p l r c ihl ihr =>
    simp only [split]
    split_ifs <;> simp only [Node.size] <;> omega

theorem split_size_right (t : Treap α) (n : Node α) (s : α) :
    (split t n s).2.2.size ≤ n.size := by
  induction n with
  | nil => simp [split, Node.size]
  | mk i p l r c ihl ihr =>
    simp only [split]
    split_ifs <;> simp only [Node.size] <;> omega

/-- Method `union`: `that` takes precedence on equal keys; the recursive calls
are on pieces returned by `split`, so termination is by the total number of
nodes. -/
def union (t : Treap α) (this that : Node α) : Node α :=
  match this, that with
  | Node.nil, that => that
  | this, Node.nil => this
  | Node.mk ti tp tl tr tc, Node.mk hi hp hl hr hc =>
    if tp > hp then
      let lmr := split t (Node.mk hi hp hl hr hc) ti
      match lmr.2.1 with
      | Node.nil =>
        let uLeft := union t tl lmr.1
        let uRight := union t tr lmr.2.2
        Node.mk ti tp uLeft uRight (1 + uLeft.getCount + uRight.getCount)
      | Node.mk mi mp _ _ _ =>
        let uLeft := union t tl lmr.1
        let uRight := union t tr lmr.2.2
        Node.mk mi mp uLeft uRight (1 + uLeft.getCount + uRight.getCount)
    else
      let lmr := split t (Node.mk ti tp tl tr tc) hi
      let uLeft := union t lmr.1 hl
      let uRight := union t lmr.2.2 hr
      Node.mk hi hp uLeft uRight (1 + uLeft.getCount + uRight.getCount)
termination_by this.size + that.size
decreasing_by
  all_goals simp_wf
  all_goals simp only [Node.size]
  all_goals
    have h1 := split_size_left t (Node.mk hi hp hl hr hc) ti
    have h2 := split_size_right t (Node.mk hi hp hl hr hc) ti
    have h3 := split_size_left t (Node.mk ti tp tl tr tc) hi
    have h4 := split_size_right t (Node.mk ti tp tl tr tc) hi
    simp only [Node.size] at h1 h2 h3 h4
    omega

/-- Method `Upsert`: the union of the root with a fresh one-node tree. -/
def Upsert (t : Treap α) (item : α) (itemPriority : Int) : Treap α :=
  let r := union t t.root (Node.mk item itemPriority Node.nil Node.nil 1)
  { compare := t.compare, root := r }

/-- Method `Split`: the middle treap is `none` for the Go nil `*Treap`, and
otherwise a fresh childless node with the matching item and priority. -/
def Split (t : Treap α) (s : α) : Treap α × Option (Treap α) × Treap α :=
  let lmr := split t t.root s
  let left : Treap α := { compare := t.compare, root := lmr.1 }
  let middle : Option (Treap α) :=
    match lmr.2.1 with
    | Node.nil => none
    | Node.mk i p _ _ _ =>
      some { compare := t.compare, root := Node.mk i p Node.nil Node.nil 1 }
  let right : Treap α := { compare := t.compare, root := lmr.2.2 }
  (left, middle, right)

/-- Method `join`: merges by priority only, without comparing items. -/
def join (t : Treap α) (this that : Node α) : Node α :=
  match this, that with
  | Node.nil, that => that
  | this, Node.nil => this
  | Node.mk ti tp tl tr tc, Node.mk hi hp hl hr hc =>
    if tp > hp then
      let right := join t tr (Node.mk hi hp hl hr hc)
      Node.mk ti tp tl right (1 + tl.getCount + right.getCount)
    else
      let left := join t (Node.mk ti tp tl tr tc) hl
      Node.mk hi hp left hr (1 + left.getCount + hr.getCount)
termination_by this.size + that.size
decreasing_by
  all_goals simp_wf
  all_goals simp only [Node.size]
  all_goals omega

/-- Method `Delete`: split at the target, drop the middle, join the rest. -/
def Delete (t : Treap α) (target : α) : Treap α :=
  let lmr := split t t.root target
  { compare := t.compare, root := join t lmr.1 lmr.2.2 }

/-- Method `visitAscend`: the Go `bool` result paired with the visitor's state after
the traversal. -/
def visitAscend (t : Treap α) (visitor : ItemVisitor σ α) :
    Node α → Option α → σ → Bool × σ
  | Node.nil, _, st => (true, st)
  | Node.mk i _ l r _, pivot, st =>
    if (match pivot with
        | none => true
        | some pv => decide (t.compare pv i ≤ 0)) then
      let a := visitAscend t visitor l pivot st
      if !a.1 then (false, a.2)
      else
        let b := visitor i a.2
        if !b.1 then (false, b.2)
        else visitAscend t visitor r none b.2
    else visitAscend t visitor r pivot st

/-- Method `VisitAscend`: returns the visitor's state after the traversal. -/
def VisitAscend (t : Treap α) (pivot : Option α) (visitor : ItemVisitor σ α)
    (st : σ) : σ :=
  (visitAscend t visitor t.root pivot st).2

/-- Method `visitDescend`: the mirror image of `visitAscend`. -/
def visitDescend (t : Treap α) (visitor : ItemVisitor σ α) :
    Node α → Option α → σ → Bool × σ
  | Node.nil, _, st => (true, st)
  | Node.mk i _ l r _, pivot, st =>
    if (match pivot with
        | none => true
        | some pv => decide (t.compare pv i ≥ 0)) then
      let a := visitDescend t visitor r pivot st
      if !a.1 then (false, a.2)
      else
        let b := visitor i a.2
        if !b.1 then (false, b.2)
        else visitDescend t visitor l none b.2
    else visitDescend t visitor l pivot st

/-- Method `VisitDescend`: returns the visitor's state after the traversal. -/
def VisitDescend (t : Treap α) (pivot : Option α) (visitor : ItemVisitor σ α)
    (st : σ) : σ :=
  (visitDescend t visitor t.root pivot st).2

end Treap

/-! ## Well-formedness predicates -/

section Predicates

variable {α σ : Type}

/-- A lawful total-order comparator: the sign of `cmp a b` flips when the
arguments are swapped, and `cmp a b ≤ 0` is transitive.  Items comparing equal
need not be identical. -/
structure Lawful (cmp : α → α → Int) : Prop where
  swap : ∀ a b, cmp a b < 0 ↔ 0 < cmp b a
  trans : ∀ a b c, cmp a b ≤ 0 → cmp b c ≤ 0 → cmp a c ≤ 0

/-- BST ordering: at every node the items of the left subtree compare less than
the node's item and those of the right subtree compare greater. -/
def BST (cmp : α → α → Int) : Node α → Prop
  | Node.nil => True
  | Node.mk i _ l r _ =>
    (∀ x ∈ l.toList, cmp x i < 0) ∧ (∀ x ∈ r.toList, 0 < cmp x i) ∧
      BST cmp l ∧ BST cmp r

/-- Size consistency: at every node `count = 1 + count(left) + count(right)`. -/
def SizeOK : Node α → Prop
  | Node.nil => True
  | Node.mk _ _ l r c => c = 1 + l.getCount + r.getCount ∧ SizeOK l ∧ SizeOK r

/-- BST ordering is decidable. -/
def decBST (cmp : α → α → Int) : (n : Node α) → Decidable (BST cmp n)
  | Node.nil => isTrue trivial
  | Node.mk i _ l r _ =>
    have := decBST cmp l
    have := decBST cmp r
    inferInstanceAs (Decidable
      ((∀ x ∈ l.toList, cmp x i < 0) ∧ (∀ x ∈ r.toList, 0 < cmp x i) ∧
        BST cmp l ∧ BST cmp r))

instance (cmp : α → α → Int) (n : Node α) : Decidable (BST cmp n) := decBST cmp n

/-- Size consistency is decidable. -/
def decSizeOK : (n : Node α) → Decidable (SizeOK n)
  | Node.nil => isTrue trivial
  | Node.mk _ _ l r c =>
    have := decSizeOK l
    have := decSizeOK r
    inferInstanceAs (Decidable
      (c = 1 + l.getCount + r.getCount ∧ SizeOK l ∧ SizeOK r))

instance (n : Node α) : Decidable (SizeOK n) := decSizeOK n

/-- The item of a middle node as a list: empty for nil. -/
def midList : Node α → List α
  | Node.nil => []
  | Node.mk i _ _ _ _ => [i]

/-- Runs a visitor over a list of items, stopping after the first call that
answers false. -/
def runVisitor (visitor : ItemVisitor σ α) : List α → σ → Bool × σ
  | [], st => (true, st)
  | x :: xs, st =>
    let b := visitor x st
    if !b.1 then (false, b.2) else runVisitor visitor xs b.2

/-- Instruments a visitor with a log of the items it is invoked on. -/
def logged (visitor : ItemVisitor σ α) : ItemVisitor (σ × List α) α :=
  fun i st => ((visitor i st.1).1, ((visitor i st.1).2, st.2 ++ [i]))

/-- The visitor that always answers true and keeps no state. -/
def always : ItemVisitor Unit α := fun _ st => (true, st)

/-- The prefix of a list on which a visitor started in state `st` is invoked:
the list cut immediately after the first item for which it answers false. -/
def cutAfterStop (visitor : ItemVisitor σ α) : List α → σ → List α
  | [], _ => []
  | x :: xs, st =>
    if (visitor x st).1 then x :: cutAfterStop visitor xs (visitor x st).2
    else [x]

/-- The comparator of the test suite on integers (`intCompare`), taken on
unbounded integers: the Go function subtracts machine integers and wraps for
operands far apart, so it is used here only as a sample comparator at small
values. -/
def intCompare : Int → Int → Int := fun a b => a - b

/-- A three-item treap over `intCompare`: items 1, 2, 3 with 2 at the root. -/
def sampleTreap : Treap Int :=
  { compare := intCompare,
    root := Node.mk 2 30 (Node.mk 1 10 Node.nil Node.nil 1)
      (Node.mk 3 20 Node.nil Node.nil 1) 3 }

/-- The items `visitAscend` offers to a visitor that never stops, in order:
the recursion of `visitAscend` with the visitor calls collected. -/
def ascendItems (t : Treap α) : Node α → Option α → List α
  | Node.nil, _ => []
  | Node.mk i _ l r _, pivot =>
    if (match pivot with
        | none => true
        | some pv => decide (t.compare pv i ≤ 0)) then
      ascendItems t l pivot ++ i :: ascendItems t r none
    else ascendItems t r pivot

/-- The items `visitDescend` offers to a visitor that never stops, in order. -/
def descendItems (t : Treap α) : Node α → Option α → List α
  | Node.nil, _ => []
  | Node.mk i _ l r _, pivot =>
    if (match pivot with
        | none => true
        | some pv => decide (t.compare pv i ≥ 0)) then
      descendItems t r pivot ++ i :: descendItems t l none
    else descendItems t l pivot

/-- Upserts a list of (item, priority) pairs one after the other. -/
def upsertAll (t : Treap α) (items : List (α × Int)) : Treap α :=
  items.foldl (fun acc ip => acc.Upsert ip.1 ip.2) t

/-- In-order list of the (item, priority) pairs of a tree (a measure, not a
source function). -/
def Node.entries : Node α → List (α × Int)
  | Node.nil => []
  | Node.mk i p l r _ => Node.entries l ++ (i, p) :: Node.entries r

/-- The priority at the root of a tree is at most `q`; vacuous for nil. -/
def rootLE (q : Int) : Node α → Prop
  | Node.nil => True
  | Node.mk _ p _ _ _ => p ≤ q

/-- Heap ordering: at every node the priority is at least the priority of each
child. -/
def Heap : Node α → Prop
  | Node.nil => True
  | Node.mk _ p l r _ => rootLE p l ∧ rootLE p r ∧ Heap l ∧ Heap r

instance (q : Int) (n : Node α) : Decidable (rootLE q n) :=
  match n with
  | Node.nil => isTrue trivial
  | Node.mk _ p _ _ _ => inferInstanceAs (Decidable (p ≤ q))

/-- Heap ordering is decidable. -/
def decHeap : (n : Node α) → Decidable (Heap n)
  | Node.nil => isTrue trivial
  | Node.mk _ p l r _ =>
    have := decHeap l
    have := decHeap r
    inferInstanceAs (Decidable (rootLE p l ∧ rootLE p r ∧ Heap l ∧ Heap r))

instance (n : Node α) : Decidable (Heap n) := decHeap n

/-- The treap values obtainable from `NewTreap c` by `Upsert`, `Delete` and
`Split`, taking any of the three treaps `Split` returns. -/
inductive Reachable (c : α → α → Int) : Treap α → Prop
  | empty : Reachable c (Treap.NewTreap c)
  | upsert (t : Treap α) (i : α) (p : Int) :
      Reachable c t → Reachable c (t.Upsert i p)
  | delete (t : Treap α) (x : α) : Reachable c t → Reachable c (t.Delete x)
  | splitLeft (t : Treap α) (s : α) : Reachable c t → Reachable c (t.Split s).1
  | splitMiddle (t : Treap α) (s : α) (m : Treap α) :
      Reachable c t → (t.Split s).2.1 = some m → Reachable c m
  | splitRight (t : Treap α) (s : α) :
      Reachable c t → Reachable c (t.Split s).2.2

/-- The treap values obtainable like `Reachable`, where every `Upsert` of a key
that is already stored gives it a priority at least the stored one. -/
inductive ReachableRaising (c : α → α → Int) : Treap α → Prop
  | empty : ReachableRaising c (Treap.NewTreap c)
  | upsert (t : Treap α) (i : α) (p : Int) :
      ReachableRaising c t →
      (∀ e ∈ Node.entries t.root, c e.1 i = 0 → e.2 ≤ p) →
      ReachableRaising c (t.Upsert i p)
  | delete (t : Treap α) (x : α) :
      ReachableRaising c t → ReachableRaising c (t.Delete x)
  | splitLeft (t : Treap α) (s : α) :
      ReachableRaising c t → ReachableRaising c (t.Split s).1
  | splitMiddle (t : Treap α) (s : α) (m : Treap α) :
      ReachableRaising c t → (t.Split s).2.1 = some m → ReachableRaising c m
  | splitRight (t : Treap α) (s : α) :
      ReachableRaising c t → ReachableRaising c (t.Split s).2.2

/-- The number of distinct keys of two trees whose own keys are distinct: the
items of `that` and the items of `this` that compare equal to none of them. -/
def distinctKeys (cmp : α → α → Int) (this that : Node α) : Nat :=
  that.toList.length
    + (this.toList.filter
        (fun x => that.toList.all (fun y => decide (cmp x y ≠ 0)))).length

/-- The (item, priority) pair of a middle node as a list: empty for nil. -/
def midEntries : Node α → List (α × Int)
  | Node.nil => []
  | Node.mk i p _ _ _ => [(i, p)]

/-! ### The operations on an explicit heap

The same operations with nodes as heap cells: a pointer is an address
(`none` for nil), the heap is the list of allocated cells, and `&node{...}`
appends a cell.  A result is `none` when a pointer is dangling or the fuel that
bounds the recursion runs out. -/

/-- The Go `node` record as a heap cell; the children are pointers. -/
structure Cell (α : Type) where
  item : α
  priority : Int
  left : Option Nat
  right : Option Nat
  count : Int

/-- The heap: the cell at address `a` is `s[a]?`. -/
abbrev Store (α : Type) := List (Cell α)

/-- Method `getCount` on a pointer. -/
def getCountS (s : Store α) : Option Nat → Option Int
  | none => some 0
  | some a =>
    match s[a]? with
    | none => none
    | some cell => some cell.count

/-- Allocation `&node{item, priority, left, right, 1 + left.getCount() +
right.getCount()}`: returns the grown heap and the new address. -/
def newNodeS (s : Store α) (item : α) (priority : Int) (left right : Option Nat) :
    Option (Store α × Option Nat) :=
  match getCountS s left, getCountS s right with
  | some cl, some cr =>
    some (s ++ [{ item := item, priority := priority, left := left,
                  right := right, count := 1 + cl + cr }], some s.length)
  | _, _ => none

/-- Method `split` on the heap. -/
def splitS (cmp : α → α → Int) :
    Nat → Store α → Option Nat → α →
      Option (Store α × Option Nat × Option Nat × Option Nat)
  | 0, _, _, _ => none
  | _ + 1, s, none, _ => some (s, none, none, none)
  | fuel + 1, s, some a, k =>
    match s[a]? with
    | none => none
    | some n =>
      if cmp k n.item = 0 then some (s, n.left, some a, n.right)
      else if cmp k n.item < 0 then
        match splitS cmp fuel s n.left k with
        | none => none
        | some (s1, left, middle, right) =>
          match newNodeS s1 n.item n.priority right n.right with
          | none => none
          | some (s2, p) => some (s2, left, middle, p)
      else
        match splitS cmp fuel s n.right k with
        | none => none
        | some (s1, left, middle, right) =>
          match newNodeS s1 n.item n.priority n.left left with
          | none => none
          | some (s2, p) => some (s2, p, middle, right)

/-- Method `union` on the heap. -/
def unionS (cmp : α → α → Int) :
    Nat → Store α → Option Nat → Option Nat → Option (Store α × Option Nat)
  | 0, _, _, _ => none
  | _ + 1, s, none, that => some (s, that)
  | _ + 1, s, some a, none => some (s, some a)
  | fuel + 1, s, some a, some b =>
    match s[a]?, s[b]? with
    | some this, some that =>
      if this.priority > that.priority then
        match splitS cmp (fuel + 1) s (some b) this.item with
        | none => none
        | some (s1, left, middle, right) =>
          match middle with
          | none =>
            match unionS cmp fuel s1 this.left left with
            | none => none
            | some (s2, uLeft) =>
              match unionS cmp fuel s2 this.right right with
              | none => none
              | some (s3, uRight) =>
                newNodeS s3 this.item this.priority uLeft uRight
          | some m =>
            match unionS cmp fuel s1 this.left left with
            | none => none
            | some (s2, uLeft) =>
              match unionS cmp fuel s2 this.right right with
              | none => none
              | some (s3, uRight) =>
                match s3[m]? with
                | none => none
                | some mid => newNodeS s3 mid.item mid.priority uLeft uRight
      else
        match splitS cmp (fuel + 1) s (some a) that.item with
        | none => none
        | some (s1, left, _, right) =>
          match unionS cmp fuel s1 left that.left with
          | none => none
          | some (s2, uLeft) =>
            match unionS cmp fuel s2 right that.right with
            | none => none
            | some (s3, uRight) =>
              newNodeS s3 that.item that.priority uLeft uRight
    | _, _ => none

/-- Method `join` on the heap. -/
def joinS :
    Nat → Store α → Option Nat → Option Nat → Option (Store α × Option Nat)
  | 0, _, _, _ => none
  | _ + 1, s, none, that => some (s, that)
  | _ + 1, s, some a, none => some (s, some a)
  | fuel + 1, s, some a, some b =>
    match s[a]?, s[b]? with
    | some this, some that =>
      if this.priority > that.priority then
        match joinS fuel s this.right (some b) with
        | none => none
        | some (s1, right) =>
          newNodeS s1 this.item this.priority this.left right
      else
        match joinS fuel s (some a) that.left with
        | none => none
        | some (s1, left) =>
          newNodeS s1 that.item that.priority left that.right
    | _, _ => none

/-- Method `Upsert` on the heap: allocates the one-node tree, then unites. -/
def UpsertS (cmp : α → α → Int) (fuel : Nat) (s : Store α) (root : Option Nat)
    (item : α) (itemPriority : Int) : Option (Store α × Option Nat) :=
  unionS cmp fuel
    (s ++ [{ item := item, priority := itemPriority, left := none,
             right := none, count := 1 }])
    root (some s.length)

/-- Method `Delete` on the heap. -/
def DeleteS (cmp : α → α → Int) (fuel : Nat) (s : Store α) (root : Option Nat)
    (target : α) : Option (Store α × Option Nat) :=
  match splitS cmp fuel s root target with
  | none => none
  | some (s1, left, _, right) => joinS fuel s1 left right

/-- Method `Split` on the heap: the roots of the left and right treaps and, in
the middle, `none` for the nil treap or the root of the middle treap. -/
def SplitS (cmp : α → α → Int) (fuel : Nat) (s : Store α) (root : Option Nat)
    (k : α) : Option (Store α × Option Nat × Option (Option Nat) × Option Nat) :=
  match splitS cmp fuel s root k with
  | none => none
  | some (s1, nleft, nmiddle, nright) =>
    match nmiddle with
    | none => some (s1, nleft, none, nright)
    | some m =>
      match s1[m]? with
      | none => none
      | some mid =>
        some (s1 ++ [{ item := mid.item, priority := mid.priority, left := none,
                       right := none, count := 1 }],
          nleft, some (some s1.length), nright)

/-- Method `Len` on the heap. -/
def LenS (s : Store α) (root : Option Nat) : Option Int :=
  match root with
  | none => some 0
  | some a =>
    match s[a]? with
    | none => none
    | some cell => some cell.count

/-- The loop of `Min` on the heap, at the cell `n`. -/
def minLoopS : Nat → Store α → Cell α → Option α
  | 0, _, _ => none
  | fuel + 1, s, n =>
    match n.left with
    | none => some n.item
    | some a =>
      match s[a]? with
      | none => none
      | some m => minLoopS fuel s m

/-- The loop of `Max` on the heap, at the cell `n`. -/
def maxLoopS : Nat → Store α → Cell α → Option α
  | 0, _, _ => none
  | fuel + 1, s, n =>
    match n.right with
    | none => some n.item
    | some a =>
      match s[a]? with
      | none => none
      | some m => maxLoopS fuel s m

/-- Method `Min` on the heap; the inner option is the Go result. -/
def MinS (fuel : Nat) (s : Store α) (root : Option Nat) : Option (Option α) :=
  match root with
  | none => some none
  | some a =>
    match s[a]? with
    | none => none
    | some n => (minLoopS fuel s n).map some

/-- Method `Max` on the heap; the inner option is the Go result. -/
def MaxS (fuel : Nat) (s : Store α) (root : Option Nat) : Option (Option α) :=
  match root with
  | none => some none
  | some a =>
    match s[a]? with
    | none => none
    | some n => (maxLoopS fuel s n).map some

/-- Method `Get` on the heap; the inner option is the Go result. -/
def GetS (cmp : α → α → Int) :
    Nat → Store α → Option Nat → α → Option (Option α)
  | 0, _, _, _ => none
  | _ + 1, _, none, _ => some none
  | fuel + 1, s, some a, target =>
    match s[a]? with
    | none => none
    | some n =>
      if cmp target n.item < 0 then GetS cmp fuel s n.left target
      else if cmp target n.item > 0 then GetS cmp fuel s n.right target
      else some (some n.item)

/-- Method `visitAscend` on the heap. -/
def visitAscendS (cmp : α → α → Int) (visitor : ItemVisitor σ α) :
    Nat → Store α → Option Nat → Option α → σ → Option (Bool × σ)
  | 0, _, _, _, _ => none
  | _ + 1, _, none, _, st => some (true, st)
  | fuel + 1, s, some a, pivot, st =>
    match s[a]? with
    | none => none
    | some n =>
      if (match pivot with
          | none => true
          | some pv => decide (cmp pv n.item ≤ 0)) then
        match visitAscendS cmp visitor fuel s n.left pivot st with
        | none => none
        | some x =>
          if !x.1 then some (false, x.2)
          else
            let b := visitor n.item x.2
            if !b.1 then some (false, b.2)
            else visitAscendS cmp visitor fuel s n.right none b.2
      else visitAscendS cmp visitor fuel s n.right pivot st

/-- Method `visitDescend` on the heap. -/
def visitDescendS (cmp : α → α → Int) (visitor : ItemVisitor σ α) :
    Nat → Store α → Option Nat → Option α → σ → Option (Bool × σ)
  | 0, _, _, _, _ => none
  | _ + 1, _, none, _, st => some (true, st)
  | fuel + 1, s, some a, pivot, st =>
    match s[a]? with
    | none => none
    | some n =>
      if (match pivot with
          | none => true
          | some pv => decide (cmp pv n.item ≥ 0)) then
        match visitDescendS cmp visitor fuel s n.right pivot st with
        | none => none
        | some x =>
          if !x.1 then some (false, x.2)
          else
            let b := visitor n.item x.2
            if !b.1 then some (false, b.2)
            else visitDescendS cmp visitor fuel s n.left none b.2
      else visitDescendS cmp visitor fuel s n.left pivot st

/-- The pointer `p` in the heap `s` is the root of the tree `n`. -/
def Rep (s : Store α) : Option Nat → Node α → Prop
  | none, Node.nil => True
  | some a, Node.mk i p l r c =>
    ∃ cl cr, s[a]? = some { item := i, priority := p, left := cl, right := cr,
                            count := c } ∧ Rep s cl l ∧ Rep s cr r
  | none, Node.mk _ _ _ _ _ => False
  | some _, Node.nil => False

/-- Every observation of the treap rooted at `px` in the heap `s` returns, and
returns what the observation of the treap `x` returns. -/
def Observes (fuel : Nat) (s : Store α) (px : Option Nat) (x : Treap α) : Prop :=
  (∀ target, GetS x.compare fuel s px target = some (x.Get target)) ∧
  MinS fuel s px = some x.Min ∧
  MaxS fuel s px = some x.Max ∧
  LenS s px = some x.Len ∧
  (∀ (τ : Type) (visitor : ItemVisitor τ α) (pivot : Option α) (st : τ),
    visitAscendS x.compare visitor fuel s px pivot st
      = some (x.visitAscend visitor x.root pivot st)) ∧
  (∀ (τ : Type) (visitor : ItemVisitor τ α) (pivot : Option α) (st : τ),
    visitDescendS x.compare visitor fuel s px pivot st
      = some (x.visitDescend visitor x.root pivot st))

/-- A heap holding one cell: the item 2 with priority 30 and no children. -/
def oneCellStore : Store Int := [Cell.mk 2 30 none none 1]

/-- The treap over `intCompare` whose root is the cell of `oneCellStore`. -/
def oneNodeTreap : Treap Int :=
  { compare := intCompare, root := Node.mk 2 30 Node.nil Node.nil 1 }

/-- The treap obtained from the empty treap over `intCompare` by upserting 2
with priority 30, 1 with priority 10 and 3 with priority 20. -/
def builtSample : Treap Int :=
  (((Treap.NewTreap intCompare).Upsert 2 30).Upsert 1 10).Upsert 3 20

end Predicates

/-! ## The comparator -/

namespace Lawful

variable {α : Type} {cmp : α → α → Int}

theorem refl (h : Lawful cmp) (a : α) : cmp a a = 0 := by
  have := h.swap a a
  omega

theorem eq_swap (h : Lawful cmp) {a b : α} (e : cmp a b = 0) : cmp b a = 0 := by
  have h1 := h.swap a b
  have h2 := h.swap b a
  omega

theorem gt_swap (h : Lawful cmp) {a b : α} (e : 0 < cmp a b) : cmp b a < 0 :=
  (h.swap b a).2 e

theorem lt_swap (h : Lawful cmp) {a b : α} (e : cmp a b < 0) : 0 < cmp b a :=
  (h.swap a b).1 e

theorem lt_of_lt_of_le (h : Lawful cmp) {a b c : α} (h1 : cmp a b < 0)
    (h2 : cmp b c ≤ 0) : cmp a c < 0 := by
  by_contra hc
  have h3 : cmp c a ≤ 0 := by
    have := h.swap a c
    have := h.swap c a
    omega
  have h4 := h.trans b c a h2 h3
  have := h.swap a b
  omega

theorem lt_of_le_of_lt (h : Lawful cmp) {a b c : α} (h1 : cmp a b ≤ 0)
    (h2 : cmp b c < 0) : cmp a c < 0 := by
  by_contra hc
  have h3 : cmp c a ≤ 0 := by
    have := h.swap a c
    have := h.swap c a
    omega
  have h4 := h.trans c a b h3 h1
  have := h.swap b c
  omega

theorem lt_trans (h : Lawful cmp) {a b c : α} (h1 : cmp a b < 0)
    (h2 : cmp b c < 0) : cmp a c < 0 :=
  h.lt_of_lt_of_le h1 (le_of_lt h2)

/-- Items comparing equal compare alike against any third item (left side). -/
theorem lt_congr_left (h : Lawful cmp) {a b : α} (e : cmp a b = 0) (c : α) :
    cmp a c < 0 ↔ cmp b c < 0 :=
  ⟨fun h1 => h.lt_of_le_of_lt (le_of_eq (h.eq_swap e)) h1,
   fun h1 => h.lt_of_le_of_lt (le_of_eq e) h1⟩

/-- Items comparing equal compare alike against any third item (right side). -/
theorem lt_congr_right (h : Lawful cmp) {a b : α} (e : cmp a b = 0) (c : α) :
    cmp c a < 0 ↔ cmp c b < 0 :=
  ⟨fun h1 => h.lt_of_lt_of_le h1 (le_of_eq e),
   fun h1 => h.lt_of_lt_of_le h1 (le_of_eq (h.eq_swap e))⟩

theorem gt_congr_left (h : Lawful cmp) {a b : α} (e : cmp a b = 0) (c : α) :
    0 < cmp a c ↔ 0 < cmp b c := by
  rw [← h.swap c a, ← h.swap c b]
  exact h.lt_congr_right e c

theorem gt_congr_right (h : Lawful cmp) {a b : α} (e : cmp a b = 0) (c : α) :
    0 < cmp c a ↔ 0 < cmp c b := by
  rw [← h.swap a c, ← h.swap b c]
  exact h.lt_congr_left e c

theorem eq_congr_left (h : Lawful cmp) {a b : α} (e : cmp a b = 0) (c : α) :
    cmp a c = 0 ↔ cmp b c = 0 := by
  have h1 := h.lt_congr_left e c
  have h2 := h.gt_congr_left e c
  omega

theorem eq_congr_right (h : Lawful cmp) {a b : α} (e : cmp a b = 0) (c : α) :
    cmp c a = 0 ↔ cmp c b = 0 := by
  have h1 := h.lt_congr_right e c
  have h2 := h.gt_congr_right e c
  omega

end Lawful

/-! ## Counts and in-order lists -/

section Structure

variable {α σ : Type}

theorem getCount_eq_length {n : Node α} (h : SizeOK n) :
    n.getCount = (n.toList.length : Int) := by
  induction n with
  | nil => simp [Node.getCount, Node.toList]
  | mk i p l r c ihl ihr =>
    obtain ⟨hc, hl, hr⟩ := h
    simp only [Node.getCount, Node.toList, List.length_append, List.length_cons]
    rw [hc, ihl hl, ihr hr]
    push_cast
    ring

theorem len_eq_getCount (t : Treap α) : t.Len = t.root.getCount := by
  unfold Treap.Len
  cases t.root <;> rfl

/-- The in-order list of a tree is that of the left piece of a split, the
middle item if any, and that of the right piece. -/
theorem split_toList (t : Treap α) (n : Node α) (s : α) :
    n.toList = (t.split n s).1.toList ++ midList (t.split n s).2.1
      ++ (t.split n s).2.2.toList := by
  induction n with
  | nil => simp [Treap.split, Node.toList, midList]
  | mk i p l r c ihl ihr =>
    simp only [Treap.split]
    split_ifs with h0 h1
    · simp [Node.toList, midList]
    · simp only [Node.toList]
      conv_lhs => rw [ihl]
      simp [List.append_assoc]
    · simp only [Node.toList]
      conv_lhs => rw [ihr]
      simp [List.append_assoc]

theorem split_left_subset (t : Treap α) (n : Node α) (s : α) :
    ∀ x ∈ (t.split n s).1.toList, x ∈ n.toList := by
  intro x hx
  rw [split_toList t n s]
  simp [hx]

theorem split_right_subset (t : Treap α) (n : Node α) (s : α) :
    ∀ x ∈ (t.split n s).2.2.toList, x ∈ n.toList := by
  intro x hx
  rw [split_toList t n s]
  simp [hx]

theorem split_mid_subset (t : Treap α) (n : Node α) (s : α) :
    ∀ x ∈ midList (t.split n s).2.1, x ∈ n.toList := by
  intro x hx
  rw [split_toList t n s]
  simp [hx]

/-- The middle item of a split compares equal to the pivot. -/
theorem split_mid_eq (t : Treap α) (n : Node α) (s : α) :
    ∀ x ∈ midList (t.split n s).2.1, t.compare s x = 0 := by
  induction n with
  | nil => simp [Treap.split, midList]
  | mk i p l r c ihl ihr =>
    simp only [Treap.split]
    split_ifs with h0 h1
    · simpa [midList] using h0
    · exact ihl
    · exact ihr

theorem split_sizeOK (t : Treap α) {n : Node α} (s : α) (h : SizeOK n) :
    SizeOK (t.split n s).1 ∧ SizeOK (t.split n s).2.2 := by
  induction n with
  | nil => simp [Treap.split, SizeOK]
  | mk i p l r c ihl ihr =>
    obtain ⟨hc, hl, hr⟩ := h
    simp only [Treap.split]
    split_ifs with h0 h1
    · exact ⟨hl, hr⟩
    · exact ⟨(ihl hl).1, rfl, (ihl hl).2, hr⟩
    · exact ⟨⟨rfl, hl, (ihr hr).1⟩, (ihr hr).2⟩

theorem split_BST (t : Treap α) {n : Node α} (s : α) (h : BST t.compare n) :
    BST t.compare (t.split n s).1 ∧ BST t.compare (t.split n s).2.2 := by
  induction n with
  | nil => simp [Treap.split, BST]
  | mk i p l r c ihl ihr =>
    obtain ⟨hlt, hgt, hl, hr⟩ := h
    simp only [Treap.split]
    split_ifs with h0 h1
    · exact ⟨hl, hr⟩
    · exact ⟨(ihl hl).1,
        fun x hx => hlt x (split_right_subset t l s x hx), hgt, (ihl hl).2, hr⟩
    · exact ⟨⟨hlt, fun x hx => hgt x (split_left_subset t r s x hx), hl,
        (ihr hr).1⟩, (ihr hr).2⟩

/-- Under BST ordering the left piece of a split holds only items that compare
less than the pivot. -/
theorem split_left_lt (t : Treap α) (hc : Lawful t.compare) {n : Node α} (s : α)
    (h : BST t.compare n) : ∀ x ∈ (t.split n s).1.toList, t.compare x s < 0 := by
  induction n with
  | nil => simp [Treap.split, Node.toList]
  | mk i p l r c ihl ihr =>
    obtain ⟨hlt, hgt, hl, hr⟩ := h
    simp only [Treap.split]
    split_ifs with h0 h1
    · intro x hx
      exact (hc.lt_congr_right h0 x).2 (hlt x hx)
    · exact ihl hl
    · have hi : t.compare i s < 0 := by
        have := hc.swap i s
        omega
      intro x hx
      simp only [Node.toList, List.mem_append, List.mem_cons] at hx
      rcases hx with hx | hx | hx
      · exact hc.lt_trans (hlt x hx) hi
      · exact hx ▸ hi
      · exact ihr hr x hx

/-- Under BST ordering the right piece of a split holds only items that compare
greater than the pivot. -/
theorem split_right_gt (t : Treap α) (hc : Lawful t.compare) {n : Node α} (s : α)
    (h : BST t.compare n) : ∀ x ∈ (t.split n s).2.2.toList, 0 < t.compare x s := by
  induction n with
  | nil => simp [Treap.split, Node.toList]
  | mk i p l r c ihl ihr =>
    obtain ⟨hlt, hgt, hl, hr⟩ := h
    simp only [Treap.split]
    split_ifs with h0 h1
    · intro x hx
      exact (hc.gt_congr_right h0 x).2 (hgt x hx)
    · have hi : t.compare s i < 0 := h1
      intro x hx
      simp only [Node.toList, List.mem_append, List.mem_cons] at hx
      rcases hx with hx | hx | hx
      · exact ihl hl x hx
      · exact hx ▸ hc.lt_swap hi
      · exact hc.lt_swap (hc.lt_trans hi (hc.gt_swap (hgt x hx)))
    · exact ihr hr

end Structure

/-! ## join -/

section Join

variable {α : Type}

theorem join_nil_left (t : Treap α) (that : Node α) :
    t.join Node.nil that = that := by
  rw [Treap.join]

theorem join_nil_right (t : Treap α) (this : Node α) :
    t.join this Node.nil = this := by
  cases this with
  | nil => rw [Treap.join]
  | mk i p l r c => rw [Treap.join]; simp

/-- The in-order list of a join is the concatenation of the two in-order lists. -/
theorem join_toList (t : Treap α) (this that : Node α) :
    (t.join this that).toList = this.toList ++ that.toList := by
  induction this, that using Treap.join.induct t with
  | case1 that => rw [join_nil_left]; simp [Node.toList]
  | case2 this _ => rw [join_nil_right]; simp [Node.toList]
  | case3 ti tp tl tr tc hi hp hl hr hc h ih =>
    rw [Treap.join]
    simp only [h, if_true, Node.toList, ih]
    simp [List.append_assoc]
  | case4 ti tp tl tr tc hi hp hl hr hc h ih =>
    rw [Treap.join]
    simp only [h, if_false, Node.toList, ih]
    simp [List.append_assoc]

theorem join_sizeOK (t : Treap α) (this that : Node α) (h1 : SizeOK this)
    (h2 : SizeOK that) : SizeOK (t.join this that) := by
  induction this, that using Treap.join.induct t with
  | case1 that => rw [join_nil_left]; exact h2
  | case2 this _ => rw [join_nil_right]; exact h1
  | case3 ti tp tl tr tc hi hp hl hr hc h ih =>
    rw [Treap.join]
    simp only [h, if_true]
    exact ⟨rfl, h1.2.1, ih h1.2.2 h2⟩
  | case4 ti tp tl tr tc hi hp hl hr hc h ih =>
    rw [Treap.join]
    simp only [h, if_false]
    exact ⟨rfl, ih h1 h2.2.1, h2.2.2⟩

/-- The join of two BST-ordered trees, the first wholly below the second, is
BST-ordered. -/
theorem join_BST (t : Treap α) (hc : Lawful t.compare) (this that : Node α)
    (h1 : BST t.compare this) (h2 : BST t.compare that)
    (h12 : ∀ x ∈ this.toList, ∀ y ∈ that.toList, t.compare x y < 0) :
    BST t.compare (t.join this that) := by
  induction this, that using Treap.join.induct t with
  | case1 that => rw [join_nil_left]; exact h2
  | case2 this _ => rw [join_nil_right]; exact h1
  | case3 ti tp tl tr tc hi hp hl hr hcnt h ih =>
    rw [Treap.join]
    simp only [h, if_true]
    obtain ⟨a1, a2, a3, a4⟩ := h1
    refine ⟨a1, ?_, a3, ih a4 h2 ?_⟩
    · intro x hx
      rw [join_toList] at hx
      rcases List.mem_append.1 hx with hx | hx
      · exact a2 x hx
      · exact hc.lt_swap (h12 ti (by simp [Node.toList]) x hx)
    · intro x hx y hy
      exact h12 x (by simp [Node.toList, hx]) y hy
  | case4 ti tp tl tr tc hi hp hl hr hcnt h ih =>
    rw [Treap.join]
    simp only [h, if_false]
    obtain ⟨b1, b2, b3, b4⟩ := h2
    refine ⟨?_, b2, ih h1 b3 ?_, b4⟩
    · intro x hx
      rw [join_toList] at hx
      rcases List.mem_append.1 hx with hx | hx
      · exact h12 x hx hi (by simp [Node.toList])
      · exact b1 x hx
    · intro x hx y hy
      exact h12 x hx y (by simp [Node.toList, hy])

end Join

/-! ## Sortedness and lookup -/

section Lookup

variable {α : Type}

/-- The in-order list of a BST-ordered tree is strictly increasing. -/
theorem BST_pairwise {cmp : α → α → Int} (hc : Lawful cmp) {n : Node α}
    (h : BST cmp n) : n.toList.Pairwise (fun a b => cmp a b < 0) := by
  induction n with
  | nil => simp [Node.toList]
  | mk i p l r c ihl ihr =>
    obtain ⟨hlt, hgt, hl, hr⟩ := h
    simp only [Node.toList]
    rw [List.pairwise_append]
    refine ⟨ihl hl, ?_, ?_⟩
    · rw [List.pairwise_cons]
      exact ⟨fun x hx => hc.gt_swap (hgt x hx), ihr hr⟩
    · intro a ha b hb
      rcases List.mem_cons.1 hb with hb | hb
      · exact hb ▸ hlt a ha
      · exact hc.lt_trans (hlt a ha) (hc.gt_swap (hgt b hb))

/-- Lookup in a BST-ordered tree finds exactly the stored item that compares
equal to the target. -/
theorem getLoop_eq_some_iff (t : Treap α) (hc : Lawful t.compare) {n : Node α}
    (h : BST t.compare n) (k i : α) :
    t.getLoop k n = some i ↔ i ∈ n.toList ∧ t.compare k i = 0 := by
  induction n with
  | nil => simp [Treap.getLoop, Node.toList]
  | mk j p l r c ihl ihr =>
    obtain ⟨hlt, hgt, hl, hr⟩ := h
    simp only [Treap.getLoop, Node.toList, List.mem_append, List.mem_cons]
    split_ifs with h1 h2
    · rw [ihl hl]
      constructor
      · rintro ⟨a, b⟩; exact ⟨Or.inl a, b⟩
      · rintro ⟨a | a | a, b⟩
        · exact ⟨a, b⟩
        · subst a; omega
        · have := hc.lt_trans h1 (hc.gt_swap (hgt i a)); omega
    · rw [ihr hr]
      constructor
      · rintro ⟨a, b⟩; exact ⟨Or.inr (Or.inr a), b⟩
      · rintro ⟨a | a | a, b⟩
        · have := hc.lt_trans (hlt i a) (hc.gt_swap h2)
          have := hc.swap i k
          omega
        · subst a; omega
        · exact ⟨a, b⟩
    · have h0 : t.compare k j = 0 := by omega
      constructor
      · intro e
        cases e
        exact ⟨Or.inr (Or.inl rfl), h0⟩
      · rintro ⟨a | a | a, b⟩
        · exact absurd (hlt i a) (by
            have := hc.eq_swap b
            have := hc.eq_congr_left this j
            omega)
        · rw [a]
        · exact absurd (hgt i a) (by
            have := hc.eq_swap b
            have := hc.eq_congr_left this j
            omega)

end Lookup

/-! ## The pieces of a split as filters of the in-order list -/

section SplitFilter

variable {α : Type}

theorem filter_left_of_three (p : α → Bool) (A B C : List α)
    (hA : ∀ x ∈ A, p x = true) (hB : ∀ x ∈ B, ¬ p x = true)
    (hC : ∀ x ∈ C, ¬ p x = true) : (A ++ B ++ C).filter p = A := by
  rw [List.filter_append, List.filter_append, List.filter_eq_self.2 hA,
    List.filter_eq_nil_iff.2 hB, List.filter_eq_nil_iff.2 hC]
  simp

theorem filter_mid_of_three (p : α → Bool) (A B C : List α)
    (hA : ∀ x ∈ A, ¬ p x = true) (hB : ∀ x ∈ B, p x = true)
    (hC : ∀ x ∈ C, ¬ p x = true) : (A ++ B ++ C).filter p = B := by
  rw [List.filter_append, List.filter_append, List.filter_eq_self.2 hB,
    List.filter_eq_nil_iff.2 hA, List.filter_eq_nil_iff.2 hC]
  simp

theorem filter_right_of_three (p : α → Bool) (A B C : List α)
    (hA : ∀ x ∈ A, ¬ p x = true) (hB : ∀ x ∈ B, ¬ p x = true)
    (hC : ∀ x ∈ C, p x = true) : (A ++ B ++ C).filter p = C := by
  rw [List.filter_append, List.filter_append, List.filter_eq_self.2 hC,
    List.filter_eq_nil_iff.2 hA, List.filter_eq_nil_iff.2 hB]
  simp

theorem split_mid_eq_swap (t : Treap α) (hc : Lawful t.compare) (n : Node α)
    (s : α) : ∀ x ∈ midList (t.split n s).2.1, t.compare x s = 0 :=
  fun x hx => hc.eq_swap (split_mid_eq t n s x hx)

theorem split_left_eq_filter (t : Treap α) (hc : Lawful t.compare) {n : Node α}
    (s : α) (h : BST t.compare n) :
    (t.split n s).1.toList
      = n.toList.filter (fun x => decide (t.compare x s < 0)) := by
  conv_rhs => rw [split_toList t n s]
  symm
  apply filter_left_of_three
  · intro x hx; simpa using split_left_lt t hc s h x hx
  · intro x hx
    have := split_mid_eq_swap t hc n s x hx
    simp; omega
  · intro x hx
    have := split_right_gt t hc s h x hx
    simp; omega

theorem split_right_eq_filter (t : Treap α) (hc : Lawful t.compare) {n : Node α}
    (s : α) (h : BST t.compare n) :
    (t.split n s).2.2.toList
      = n.toList.filter (fun x => decide (0 < t.compare x s)) := by
  conv_rhs => rw [split_toList t n s]
  symm
  apply filter_right_of_three
  · intro x hx
    have := split_left_lt t hc s h x hx
    simp; omega
  · intro x hx
    have := split_mid_eq_swap t hc n s x hx
    simp; omega
  · intro x hx; simpa using split_right_gt t hc s h x hx

theorem split_mid_eq_filter (t : Treap α) (hc : Lawful t.compare) {n : Node α}
    (s : α) (h : BST t.compare n) :
    midList (t.split n s).2.1
      = n.toList.filter (fun x => decide (t.compare x s = 0)) := by
  conv_rhs => rw [split_toList t n s]
  symm
  apply filter_mid_of_three
  · intro x hx
    have := split_left_lt t hc s h x hx
    simp; omega
  · intro x hx; simpa using split_mid_eq_swap t hc n s x hx
  · intro x hx
    have := split_right_gt t hc s h x hx
    simp; omega

theorem midList_eq_nil_iff (m : Node α) : midList m = [] ↔ m = Node.nil := by
  cases m <;> simp [midList]

/-- The middle of a split is nil exactly when no stored item compares equal to
the pivot. -/
theorem split_mid_nil_iff (t : Treap α) (hc : Lawful t.compare) {n : Node α}
    (s : α) (h : BST t.compare n) :
    (t.split n s).2.1 = Node.nil ↔ ∀ x ∈ n.toList, t.compare x s ≠ 0 := by
  rw [← midList_eq_nil_iff, split_mid_eq_filter t hc s h, List.filter_eq_nil_iff]
  simp

theorem midList_length (m : Node α) :
    ((midList m).length : Int) = match m with
      | Node.nil => 0
      | Node.mk _ _ _ _ _ => 1 := by
  cases m <;> simp [midList]

end SplitFilter

theorem intCompare_lawful : Lawful intCompare :=
  ⟨fun a b => by unfold intCompare; omega,
   fun a b c => by unfold intCompare; omega⟩

theorem sampleTreap_lawful : Lawful sampleTreap.compare := intCompare_lawful

theorem sampleTreap_BST : BST sampleTreap.compare sampleTreap.root := by decide

theorem sampleTreap_sizeOK : SizeOK sampleTreap.root := by decide


section DeleteLemmas

variable {α : Type}

/-- The lookup loop reads the treap only through its comparator. -/
theorem getLoop_compare (t u : Treap α) (h : t.compare = u.compare) (k : α)
    (n : Node α) : t.getLoop k n = u.getLoop k n := by
  induction n with
  | nil => rfl
  | mk i p l r c ihl ihr => simp only [Treap.getLoop, h, ihl, ihr]

/-- Two BST-ordered trees holding the same items comparing equal to `k` give
the same lookup of `k`. -/
theorem getLoop_congr (t : Treap α) (hc : Lawful t.compare) {n m : Node α}
    (hn : BST t.compare n) (hm : BST t.compare m) (k : α)
    (h : ∀ i, t.compare k i = 0 → (i ∈ n.toList ↔ i ∈ m.toList)) :
    t.getLoop k n = t.getLoop k m := by
  apply Option.ext
  intro i
  simp only [Option.mem_def]
  rw [getLoop_eq_some_iff t hc hn, getLoop_eq_some_iff t hc hm]
  constructor
  · rintro ⟨a, b⟩; exact ⟨(h i b).1 a, b⟩
  · rintro ⟨a, b⟩; exact ⟨(h i b).2 a, b⟩

theorem getLoop_eq_none_iff (t : Treap α) (hc : Lawful t.compare) {n : Node α}
    (h : BST t.compare n) (k : α) :
    t.getLoop k n = none ↔ ∀ i ∈ n.toList, t.compare k i ≠ 0 := by
  constructor
  · intro e i hi h0
    have := (getLoop_eq_some_iff t hc h k i).2 ⟨hi, h0⟩
    rw [e] at this
    cases this
  · intro e
    cases e1 : t.getLoop k n with
    | none => rfl
    | some i =>
      have := (getLoop_eq_some_iff t hc h k i).1 e1
      exact absurd this.2 (e i this.1)

theorem delete_toList (t : Treap α) (x : α) :
    (t.Delete x).root.toList
      = (t.split t.root x).1.toList ++ (t.split t.root x).2.2.toList := by
  simp only [Treap.Delete, join_toList]

theorem delete_BST (t : Treap α) (hc : Lawful t.compare)
    (hb : BST t.compare t.root) (x : α) :
    BST t.compare (t.Delete x).root := by
  simp only [Treap.Delete]
  apply join_BST t hc _ _ (split_BST t x hb).1 (split_BST t x hb).2
  intro a ha b hb2
  exact hc.lt_trans (split_left_lt t hc x hb a ha)
    (hc.gt_swap (split_right_gt t hc x hb b hb2))

theorem delete_sizeOK (t : Treap α) (hs : SizeOK t.root) (x : α) :
    SizeOK (t.Delete x).root := by
  simp only [Treap.Delete]
  exact join_sizeOK t _ _ (split_sizeOK t x hs).1 (split_sizeOK t x hs).2

/-- Membership in the tree after `Delete x`: the stored items that do not
compare equal to `x`. -/
theorem mem_delete_iff (t : Treap α) (hc : Lawful t.compare)
    (hb : BST t.compare t.root) (x i : α) :
    i ∈ (t.Delete x).root.toList ↔ i ∈ t.root.toList ∧ t.compare i x ≠ 0 := by
  rw [delete_toList, split_left_eq_filter t hc x hb,
    split_right_eq_filter t hc x hb]
  simp only [List.mem_append, List.mem_filter, decide_eq_true_eq]
  constructor
  · rintro (⟨a, b⟩ | ⟨a, b⟩)
    · exact ⟨a, by omega⟩
    · exact ⟨a, by omega⟩
  · rintro ⟨a, b⟩
    rcases lt_trichotomy (t.compare i x) 0 with h | h | h
    · exact Or.inl ⟨a, h⟩
    · exact absurd h b
    · exact Or.inr ⟨a, h⟩

end DeleteLemmas


/-! ## Traversal -/

section Traversal

variable {α σ : Type}

theorem runVisitor_append (v : ItemVisitor σ α) (xs ys : List α) (st : σ) :
    runVisitor v (xs ++ ys) st
      = if !(runVisitor v xs st).1 then (false, (runVisitor v xs st).2)
        else runVisitor v ys (runVisitor v xs st).2 := by
  induction xs generalizing st with
  | nil => simp [runVisitor]
  | cons x xs ih =>
    simp only [List.cons_append, runVisitor]
    by_cases h : (v x st).1 = true
    · simp only [h, Bool.not_true, Bool.false_eq_true, if_false]
      exact ih _
    · simp [h]

/-- The ascending traversal runs the visitor over `ascendItems`. -/
theorem visitAscend_eq_run (t : Treap α) (v : ItemVisitor σ α) (n : Node α)
    (pivot : Option α) (st : σ) :
    t.visitAscend v n pivot st = runVisitor v (ascendItems t n pivot) st := by
  induction n generalizing pivot st with
  | nil => simp [Treap.visitAscend, ascendItems, runVisitor]
  | mk i p l r c ihl ihr =>
    simp only [Treap.visitAscend, ascendItems]
    split_ifs with h1 h2 h3
    · rw [runVisitor_append, ← ihl, if_pos h2]
    · rw [runVisitor_append, ← ihl, if_neg h2]
      simp only [runVisitor, h3, if_true]
    · rw [runVisitor_append, ← ihl, if_neg h2]
      simp only [runVisitor, h3, if_false]
      exact ihr _ _
    · exact ihr _ _

/-- The descending traversal runs the visitor over `descendItems`. -/
theorem visitDescend_eq_run (t : Treap α) (v : ItemVisitor σ α) (n : Node α)
    (pivot : Option α) (st : σ) :
    t.visitDescend v n pivot st = runVisitor v (descendItems t n pivot) st := by
  induction n generalizing pivot st with
  | nil => simp [Treap.visitDescend, descendItems, runVisitor]
  | mk i p l r c ihl ihr =>
    simp only [Treap.visitDescend, descendItems]
    split_ifs with h1 h2 h3
    · rw [runVisitor_append, ← ihr, if_pos h2]
    · rw [runVisitor_append, ← ihr, if_neg h2]
      simp only [runVisitor, h3, if_true]
    · rw [runVisitor_append, ← ihr, if_neg h2]
      simp only [runVisitor, h3, if_false]
      exact ihl _ _
    · exact ihl _ _

/-- The log of an instrumented visitor grows by the cut-off prefix. -/
theorem runVisitor_logged (v : ItemVisitor σ α) (xs : List α) (st : σ)
    (log : List α) :
    (runVisitor (logged v) xs (st, log)).2.2 = log ++ cutAfterStop v xs st := by
  induction xs generalizing st log with
  | nil => simp [runVisitor, cutAfterStop]
  | cons x xs ih =>
    simp only [runVisitor, cutAfterStop, logged]
    by_cases h : (v x st).1 = true
    · simp only [h, Bool.not_true, Bool.false_eq_true, if_false, if_true]
      have := ih (v x st).2 (log ++ [x])
      simp only [logged] at this
      rw [this]
      simp
    · simp [h]

theorem cutAfterStop_of_true (v : ItemVisitor σ α)
    (hv : ∀ i st, (v i st).1 = true) (xs : List α) (st : σ) :
    cutAfterStop v xs st = xs := by
  induction xs generalizing st with
  | nil => rfl
  | cons x xs ih => simp [cutAfterStop, hv, ih]

theorem ascendItems_none (t : Treap α) (n : Node α) :
    ascendItems t n none = n.toList := by
  induction n with
  | nil => rfl
  | mk i p l r c ihl ihr => simp [ascendItems, Node.toList, ihl, ihr]

theorem descendItems_none (t : Treap α) (n : Node α) :
    descendItems t n none = n.toList.reverse := by
  induction n with
  | nil => rfl
  | mk i p l r c ihl ihr => simp [descendItems, Node.toList, ihl, ihr]

/-- With a pivot, the ascending traversal of a BST-ordered tree offers the
in-order items `x` with `compare pivot x ≤ 0`. -/
theorem ascendItems_some (t : Treap α) (hc : Lawful t.compare) {n : Node α}
    (h : BST t.compare n) (pv : α) :
    ascendItems t n (some pv)
      = n.toList.filter (fun x => decide (t.compare pv x ≤ 0)) := by
  induction n with
  | nil => rfl
  | mk i p l r c ihl ihr =>
    obtain ⟨hlt, hgt, hl, hr⟩ := h
    simp only [ascendItems, Node.toList, List.filter_append, List.filter_cons]
    by_cases h1 : t.compare pv i ≤ 0
    · simp only [h1, decide_True, if_true]
      rw [ihl hl, ascendItems_none]
      congr 2
      symm
      rw [List.filter_eq_self]
      intro x hx
      have h2 : t.compare pv x < 0 :=
        hc.lt_of_le_of_lt h1 (hc.gt_swap (hgt x hx))
      simp; omega
    · simp only [h1, decide_False, if_false, Bool.false_eq_true]
      rw [ihr hr]
      have : l.toList.filter (fun x => decide (t.compare pv x ≤ 0)) = [] := by
        rw [List.filter_eq_nil_iff]
        intro x hx
        have h2 : t.compare x pv < 0 :=
          hc.lt_trans (hlt x hx) (hc.gt_swap (by omega))
        have := hc.swap x pv
        simp; omega
      rw [this]
      simp

/-- With a pivot, the descending traversal of a BST-ordered tree offers the
reversed in-order items `x` with `compare pivot x ≥ 0`. -/
theorem descendItems_some (t : Treap α) (hc : Lawful t.compare) {n : Node α}
    (h : BST t.compare n) (pv : α) :
    descendItems t n (some pv)
      = n.toList.reverse.filter (fun x => decide (t.compare pv x ≥ 0)) := by
  induction n with
  | nil => rfl
  | mk i p l r c ihl ihr =>
    obtain ⟨hlt, hgt, hl, hr⟩ := h
    simp only [descendItems, Node.toList, List.reverse_append, List.reverse_cons,
      List.filter_append, List.append_assoc]
    by_cases h1 : t.compare pv i ≥ 0
    · simp only [h1, decide_True, if_true]
      rw [ihr hr, descendItems_none]
      have : l.toList.reverse.filter (fun x => decide (t.compare pv x ≥ 0))
          = l.toList.reverse := by
        rw [List.filter_eq_self]
        intro x hx
        have h2 : t.compare x pv < 0 := by
          have h3 : t.compare i pv ≤ 0 := by
            have := hc.swap pv i
            omega
          exact hc.lt_of_lt_of_le (hlt x (List.mem_reverse.1 hx)) h3
        have := hc.swap x pv
        simp; omega
      rw [this]
      simp [h1]
    · simp only [h1, decide_False, if_false, Bool.false_eq_true]
      rw [ihl hl]
      have : r.toList.reverse.filter (fun x => decide (t.compare pv x ≥ 0))
          = [] := by
        rw [List.filter_eq_nil_iff]
        intro x hx
        have h2 : t.compare pv x < 0 :=
          hc.lt_trans (by omega) (hc.gt_swap (hgt x (List.mem_reverse.1 hx)))
        simp; omega
      rw [this]
      simp [h1]

end Traversal


/-! ## Min and Max -/

section MinMax

variable {α σ : Type}

theorem minLoop_head (l : Node α) (i : α) (rest : List α) :
    (l.toList ++ i :: rest).head? = some (Treap.minLoop i l) := by
  induction l generalizing i rest with
  | nil => simp [Node.toList, Treap.minLoop]
  | mk j p l r c ihl _ =>
    simp only [Node.toList, Treap.minLoop, List.append_assoc, List.cons_append]
    exact ihl j _

theorem maxLoop_last (r : Node α) (i : α) (pre : List α) :
    (pre ++ i :: r.toList).getLast? = some (Treap.maxLoop i r) := by
  induction r generalizing i pre with
  | nil => simp [Node.toList, Treap.maxLoop]
  | mk j p l r c _ ihr =>
    simp only [Node.toList, Treap.maxLoop]
    have := ihr j (pre ++ i :: l.toList)
    simpa [List.append_assoc] using this

theorem min_eq_head (t : Treap α) : t.Min = t.root.toList.head? := by
  unfold Treap.Min
  cases t.root with
  | nil => rfl
  | mk i p l r c => exact (minLoop_head l i r.toList).symm

theorem max_eq_last (t : Treap α) : t.Max = t.root.toList.getLast? := by
  unfold Treap.Max
  cases t.root with
  | nil => rfl
  | mk i p l r c => exact (maxLoop_last r i l.toList).symm

theorem cutAfterStop_pred (p : α → Bool) (xs : List α) (st : σ) :
    cutAfterStop (fun i s => (p i, s)) xs st
      = xs.take (xs.findIdx (fun x => !p x) + 1) := by
  induction xs with
  | nil => rfl
  | cons x xs ih =>
    simp only [cutAfterStop, List.findIdx_cons]
    by_cases h : p x = true
    · simp [h, ih]
    · simp [h]

end MinMax


/-! ## union -/

section Union

variable {α : Type}

theorem union_nil_left (t : Treap α) (that : Node α) :
    t.union Node.nil that = that := by
  rw [Treap.union]

theorem union_nil_right (t : Treap α) (this : Node α) :
    t.union this Node.nil = this := by
  cases this with
  | nil => rw [Treap.union]
  | mk i p l r c => rw [Treap.union]; simp

/-- Membership in a precedence merge of two lists cut at a common pivot `s`:
the merge of the parts below `s`, the middle of the second list (or of the
first when the second has none), and the merge of the parts above `s`. -/
theorem mergeMem_cut {cmp : α → α → Int} (hc : Lawful cmp) (s : α)
    (A1 MA A2 B1 MB B2 : List α)
    (hA1 : ∀ x ∈ A1, cmp x s < 0) (hMA : ∀ x ∈ MA, cmp x s = 0)
    (hA2 : ∀ x ∈ A2, 0 < cmp x s)
    (hB1 : ∀ x ∈ B1, cmp x s < 0) (hMB : ∀ x ∈ MB, cmp x s = 0)
    (hB2 : ∀ x ∈ B2, 0 < cmp x s) (x : α) :
    (x ∈ B1 ++ MB ++ B2 ∨
        (x ∈ A1 ++ MA ++ A2 ∧ ∀ y ∈ B1 ++ MB ++ B2, cmp x y ≠ 0)) ↔
      ((x ∈ B1 ∨ (x ∈ A1 ∧ ∀ y ∈ B1, cmp x y ≠ 0)) ∨
        (x ∈ MB ∨ (x ∈ MA ∧ MB = [])) ∨
        (x ∈ B2 ∨ (x ∈ A2 ∧ ∀ y ∈ B2, cmp x y ≠ 0))) := by
  have lo_ne : ∀ a b, cmp a s < 0 → 0 ≤ cmp b s → cmp a b ≠ 0 := by
    intro a b ha hb
    have h1 : cmp s b ≤ 0 := by
      have := hc.swap s b
      have := hc.swap b s
      omega
    have := hc.lt_of_lt_of_le ha h1
    omega
  have hi_ne : ∀ a b, 0 < cmp a s → cmp b s ≤ 0 → cmp a b ≠ 0 := by
    intro a b ha hb
    have := hc.lt_of_le_of_lt hb (hc.gt_swap ha)
    have := hc.swap b a
    omega
  simp only [List.mem_append]
  constructor
  · rintro (((h | h) | h) | ⟨(h | h) | h, hne⟩)
    · exact Or.inl (Or.inl h)
    · exact Or.inr (Or.inl (Or.inl h))
    · exact Or.inr (Or.inr (Or.inl h))
    · exact Or.inl (Or.inr ⟨h, fun y hy => hne y (Or.inl (Or.inl hy))⟩)
    · refine Or.inr (Or.inl (Or.inr ⟨h, ?_⟩))
      rw [List.eq_nil_iff_forall_not_mem]
      intro m hm
      have e1 := hMA x h
      have e2 := hMB m hm
      have e3 := hc.eq_congr_right (hc.eq_swap e2) x
      exact hne m (Or.inl (Or.inr hm)) (e3.1 e1)
    · exact Or.inr (Or.inr (Or.inr ⟨h, fun y hy => hne y (Or.inr hy)⟩))
  · rintro ((h | ⟨h, hne⟩) | (h | ⟨h, hnil⟩) | (h | ⟨h, hne⟩))
    · exact Or.inl (Or.inl (Or.inl h))
    · refine Or.inr ⟨Or.inl (Or.inl h), ?_⟩
      rintro y ((hy | hy) | hy)
      · exact hne y hy
      · exact lo_ne x y (hA1 x h) (le_of_eq (hMB y hy).symm)
      · exact lo_ne x y (hA1 x h) (le_of_lt (hB2 y hy))
    · exact Or.inl (Or.inl (Or.inr h))
    · refine Or.inr ⟨Or.inl (Or.inr h), ?_⟩
      subst hnil
      rintro y ((hy | hy) | hy)
      · intro e
        exact lo_ne y x (hB1 y hy) (le_of_eq (hMA x h).symm) (hc.eq_swap e)
      · cases hy
      · intro e
        exact hi_ne y x (hB2 y hy) (le_of_eq (hMA x h)) (hc.eq_swap e)
    · exact Or.inl (Or.inr h)
    · refine Or.inr ⟨Or.inr h, ?_⟩
      rintro y ((hy | hy) | hy)
      · exact hi_ne x y (hA2 x h) (le_of_lt (hB1 y hy))
      · exact hi_ne x y (hA2 x h) (le_of_eq (hMB y hy))
      · exact hne y hy

/-- The item `union` puts at the root when `this` has the higher priority. -/
theorem union_gt (t : Treap α) (ti : α) (tp : Int) (tl tr : Node α) (tc : Int)
    (hi : α) (hp : Int) (hl hr : Node α) (hcnt : Int) (h : tp > hp) :
    t.union (Node.mk ti tp tl tr tc) (Node.mk hi hp hl hr hcnt)
      = Node.mk
          (match (t.split (Node.mk hi hp hl hr hcnt) ti).2.1 with
           | Node.nil => ti
           | Node.mk mi _ _ _ _ => mi)
          (match (t.split (Node.mk hi hp hl hr hcnt) ti).2.1 with
           | Node.nil => tp
           | Node.mk _ mp _ _ _ => mp)
          (t.union tl (t.split (Node.mk hi hp hl hr hcnt) ti).1)
          (t.union tr (t.split (Node.mk hi hp hl hr hcnt) ti).2.2)
          (1 + (t.union tl (t.split (Node.mk hi hp hl hr hcnt) ti).1).getCount
            + (t.union tr
                (t.split (Node.mk hi hp hl hr hcnt) ti).2.2).getCount) := by
  rw [Treap.union]
  simp only [h, if_true]
  generalize (t.split (Node.mk hi hp hl hr hcnt) ti).2.1 = M
  cases M <;> rfl

theorem union_le (t : Treap α) (ti : α) (tp : Int) (tl tr : Node α) (tc : Int)
    (hi : α) (hp : Int) (hl hr : Node α) (hcnt : Int) (h : ¬ tp > hp) :
    t.union (Node.mk ti tp tl tr tc) (Node.mk hi hp hl hr hcnt)
      = Node.mk hi hp
          (t.union (t.split (Node.mk ti tp tl tr tc) hi).1 hl)
          (t.union (t.split (Node.mk ti tp tl tr tc) hi).2.2 hr)
          (1 + (t.union (t.split (Node.mk ti tp tl tr tc) hi).1 hl).getCount
            + (t.union
                (t.split (Node.mk ti tp tl tr tc) hi).2.2 hr).getCount) := by
  rw [Treap.union]
  simp only [h, if_false]

/-- Assembling a node from the unions of the lower and of the upper parts. -/
theorem union_assemble {cmp : α → α → Int} (hc : Lawful cmp) (s ρ : α)
    (π cnt : Int) (uL uR : Node α) (A1 MA A2 B1 MB B2 : List α)
    (hA1 : ∀ x ∈ A1, cmp x s < 0) (hMA : ∀ x ∈ MA, cmp x s = 0)
    (hA2 : ∀ x ∈ A2, 0 < cmp x s)
    (hB1 : ∀ x ∈ B1, cmp x s < 0) (hMB : ∀ x ∈ MB, cmp x s = 0)
    (hB2 : ∀ x ∈ B2, 0 < cmp x s)
    (bL : BST cmp uL) (bR : BST cmp uR)
    (mL : ∀ x, x ∈ uL.toList ↔ (x ∈ B1 ∨ (x ∈ A1 ∧ ∀ y ∈ B1, cmp x y ≠ 0)))
    (mR : ∀ x, x ∈ uR.toList ↔ (x ∈ B2 ∨ (x ∈ A2 ∧ ∀ y ∈ B2, cmp x y ≠ 0)))
    (hρ : cmp s ρ = 0)
    (mρ : ∀ x, x = ρ ↔ (x ∈ MB ∨ (x ∈ MA ∧ MB = []))) :
    BST cmp (Node.mk ρ π uL uR cnt) ∧
      ∀ x, x ∈ (Node.mk ρ π uL uR cnt).toList ↔
        (x ∈ B1 ++ MB ++ B2 ∨
          (x ∈ A1 ++ MA ++ A2 ∧ ∀ y ∈ B1 ++ MB ++ B2, cmp x y ≠ 0)) := by
  refine ⟨⟨?_, ?_, bL, bR⟩, ?_⟩
  · intro x hx
    apply (hc.lt_congr_right hρ x).1
    rcases (mL x).1 hx with h | ⟨h, _⟩
    · exact hB1 x h
    · exact hA1 x h
  · intro x hx
    apply (hc.gt_congr_right hρ x).1
    rcases (mR x).1 hx with h | ⟨h, _⟩
    · exact hB2 x h
    · exact hA2 x h
  · intro x
    rw [mergeMem_cut hc s A1 MA A2 B1 MB B2 hA1 hMA hA2 hB1 hMB hB2 x,
      ← mL x, ← mR x, ← mρ x]
    simp [Node.toList]

/-- The `union` of two BST-ordered trees is BST-ordered and holds the items of
`that` together with the items of `this` whose key `that` does not hold. -/
theorem union_spec (t : Treap α) (hc : Lawful t.compare) (this that : Node α) :
    BST t.compare this → BST t.compare that →
      BST t.compare (t.union this that) ∧
        ∀ x, x ∈ (t.union this that).toList ↔
          (x ∈ that.toList ∨
            (x ∈ this.toList ∧ ∀ y ∈ that.toList, t.compare x y ≠ 0)) := by
  have gtStep : ∀ (ti : α) (tp : Int) (tl tr : Node α) (tc : Int) (hi : α)
      (hp : Int) (hl hr : Node α) (hcnt : Int), tp > hp →
      (BST t.compare tl →
        BST t.compare (t.split (Node.mk hi hp hl hr hcnt) ti).1 →
        BST t.compare (t.union tl (t.split (Node.mk hi hp hl hr hcnt) ti).1) ∧
        ∀ x, x ∈ (t.union tl (t.split (Node.mk hi hp hl hr hcnt) ti).1).toList ↔
          (x ∈ (t.split (Node.mk hi hp hl hr hcnt) ti).1.toList ∨
            (x ∈ tl.toList ∧
              ∀ y ∈ (t.split (Node.mk hi hp hl hr hcnt) ti).1.toList,
                t.compare x y ≠ 0))) →
      (BST t.compare tr →
        BST t.compare (t.split (Node.mk hi hp hl hr hcnt) ti).2.2 →
        BST t.compare
            (t.union tr (t.split (Node.mk hi hp hl hr hcnt) ti).2.2) ∧
        ∀ x, x ∈ (t.union tr
              (t.split (Node.mk hi hp hl hr hcnt) ti).2.2).toList ↔
          (x ∈ (t.split (Node.mk hi hp hl hr hcnt) ti).2.2.toList ∨
            (x ∈ tr.toList ∧
              ∀ y ∈ (t.split (Node.mk hi hp hl hr hcnt) ti).2.2.toList,
                t.compare x y ≠ 0))) →
      BST t.compare (Node.mk ti tp tl tr tc) →
      BST t.compare (Node.mk hi hp hl hr hcnt) →
      BST t.compare
          (t.union (Node.mk ti tp tl tr tc) (Node.mk hi hp hl hr hcnt)) ∧
        ∀ x, x ∈ (t.union (Node.mk ti tp tl tr tc)
              (Node.mk hi hp hl hr hcnt)).toList ↔
          (x ∈ (Node.mk hi hp hl hr hcnt).toList ∨
            (x ∈ (Node.mk ti tp tl tr tc).toList ∧
              ∀ y ∈ (Node.mk hi hp hl hr hcnt).toList,
                t.compare x y ≠ 0)) := by
    intro ti tp tl tr tc hi hp hl hr hcnt h ih1 ih2 hT hH
    obtain ⟨hlt, hgt, bl, br⟩ := hT
    have sB := split_BST t ti hH
    obtain ⟨b1, m1⟩ := ih1 bl sB.1
    obtain ⟨b2, m2⟩ := ih2 br sB.2
    have hmid := split_mid_eq_swap t hc (Node.mk hi hp hl hr hcnt) ti
    have hsl := split_left_lt t hc ti hH
    have hsr := split_right_gt t hc ti hH
    rw [union_gt t ti tp tl tr tc hi hp hl hr hcnt h,
      split_toList t (Node.mk hi hp hl hr hcnt) ti]
    have hA : (Node.mk ti tp tl tr tc).toList
        = tl.toList ++ [ti] ++ tr.toList := by simp [Node.toList]
    rw [hA]
    apply union_assemble hc ti _ _ _ _ _ tl.toList [ti] tr.toList _ _ _ hlt
      (by simp [hc.refl]) hgt hsl hmid hsr b1 b2 m1 m2
    · revert hmid
      generalize (t.split (Node.mk hi hp hl hr hcnt) ti).2.1 = M
      intro hmid
      cases M with
      | nil => exact hc.refl ti
      | mk mi mp ml mr mc => exact hc.eq_swap (hmid mi (by simp [midList]))
    · generalize (t.split (Node.mk hi hp hl hr hcnt) ti).2.1 = M
      intro x
      cases M <;> simp [midList]
  induction this, that using Treap.union.induct t with
  | case1 that =>
    intro _ h2
    rw [union_nil_left]
    exact ⟨h2, fun x => by simp [Node.toList]⟩
  | case2 this _ =>
    intro h1 _
    rw [union_nil_right]
    exact ⟨h1, fun x => by simp [Node.toList]⟩
  | case3 ti tp tl tr tc hi hp hl hr hcnt h lmr _ ih1 ih2 =>
    exact gtStep ti tp tl tr tc hi hp hl hr hcnt h ih1 ih2
  | case4 ti tp tl tr tc hi hp hl hr hcnt h lmr _ _ _ _ _ _ ih1 ih2 =>
    exact gtStep ti tp tl tr tc hi hp hl hr hcnt h ih1 ih2
  | case5 ti tp tl tr tc hi hp hl hr hcnt h lmr ih1 ih2 =>
    intro hT hH
    obtain ⟨hlt, hgt, bl, br⟩ := hH
    have sB := split_BST t hi hT
    obtain ⟨b1, m1⟩ := ih1 sB.1 bl
    obtain ⟨b2, m2⟩ := ih2 sB.2 br
    have hmid := split_mid_eq_swap t hc (Node.mk ti tp tl tr tc) hi
    have hsl := split_left_lt t hc hi hT
    have hsr := split_right_gt t hc hi hT
    rw [union_le t ti tp tl tr tc hi hp hl hr hcnt h,
      split_toList t (Node.mk ti tp tl tr tc) hi]
    have hB : (Node.mk hi hp hl hr hcnt).toList
        = hl.toList ++ [hi] ++ hr.toList := by simp [Node.toList]
    rw [hB]
    apply union_assemble hc hi _ _ _ _ _ _ _ _ hl.toList [hi] hr.toList hsl
      hmid hsr hlt (by simp [hc.refl]) hgt b1 b2 m1 m2 (hc.refl hi)
    intro x
    simp

theorem union_sizeOK (t : Treap α) (this that : Node α) :
    SizeOK this → SizeOK that → SizeOK (t.union this that) := by
  induction this, that using Treap.union.induct t with
  | case1 that => intro _ h2; rw [union_nil_left]; exact h2
  | case2 this _ => intro h1 _; rw [union_nil_right]; exact h1
  | case3 ti tp tl tr tc hi hp hl hr hcnt h lmr _ ih1 ih2 =>
    intro h1 h2
    rw [union_gt t ti tp tl tr tc hi hp hl hr hcnt h]
    have s := split_sizeOK t ti h2
    exact ⟨rfl, ih1 h1.2.1 s.1, ih2 h1.2.2 s.2⟩
  | case4 ti tp tl tr tc hi hp hl hr hcnt h lmr _ _ _ _ _ _ ih1 ih2 =>
    intro h1 h2
    rw [union_gt t ti tp tl tr tc hi hp hl hr hcnt h]
    have s := split_sizeOK t ti h2
    exact ⟨rfl, ih1 h1.2.1 s.1, ih2 h1.2.2 s.2⟩
  | case5 ti tp tl tr tc hi hp hl hr hcnt h lmr ih1 ih2 =>
    intro h1 h2
    rw [union_le t ti tp tl tr tc hi hp hl hr hcnt h]
    have s := split_sizeOK t hi h1
    exact ⟨rfl, ih1 s.1 h2.2.1, ih2 s.2 h2.2.2⟩

end Union


/-! ## Upsert -/

section UpsertLemmas

variable {α : Type}

/-- Two strictly increasing lists with the same members are equal. -/
theorem pairwise_lt_ext {cmp : α → α → Int} (hc : Lawful cmp) {l1 l2 : List α}
    (h1 : l1.Pairwise (fun a b => cmp a b < 0))
    (h2 : l2.Pairwise (fun a b => cmp a b < 0))
    (h : ∀ x, x ∈ l1 ↔ x ∈ l2) : l1 = l2 := by
  have n1 : l1.Nodup := h1.imp (fun {a b} hab e => by
    subst e
    have := hc.refl a
    omega)
  have n2 : l2.Nodup := h2.imp (fun {a b} hab e => by
    subst e
    have := hc.refl a
    omega)
  haveI : IsAntisymm α (fun a b => cmp a b < 0) :=
    ⟨fun a b hab hba => by
      have := hc.swap a b
      omega⟩
  exact List.eq_of_perm_of_sorted ((List.perm_ext_iff_of_nodup n1 n2).2 h) h1 h2

theorem singleton_BST (cmp : α → α → Int) (i : α) (p : Int) :
    BST cmp (Node.mk i p Node.nil Node.nil 1) := by
  simp [BST, Node.toList]

theorem upsert_BST (t : Treap α) (hc : Lawful t.compare)
    (hb : BST t.compare t.root) (i : α) (p : Int) :
    BST t.compare (t.Upsert i p).root :=
  (union_spec t hc t.root _ hb (singleton_BST t.compare i p)).1

theorem upsert_sizeOK (t : Treap α) (hs : SizeOK t.root) (i : α) (p : Int) :
    SizeOK (t.Upsert i p).root :=
  union_sizeOK t t.root _ hs ⟨rfl, trivial, trivial⟩

/-- Membership after `Upsert i`: the item `i` and the stored items that do not
compare equal to `i`. -/
theorem mem_upsert_iff (t : Treap α) (hc : Lawful t.compare)
    (hb : BST t.compare t.root) (i : α) (p : Int) (x : α) :
    x ∈ (t.Upsert i p).root.toList ↔
      (x = i ∨ (x ∈ t.root.toList ∧ t.compare x i ≠ 0)) := by
  have := (union_spec t hc t.root _ hb (singleton_BST t.compare i p)).2 x
  simpa [Node.toList] using this

/-- The in-order list after `Upsert i`: the items below `i`, then `i`, then the
items above `i`. -/
theorem upsert_toList (t : Treap α) (hc : Lawful t.compare)
    (hb : BST t.compare t.root) (i : α) (p : Int) :
    (t.Upsert i p).root.toList
      = (t.split t.root i).1.toList ++ [i] ++ (t.split t.root i).2.2.toList := by
  have hsl := split_left_lt t hc i hb
  have hsr := split_right_gt t hc i hb
  have hmid := split_mid_eq_swap t hc t.root i
  have sB := split_BST t i hb
  apply pairwise_lt_ext hc (BST_pairwise hc (upsert_BST t hc hb i p))
  · rw [List.pairwise_append, List.pairwise_append]
    refine ⟨⟨BST_pairwise hc sB.1, List.pairwise_singleton _ _, ?_⟩,
      BST_pairwise hc sB.2, ?_⟩
    · intro a ha b hb2
      rw [List.mem_singleton.1 hb2]
      exact hsl a ha
    · intro a ha b hb2
      rcases List.mem_append.1 ha with ha | ha
      · exact hc.lt_trans (hsl a ha) (hc.gt_swap (hsr b hb2))
      · rw [List.mem_singleton.1 ha]
        exact hc.gt_swap (hsr b hb2)
  · intro x
    rw [mem_upsert_iff t hc hb, split_toList t t.root i]
    simp only [List.mem_append, List.mem_singleton]
    constructor
    · rintro (h | ⟨(h | h) | h, hne⟩)
      · exact Or.inl (Or.inr h)
      · exact Or.inl (Or.inl h)
      · exact absurd (hmid x h) hne
      · exact Or.inr h
    · rintro ((h | h) | h)
      · have := hsl x h
        exact Or.inr ⟨Or.inl (Or.inl h), by omega⟩
      · exact Or.inl h
      · have := hsr x h
        exact Or.inr ⟨Or.inr h, by omega⟩

/-- The `Len` after `Upsert`, in terms of the middle of the split at the item. -/
theorem upsert_len (t : Treap α) (hc : Lawful t.compare)
    (hb : BST t.compare t.root) (hs : SizeOK t.root) (i : α) (p : Int) :
    (t.Upsert i p).Len + ((midList (t.split t.root i).2.1).length : Int)
      = t.Len + 1 := by
  rw [len_eq_getCount, getCount_eq_length (upsert_sizeOK t hs i p),
    upsert_toList t hc hb, len_eq_getCount t, getCount_eq_length hs]
  conv_rhs => rw [split_toList t t.root i]
  simp only [List.length_append, List.length_singleton]
  push_cast
  ring

theorem upsert_len_absent (t : Treap α) (hc : Lawful t.compare)
    (hb : BST t.compare t.root) (hs : SizeOK t.root) (i : α) (p : Int)
    (h : ∀ x ∈ t.root.toList, t.compare x i ≠ 0) :
    (t.Upsert i p).Len = t.Len + 1 := by
  have h1 := upsert_len t hc hb hs i p
  rw [(split_mid_nil_iff t hc i hb).2 h] at h1
  simpa [midList] using h1

theorem upsert_len_present (t : Treap α) (hc : Lawful t.compare)
    (hb : BST t.compare t.root) (hs : SizeOK t.root) (i : α) (p : Int)
    (h : ∃ x ∈ t.root.toList, t.compare x i = 0) :
    (t.Upsert i p).Len = t.Len := by
  have h1 := upsert_len t hc hb hs i p
  obtain ⟨x, hx, h0⟩ := h
  cases e : (t.split t.root i).2.1 with
  | nil => exact absurd h0 ((split_mid_nil_iff t hc i hb).1 e x hx)
  | mk j q l r c =>
    rw [e] at h1
    simp only [midList, List.length_singleton] at h1
    omega

/-- Upserting items with pairwise distinct keys, none of them stored yet, adds
their number to `Len`. -/
theorem upsertAll_len (c : α → α → Int) (hc : Lawful c) (items : List (α × Int))
    (t : Treap α) (ht : t.compare = c) (hb : BST c t.root) (hs : SizeOK t.root)
    (hd : items.Pairwise (fun a b => c a.1 b.1 ≠ 0))
    (hnew : ∀ a ∈ items, ∀ x ∈ t.root.toList, c x a.1 ≠ 0) :
    (upsertAll t items).Len = t.Len + (items.length : Int) := by
  induction items generalizing t with
  | nil => simp [upsertAll]
  | cons a rest ih =>
    subst ht
    have hc2 : Lawful (t.Upsert a.1 a.2).compare := hc
    have key := ih (t.Upsert a.1 a.2) rfl (upsert_BST t hc hb a.1 a.2)
      (upsert_sizeOK t hs a.1 a.2) (List.Pairwise.of_cons hd) (by
        intro b hb2 x hx
        rcases (mem_upsert_iff t hc hb a.1 a.2 x).1 hx with h | ⟨h, _⟩
        · rw [h]
          exact List.rel_of_pairwise_cons hd hb2
        · exact hnew b (List.mem_cons_of_mem _ hb2) x h)
    have step := upsert_len_absent t hc hb hs a.1 a.2
      (hnew a (List.mem_cons_self _ _))
    simp only [upsertAll, List.foldl_cons, List.length_cons] at key ⊢
    rw [key, step]
    push_cast
    ring

end UpsertLemmas


/-! ## Reachable treaps -/

section ReachableLemmas

variable {α : Type}

theorem split_middle_root (t : Treap α) (s : α) (m : Treap α)
    (h : (t.Split s).2.1 = some m) :
    m.compare = t.compare ∧
      ∃ i p l r c, (t.split t.root s).2.1 = Node.mk i p l r c ∧
        m.root = Node.mk i p Node.nil Node.nil 1 := by
  simp only [Treap.Split] at h
  cases e : (t.split t.root s).2.1 with
  | nil => rw [e] at h; cases h
  | mk i p l r c =>
    rw [e] at h
    cases h
    exact ⟨rfl, i, p, l, r, c, rfl, rfl⟩

/-- Every reachable treap keeps the comparator, BST ordering and size
consistency. -/
theorem reachable_inv {c : α → α → Int} (hc : Lawful c) {t : Treap α}
    (h : Reachable c t) : t.compare = c ∧ BST c t.root ∧ SizeOK t.root := by
  induction h with
  | empty => exact ⟨rfl, trivial, trivial⟩
  | upsert t i p _ ih =>
    obtain ⟨e, hb, hs⟩ := ih
    subst e
    exact ⟨rfl, upsert_BST t hc hb i p, upsert_sizeOK t hs i p⟩
  | delete t x _ ih =>
    obtain ⟨e, hb, hs⟩ := ih
    subst e
    exact ⟨rfl, delete_BST t hc hb x, delete_sizeOK t hs x⟩
  | splitLeft t s _ ih =>
    obtain ⟨e, hb, hs⟩ := ih
    subst e
    exact ⟨rfl, (split_BST t s hb).1, (split_sizeOK t s hs).1⟩
  | splitMiddle t s m _ hm ih =>
    obtain ⟨e, _, _⟩ := ih
    obtain ⟨e2, i, p, l, r, cnt, _, hr⟩ := split_middle_root t s m hm
    rw [hr]
    exact ⟨e2.trans e, singleton_BST c i p, rfl, trivial, trivial⟩
  | splitRight t s _ ih =>
    obtain ⟨e, hb, hs⟩ := ih
    subst e
    exact ⟨rfl, (split_BST t s hb).2, (split_sizeOK t s hs).2⟩

theorem visitAscend_all_log (t : Treap α) :
    (t.VisitAscend none (logged always) ((), [])).2 = t.root.toList := by
  simp only [Treap.VisitAscend]
  rw [visitAscend_eq_run, runVisitor_logged,
    cutAfterStop_of_true always (fun _ _ => rfl), ascendItems_none]
  rfl

end ReachableLemmas


/-! ## join after split -/

section JoinSplit

variable {α : Type}

/-- Joining the outer pieces of a split keeps the items that do not compare
equal to the pivot. -/
theorem join_split_toList (t : Treap α) (hc : Lawful t.compare) {n : Node α}
    (hb : BST t.compare n) (s : α) :
    (t.join (t.split n s).1 (t.split n s).2.2).toList
      = n.toList.filter (fun x => decide (t.compare x s ≠ 0)) := by
  rw [join_toList]
  conv_rhs => rw [split_toList t n s]
  rw [List.filter_append, List.filter_append]
  have h1 : (t.split n s).1.toList.filter
      (fun x => decide (t.compare x s ≠ 0)) = (t.split n s).1.toList := by
    rw [List.filter_eq_self]
    intro x hx
    have := split_left_lt t hc s hb x hx
    simp; omega
  have h2 : (midList (t.split n s).2.1).filter
      (fun x => decide (t.compare x s ≠ 0)) = [] := by
    rw [List.filter_eq_nil_iff]
    intro x hx
    have := split_mid_eq_swap t hc n s x hx
    simp [this]
  have h3 : (t.split n s).2.2.toList.filter
      (fun x => decide (t.compare x s ≠ 0)) = (t.split n s).2.2.toList := by
    rw [List.filter_eq_self]
    intro x hx
    have := split_right_gt t hc s hb x hx
    simp; omega
  rw [h1, h2, h3]
  simp

/-- The count of the join of the outer pieces of a split, plus one when the
split has a middle, is the count of the tree. -/
theorem join_split_count (t : Treap α) {n : Node α} (hs : SizeOK n) (s : α) :
    (t.join (t.split n s).1 (t.split n s).2.2).getCount
        + ((midList (t.split n s).2.1).length : Int)
      = n.getCount := by
  rw [getCount_eq_length
      (join_sizeOK t _ _ (split_sizeOK t s hs).1 (split_sizeOK t s hs).2),
    join_toList, getCount_eq_length hs]
  conv_rhs => rw [split_toList t n s]
  simp only [List.length_append]
  push_cast
  ring

end JoinSplit


/-! ## Entries and heap ordering -/

section HeapLemmas

variable {α : Type}

theorem entries_map_fst (n : Node α) : n.entries.map Prod.fst = n.toList := by
  induction n with
  | nil => rfl
  | mk i p l r c ihl ihr => simp [Node.entries, Node.toList, ihl, ihr]

theorem fst_mem_toList {n : Node α} {e : α × Int} (h : e ∈ n.entries) :
    e.1 ∈ n.toList := by
  rw [← entries_map_fst]
  exact List.mem_map_of_mem _ h

theorem split_entries (t : Treap α) (n : Node α) (s : α) :
    n.entries = (t.split n s).1.entries ++ midEntries (t.split n s).2.1
      ++ (t.split n s).2.2.entries := by
  induction n with
  | nil => simp [Treap.split, Node.entries, midEntries]
  | mk i p l r c ihl ihr =>
    simp only [Treap.split]
    split_ifs with h0 h1
    · simp [Node.entries, midEntries]
    · simp only [Node.entries]
      conv_lhs => rw [ihl]
      simp [List.append_assoc]
    · simp only [Node.entries]
      conv_lhs => rw [ihr]
      simp [List.append_assoc]

theorem join_entries (t : Treap α) (this that : Node α) :
    (t.join this that).entries = this.entries ++ that.entries := by
  induction this, that using Treap.join.induct t with
  | case1 that => rw [join_nil_left]; simp [Node.entries]
  | case2 this _ => rw [join_nil_right]; simp [Node.entries]
  | case3 ti tp tl tr tc hi hp hl hr hc h ih =>
    rw [Treap.join]
    simp only [h, if_true, Node.entries, ih]
    simp [List.append_assoc]
  | case4 ti tp tl tr tc hi hp hl hr hc h ih =>
    rw [Treap.join]
    simp only [h, if_false, Node.entries, ih]
    simp [List.append_assoc]

/-- In a heap-ordered tree every priority is at most any bound on the root's. -/
theorem heap_entries_le {n : Node α} (h : Heap n) {q : Int} (hq : rootLE q n) :
    ∀ e ∈ n.entries, e.2 ≤ q := by
  induction n generalizing q with
  | nil => simp [Node.entries]
  | mk i p l r c ihl ihr =>
    obtain ⟨h1, h2, h3, h4⟩ := h
    have hpq : p ≤ q := hq
    intro e he
    simp only [Node.entries, List.mem_append, List.mem_cons] at he
    rcases he with he | he | he
    · exact le_trans (ihl h3 h1 e he) hpq
    · rw [he]; exact hpq
    · exact le_trans (ihr h4 h2 e he) hpq

theorem rootLE_of_entries_le {n : Node α} {q : Int}
    (h : ∀ e ∈ n.entries, e.2 ≤ q) : rootLE q n := by
  cases n with
  | nil => trivial
  | mk i p l r c => exact h (i, p) (by simp [Node.entries])

/-- The three trees returned by `split` on a heap-ordered tree are
heap-ordered. -/
theorem split_heap (t : Treap α) {n : Node α} (s : α) (h : Heap n) :
    Heap (t.split n s).1 ∧ Heap (t.split n s).2.1 ∧ Heap (t.split n s).2.2 := by
  induction n with
  | nil => simp [Treap.split, Heap]
  | mk i p l r c ihl ihr =>
    have hall := heap_entries_le h (q := p) (le_refl p)
    obtain ⟨h1, h2, h3, h4⟩ := h
    simp only [Treap.split]
    split_ifs with h0 hlt
    · exact ⟨h3, ⟨h1, h2, h3, h4⟩, h4⟩
    · refine ⟨(ihl h3).1, (ihl h3).2.1, ?_, h2, (ihl h3).2.2, h4⟩
      apply rootLE_of_entries_le
      intro e he
      apply hall
      simp only [Node.entries, List.mem_append, List.mem_cons]
      left
      rw [split_entries t l s]
      simp [he]
    · refine ⟨⟨h1, ?_, h3, (ihr h4).1⟩, (ihr h4).2.1, (ihr h4).2.2⟩
      apply rootLE_of_entries_le
      intro e he
      apply hall
      simp only [Node.entries, List.mem_append, List.mem_cons]
      right; right
      rw [split_entries t r s]
      simp [he]

theorem rootLE_join (t : Treap α) (q : Int) (this that : Node α)
    (h1 : rootLE q this) (h2 : rootLE q that) : rootLE q (t.join this that) := by
  cases this with
  | nil => rw [join_nil_left]; exact h2
  | mk ti tp tl tr tc =>
    cases that with
    | nil => rw [join_nil_right]; exact h1
    | mk hi hp hl hr hc =>
      rw [Treap.join]
      split_ifs
      · exact h1
      · exact h2

/-- The join of two heap-ordered trees is heap-ordered. -/
theorem join_heap (t : Treap α) (this that : Node α) :
    Heap this → Heap that → Heap (t.join this that) := by
  induction this, that using Treap.join.induct t with
  | case1 that => intro _ h2; rw [join_nil_left]; exact h2
  | case2 this _ => intro h1 _; rw [join_nil_right]; exact h1
  | case3 ti tp tl tr tc hi hp hl hr hc h ih =>
    intro h1 h2
    rw [Treap.join]
    simp only [h, if_true]
    exact ⟨h1.1, rootLE_join t tp tr _ h1.2.1 (le_of_lt h), h1.2.2.1,
      ih h1.2.2.2 h2⟩
  | case4 ti tp tl tr tc hi hp hl hr hc h ih =>
    intro h1 h2
    rw [Treap.join]
    simp only [h, if_false]
    exact ⟨rootLE_join t hp _ hl (not_lt.1 h) h2.1, h2.2.1, ih h1 h2.2.2.1,
      h2.2.2.2⟩

end HeapLemmas


/-! ## Upsert as a union with a one-node tree -/

section UpsertShape

variable {α : Type}

theorem split_singleton (t : Treap α) (i : α) (p : Int) (a : α) :
    t.split (Node.mk i p Node.nil Node.nil 1) a
      = if t.compare a i = 0 then
          (Node.nil, Node.mk i p Node.nil Node.nil 1, Node.nil)
        else if t.compare a i < 0 then
          (Node.nil, Node.nil, Node.mk i p Node.nil Node.nil 1)
        else (Node.mk i p Node.nil Node.nil 1, Node.nil, Node.nil) := by
  simp only [Treap.split, Node.getCount]
  split_ifs <;> simp

/-- The shape of the union of a non-empty tree with a one-node tree. -/
theorem union_singleton_mk (t : Treap α) (a : α) (q : Int) (l r : Node α)
    (c : Int) (i : α) (p : Int) :
    t.union (Node.mk a q l r c) (Node.mk i p Node.nil Node.nil 1)
      = if q > p then
          if t.compare a i = 0 then
            Node.mk i p l r (1 + l.getCount + r.getCount)
          else if t.compare a i < 0 then
            Node.mk a q l (t.union r (Node.mk i p Node.nil Node.nil 1))
              (1 + l.getCount
                + (t.union r (Node.mk i p Node.nil Node.nil 1)).getCount)
          else
            Node.mk a q (t.union l (Node.mk i p Node.nil Node.nil 1)) r
              (1 + (t.union l (Node.mk i p Node.nil Node.nil 1)).getCount
                + r.getCount)
        else
          Node.mk i p (t.split (Node.mk a q l r c) i).1
            (t.split (Node.mk a q l r c) i).2.2
            (1 + (t.split (Node.mk a q l r c) i).1.getCount
              + (t.split (Node.mk a q l r c) i).2.2.getCount) := by
  by_cases h : q > p
  · rw [union_gt t a q l r c i p Node.nil Node.nil 1 h, split_singleton]
    simp only [h, if_true]
    split_ifs <;> simp [union_nil_right]
  · rw [union_le t a q l r c i p Node.nil Node.nil 1 h]
    simp only [h, if_false, union_nil_right]

/-- The entries after a union with a one-node tree: those below the item, the
new pair, those above the item. -/
theorem union_singleton_entries (t : Treap α) (hc : Lawful t.compare)
    (n : Node α) (i : α) (p : Int) :
    (t.union n (Node.mk i p Node.nil Node.nil 1)).entries
      = (t.split n i).1.entries ++ [(i, p)] ++ (t.split n i).2.2.entries := by
  induction n with
  | nil => simp [union_nil_left, Treap.split, Node.entries]
  | mk a q l r c ihl ihr =>
    rw [union_singleton_mk]
    have hs := hc.swap a i
    have hs2 := hc.swap i a
    by_cases h : q > p
    · simp only [h, if_true]
      by_cases h0 : t.compare a i = 0
      · have h0s : t.compare i a = 0 := hc.eq_swap h0
        simp [h0, Treap.split, h0s, Node.entries]
      · by_cases h1 : t.compare a i < 0
        · have e1 : ¬ t.compare i a = 0 := by omega
          have e2 : ¬ t.compare i a < 0 := by omega
          simp only [h0, h1, if_true, if_false, Treap.split, e1, e2,
            Node.entries, ihr]
          simp [List.append_assoc]
        · have e1 : ¬ t.compare i a = 0 := by omega
          have e2 : t.compare i a < 0 := by omega
          simp only [h0, h1, if_true, if_false, Treap.split, e1, e2,
            Node.entries, ihl]
          simp [List.append_assoc]
    · simp only [h, if_false, Node.entries]
      simp [List.append_assoc]

theorem rootLE_union_singleton (t : Treap α) (n : Node α) (i : α) (p q : Int)
    (h1 : rootLE q n) (h2 : p ≤ q) :
    rootLE q (t.union n (Node.mk i p Node.nil Node.nil 1)) := by
  cases n with
  | nil => rw [union_nil_left]; exact h2
  | mk a q2 l r c =>
    rw [union_singleton_mk]
    split_ifs
    · exact h2
    · exact h1
    · exact h1
    · exact h2

/-- The union with a one-node tree is heap-ordered when the tree is and no
stored pair with an equal key has a priority above the new one. -/
theorem union_singleton_heap (t : Treap α) (n : Node α) (i : α) (p : Int)
    (h : Heap n) (hp : ∀ e ∈ n.entries, t.compare e.1 i = 0 → e.2 ≤ p) :
    Heap (t.union n (Node.mk i p Node.nil Node.nil 1)) := by
  induction n with
  | nil => rw [union_nil_left]; exact ⟨trivial, trivial, trivial, trivial⟩
  | mk a q l r c ihl ihr =>
    have hall := heap_entries_le h (q := q) (le_refl q)
    have hsp := split_heap t i h
    have hse := split_entries t (Node.mk a q l r c) i
    obtain ⟨h1, h2, h3, h4⟩ := h
    rw [union_singleton_mk]
    by_cases hq : q > p
    · simp only [hq, if_true]
      by_cases h0 : t.compare a i = 0
      · have := hp (a, q) (by simp [Node.entries]) h0
        exact absurd this (by simpa using hq)
      · by_cases hlt : t.compare a i < 0
        · simp only [h0, hlt, if_true, if_false]
          refine ⟨h1, rootLE_union_singleton t r i p q h2 (le_of_lt hq), h3,
            ihr h4 ?_⟩
          intro e he
          exact hp e (by simp [Node.entries, he])
        · simp only [h0, hlt, if_false]
          refine ⟨rootLE_union_singleton t l i p q h1 (le_of_lt hq), h2,
            ihl h3 ?_, h4⟩
          intro e he
          exact hp e (by simp [Node.entries, he])
    · simp only [hq, if_false]
      have hqp : q ≤ p := not_lt.1 hq
      refine ⟨?_, ?_, hsp.1, hsp.2.2⟩
      · apply rootLE_of_entries_le
        intro e he
        exact le_trans (hall e (by rw [hse]; simp [he])) hqp
      · apply rootLE_of_entries_le
        intro e he
        exact le_trans (hall e (by rw [hse]; simp [he])) hqp

end UpsertShape


/-! ## Heap ordering of the public operations -/

section HeapOps

variable {α : Type}

theorem delete_heap (t : Treap α) (h : Heap t.root) (x : α) :
    Heap (t.Delete x).root := by
  simp only [Treap.Delete]
  exact join_heap t _ _ (split_heap t x h).1 (split_heap t x h).2.2

theorem upsert_heap (t : Treap α) (h : Heap t.root) (i : α) (p : Int)
    (hp : ∀ e ∈ t.root.entries, t.compare e.1 i = 0 → e.2 ≤ p) :
    Heap (t.Upsert i p).root :=
  union_singleton_heap t t.root i p h hp

theorem upsert_entries (t : Treap α) (hc : Lawful t.compare) (i : α) (p : Int) :
    (t.Upsert i p).root.entries
      = (t.split t.root i).1.entries ++ [(i, p)]
        ++ (t.split t.root i).2.2.entries :=
  union_singleton_entries t hc t.root i p

/-- Treaps reached without lowering a stored priority keep the comparator and
heap ordering. -/
theorem reachableRaising_inv {c : α → α → Int} {t : Treap α}
    (h : ReachableRaising c t) : t.compare = c ∧ Heap t.root := by
  induction h with
  | empty => exact ⟨rfl, trivial⟩
  | upsert t i p _ hp ih =>
    obtain ⟨e, hh⟩ := ih
    subst e
    exact ⟨rfl, upsert_heap t hh i p hp⟩
  | delete t x _ ih =>
    exact ⟨ih.1, delete_heap t ih.2 x⟩
  | splitLeft t s _ ih =>
    exact ⟨ih.1, (split_heap t s ih.2).1⟩
  | splitMiddle t s m _ hm ih =>
    obtain ⟨e2, i, p, l, r, cnt, _, hr⟩ := split_middle_root t s m hm
    rw [hr]
    exact ⟨e2.trans ih.1, trivial, trivial, trivial, trivial⟩
  | splitRight t s _ ih =>
    exact ⟨ih.1, (split_heap t s ih.2).2.2⟩

/-- The root after upserting 2 (priority 30), 1 (priority 10) and 2 again
(priority 5) into the empty treap over `intCompare`. -/
theorem lowered_root :
    ((((Treap.NewTreap intCompare).Upsert 2 30).Upsert 1 10).Upsert 2 5).root
      = Node.mk 2 5 (Node.mk 1 10 Node.nil Node.nil 1) Node.nil 2 := by
  simp [Treap.Upsert, Treap.NewTreap, union_nil_left, union_singleton_mk,
    intCompare, Node.getCount]

end HeapOps


/-! ## union of two trees: lookup and count -/

section UnionCount

variable {α : Type}

/-- Lookup in a union: the item of `that` when it holds the key, else the
lookup in `this`. -/
theorem getLoop_union (t : Treap α) (hc : Lawful t.compare) (this that : Node α)
    (h1 : BST t.compare this) (h2 : BST t.compare that) (k : α) :
    t.getLoop k (t.union this that)
      = match t.getLoop k that with
        | some y => some y
        | none => t.getLoop k this := by
  obtain ⟨hU, hm⟩ := union_spec t hc this that h1 h2
  cases e : t.getLoop k that with
  | some y =>
    obtain ⟨hy, hky⟩ := (getLoop_eq_some_iff t hc h2 k y).1 e
    exact (getLoop_eq_some_iff t hc hU k y).2 ⟨(hm y).2 (Or.inl hy), hky⟩
  | none =>
    have hnone := (getLoop_eq_none_iff t hc h2 k).1 e
    apply Option.ext
    intro x
    simp only [Option.mem_def]
    rw [getLoop_eq_some_iff t hc hU, getLoop_eq_some_iff t hc h1]
    constructor
    · rintro ⟨hx, hkx⟩
      rcases (hm x).1 hx with hx | ⟨hx, _⟩
      · exact absurd hkx (hnone x hx)
      · exact ⟨hx, hkx⟩
    · rintro ⟨hx, hkx⟩
      refine ⟨(hm x).2 (Or.inr ⟨hx, ?_⟩), hkx⟩
      intro y hy hxy
      have := (hc.eq_congr_left (hc.eq_swap hkx) y).1 hxy
      exact hnone y hy this

theorem pairwise_lt_nodup {cmp : α → α → Int} (hc : Lawful cmp) {l : List α}
    (h : l.Pairwise (fun a b => cmp a b < 0)) : l.Nodup :=
  h.imp (fun {a b} hab e => by
    subst e
    have := hc.refl a
    omega)

/-- The count of the union of two BST-ordered, size-consistent trees is the
number of their distinct keys. -/
theorem union_count (t : Treap α) (hc : Lawful t.compare) (this that : Node α)
    (h1 : BST t.compare this) (h2 : BST t.compare that) (s1 : SizeOK this)
    (s2 : SizeOK that) :
    (t.union this that).getCount
      = (distinctKeys t.compare this that : Int) := by
  obtain ⟨hU, hm⟩ := union_spec t hc this that h1 h2
  rw [getCount_eq_length (union_sizeOK t this that s1 s2)]
  have nU := pairwise_lt_nodup hc (BST_pairwise hc hU)
  have n1 := pairwise_lt_nodup hc (BST_pairwise hc h1)
  have n2 := pairwise_lt_nodup hc (BST_pairwise hc h2)
  have nR : (that.toList ++ this.toList.filter
      (fun x => that.toList.all (fun y => decide (t.compare x y ≠ 0)))).Nodup := by
    rw [List.nodup_append]
    refine ⟨n2, n1.filter _, ?_⟩
    intro x hx hx2
    rw [List.mem_filter, List.all_eq_true] at hx2
    have := hx2.2 x hx
    simp [hc.refl x] at this
  have hp : (t.union this that).toList.Perm
      (that.toList ++ this.toList.filter
        (fun x => that.toList.all (fun y => decide (t.compare x y ≠ 0)))) := by
    rw [List.perm_ext_iff_of_nodup nU nR]
    intro x
    rw [hm x, List.mem_append, List.mem_filter, List.all_eq_true]
    simp
  rw [hp.length_eq]
  simp [distinctKeys]

end UnionCount


/-! ## Uniqueness of the treap of a set of pairs -/

section Unique

variable {α : Type}

/-- Two BST-ordered, heap-ordered, size-consistent trees holding the same pairs,
with pairwise distinct priorities, are the same tree. -/
theorem tree_unique {cmp : α → α → Int} (hc : Lawful cmp) (n1 n2 : Node α)
    (b1 : BST cmp n1) (b2 : BST cmp n2) (g1 : Heap n1) (g2 : Heap n2)
    (s1 : SizeOK n1) (s2 : SizeOK n2)
    (hd : ∀ e1 ∈ n1.entries, ∀ e2 ∈ n1.entries, e1.2 = e2.2 → e1 = e2)
    (hm : ∀ e, e ∈ n1.entries ↔ e ∈ n2.entries) : n1 = n2 := by
  induction n1 generalizing n2 with
  | nil =>
    cases n2 with
    | nil => rfl
    | mk a q l r c =>
      have := (hm (a, q)).2 (by simp [Node.entries])
      simp [Node.entries] at this
  | mk a q l r c ihl ihr =>
    cases n2 with
    | nil =>
      have := (hm (a, q)).1 (by simp [Node.entries])
      simp [Node.entries] at this
    | mk a2 q2 l2 r2 c2 =>
      have m1 : (a, q) ∈ (Node.mk a q l r c).entries := by simp [Node.entries]
      have m2 : (a2, q2) ∈ (Node.mk a2 q2 l2 r2 c2).entries := by
        simp [Node.entries]
      have le1 : q ≤ q2 :=
        heap_entries_le g2 (q := q2) (le_refl q2) (a, q) ((hm _).1 m1)
      have le2 : q2 ≤ q :=
        heap_entries_le g1 (q := q) (le_refl q) (a2, q2) ((hm _).2 m2)
      have hq : q = q2 := le_antisymm le1 le2
      have hpair := hd (a, q) m1 (a2, q2) ((hm _).2 m2) hq
      have ha : a = a2 := congrArg Prod.fst hpair
      subst hq
      subst ha
      obtain ⟨x1, x2, x3, x4⟩ := b1
      obtain ⟨y1, y2, y3, y4⟩ := b2
      obtain ⟨z1, z2, z3⟩ := s1
      obtain ⟨w1, w2, w3⟩ := s2
      have hl : ∀ e, e ∈ l.entries ↔ e ∈ l2.entries := by
        intro e
        constructor
        · intro he
          have hlt := x1 e.1 (fst_mem_toList he)
          have := (hm e).1 (by simp [Node.entries, he])
          simp only [Node.entries, List.mem_append, List.mem_cons] at this
          rcases this with h | h | h
          · exact h
          · rw [h] at hlt
            have := hc.refl a
            simp only at hlt
            omega
          · have := y2 e.1 (fst_mem_toList h)
            omega
        · intro he
          have hlt := y1 e.1 (fst_mem_toList he)
          have := (hm e).2 (by simp [Node.entries, he])
          simp only [Node.entries, List.mem_append, List.mem_cons] at this
          rcases this with h | h | h
          · exact h
          · rw [h] at hlt
            have := hc.refl a
            simp only at hlt
            omega
          · have := x2 e.1 (fst_mem_toList h)
            omega
      have hr : ∀ e, e ∈ r.entries ↔ e ∈ r2.entries := by
        intro e
        constructor
        · intro he
          have hgt := x2 e.1 (fst_mem_toList he)
          have := (hm e).1 (by simp [Node.entries, he])
          simp only [Node.entries, List.mem_append, List.mem_cons] at this
          rcases this with h | h | h
          · have := y1 e.1 (fst_mem_toList h)
            omega
          · rw [h] at hgt
            have := hc.refl a
            simp only at hgt
            omega
          · exact h
        · intro he
          have hgt := y2 e.1 (fst_mem_toList he)
          have := (hm e).2 (by simp [Node.entries, he])
          simp only [Node.entries, List.mem_append, List.mem_cons] at this
          rcases this with h | h | h
          · have := x1 e.1 (fst_mem_toList h)
            omega
          · rw [h] at hgt
            have := hc.refl a
            simp only at hgt
            omega
          · exact h
      have el : l = l2 := ihl l2 x3 y3 g1.2.2.1 g2.2.2.1 z2 w2
        (fun e1 h1 e2 h2 => hd e1 (by simp [Node.entries, h1]) e2
          (by simp [Node.entries, h2])) hl
      have er : r = r2 := ihr r2 x4 y4 g1.2.2.2 g2.2.2.2 z3 w3
        (fun e1 h1 e2 h2 => hd e1 (by simp [Node.entries, h1]) e2
          (by simp [Node.entries, h2])) hr
      subst el
      subst er
      rw [z1, w1]

/-- The pairs after upserting a key that is not stored yet. -/
theorem mem_upsert_entries_absent (t : Treap α) (hc : Lawful t.compare)
    (hb : BST t.compare t.root) (i : α) (p : Int)
    (h : ∀ e ∈ t.root.entries, t.compare e.1 i ≠ 0) (e : α × Int) :
    e ∈ (t.Upsert i p).root.entries ↔ (e = (i, p) ∨ e ∈ t.root.entries) := by
  have hnil : (t.split t.root i).2.1 = Node.nil := by
    rw [split_mid_nil_iff t hc i hb]
    intro x hx
    rw [← entries_map_fst] at hx
    obtain ⟨e2, he2, rfl⟩ := List.mem_map.1 hx
    exact h e2 he2
  have h1 := split_entries t t.root i
  rw [hnil] at h1
  rw [upsert_entries t hc i p, h1]
  simp only [midEntries, List.append_nil, List.mem_append, List.mem_singleton]
  tauto

/-- Upserting pairs with pairwise distinct keys, none of them stored, keeps
all four invariants and adds exactly these pairs. -/
theorem upsertAll_inv (c : α → α → Int) (hc : Lawful c) (items : List (α × Int))
    (t : Treap α) (ht : t.compare = c) (hb : BST c t.root) (hs : SizeOK t.root)
    (hh : Heap t.root)
    (hd : items.Pairwise (fun a b => c a.1 b.1 ≠ 0))
    (hnew : ∀ a ∈ items, ∀ e ∈ t.root.entries, c e.1 a.1 ≠ 0) :
    (upsertAll t items).compare = c ∧ BST c (upsertAll t items).root ∧
      SizeOK (upsertAll t items).root ∧ Heap (upsertAll t items).root ∧
      ∀ e, e ∈ (upsertAll t items).root.entries ↔
        (e ∈ t.root.entries ∨ e ∈ items) := by
  induction items generalizing t with
  | nil => exact ⟨ht, hb, hs, hh, fun e => by simp [upsertAll]⟩
  | cons a rest ih =>
    subst ht
    have habs := hnew a (List.mem_cons_self _ _)
    have hmem := mem_upsert_entries_absent t hc hb a.1 a.2 habs
    have key := ih (t.Upsert a.1 a.2) rfl (upsert_BST t hc hb a.1 a.2)
      (upsert_sizeOK t hs a.1 a.2)
      (upsert_heap t hh a.1 a.2 (fun e he h0 => absurd h0 (habs e he)))
      (List.Pairwise.of_cons hd) (by
        intro b hb2 e he
        rcases (hmem e).1 he with h | h
        · rw [h]
          exact List.rel_of_pairwise_cons hd hb2
        · exact hnew b (List.mem_cons_of_mem _ hb2) e h)
    simp only [upsertAll, List.foldl_cons] at key ⊢
    refine ⟨key.1, key.2.1, key.2.2.1, key.2.2.2.1, ?_⟩
    intro e
    rw [key.2.2.2.2 e, hmem e, List.mem_cons]
    tauto

end Unique


/-! ## The heap model refines the tree model -/

section HeapModel

variable {α σ : Type}

theorem getElem_append_some {s : Store α} {a : Nat} {c : Cell α}
    (h : s[a]? = some c) (u : Store α) : (s ++ u)[a]? = some c := by
  rw [List.getElem?_append_left (List.getElem?_eq_some.1 h).1]
  exact h

theorem grow_refl (s : Store α) : s <+: s := ⟨[], List.append_nil s⟩

theorem grow_append (s u : Store α) : s <+: s ++ u := ⟨u, rfl⟩

/-- Growing the heap keeps every cell, hence every represented tree. -/
theorem grow_getElem {s s2 : Store α} (h : s <+: s2) {a : Nat} {c : Cell α}
    (hc : s[a]? = some c) : s2[a]? = some c := by
  obtain ⟨u, rfl⟩ := h
  exact getElem_append_some hc u

theorem rep_mono {s s2 : Store α} (h : s <+: s2) {p : Option Nat} {n : Node α}
    (hr : Rep s p n) : Rep s2 p n := by
  induction n generalizing p with
  | nil =>
    cases p with
    | none => trivial
    | some a => exact hr.elim
  | mk i q l r c ihl ihr =>
    cases p with
    | none => exact hr.elim
    | some a =>
      obtain ⟨cl, cr, hc, hl, hr2⟩ := hr
      exact ⟨cl, cr, grow_getElem h hc, ihl hl, ihr hr2⟩

theorem rep_getCount {s : Store α} {p : Option Nat} {n : Node α}
    (hr : Rep s p n) : getCountS s p = some n.getCount := by
  cases n with
  | nil =>
    cases p with
    | none => rfl
    | some a => exact hr.elim
  | mk i q l r c =>
    cases p with
    | none => exact hr.elim
    | some a =>
      obtain ⟨cl, cr, hc, _, _⟩ := hr
      simp [getCountS, hc, Node.getCount]

theorem rep_nil_iff {s : Store α} {p : Option Nat} (hr : Rep s p Node.nil) :
    p = none := by
  cases p with
  | none => rfl
  | some a => exact hr.elim

theorem rep_mk {s : Store α} {p : Option Nat} {i : α} {q : Int} {l r : Node α}
    {c : Int} (hr : Rep s p (Node.mk i q l r c)) :
    ∃ a cl cr, p = some a ∧
      s[a]? = some { item := i, priority := q, left := cl, right := cr,
                     count := c } ∧ Rep s cl l ∧ Rep s cr r := by
  cases p with
  | none => exact hr.elim
  | some a =>
    obtain ⟨cl, cr, hc, hl, hr2⟩ := hr
    exact ⟨a, cl, cr, rfl, hc, hl, hr2⟩

/-- Allocating a node over two represented children represents the node. -/
theorem newNodeS_spec {s : Store α} {pl pr : Option Nat} {nl nr : Node α}
    (i : α) (q : Int) (hl : Rep s pl nl) (hr : Rep s pr nr) :
    ∃ s2 p, newNodeS s i q pl pr = some (s2, p) ∧ s <+: s2 ∧
      Rep s2 p (Node.mk i q nl nr (1 + nl.getCount + nr.getCount)) := by
  refine ⟨s ++ [{ item := i, priority := q, left := pl, right := pr,
                  count := 1 + nl.getCount + nr.getCount }], some s.length,
    ?_, grow_append _ _, ?_⟩
  · simp [newNodeS, rep_getCount hl, rep_getCount hr]
  · exact ⟨pl, pr, List.getElem?_concat_length _ _,
      rep_mono (grow_append _ _) hl, rep_mono (grow_append _ _) hr⟩

/-- With enough fuel `splitS` returns, only grows the heap, and its results
represent the results of `split`. -/
theorem splitS_spec (t : Treap α) (n : Node α) :
    ∀ (fuel : Nat) (s : Store α) (p : Option Nat) (k : α),
      Rep s p n → n.size < fuel →
      ∃ s2 pl pm pr, splitS t.compare fuel s p k = some (s2, pl, pm, pr) ∧
        s <+: s2 ∧ Rep s2 pl (t.split n k).1 ∧ Rep s2 pm (t.split n k).2.1 ∧
        Rep s2 pr (t.split n k).2.2 := by
  induction n with
  | nil =>
    intro fuel s p k hr hf
    cases fuel with
    | zero => omega
    | succ f =>
      rw [rep_nil_iff hr]
      exact ⟨s, none, none, none, rfl, grow_refl _, trivial, trivial,
        trivial⟩
  | mk i q l r c ihl ihr =>
    intro fuel s p k hr hf
    cases fuel with
    | zero => omega
    | succ f =>
      simp only [Node.size] at hf
      obtain ⟨a, cl, cr, rfl, hcell, hl, hr2⟩ := rep_mk hr
      simp only [splitS, hcell, Treap.split]
      by_cases h0 : t.compare k i = 0
      · simp only [h0, if_true]
        exact ⟨s, cl, some a, cr, rfl, grow_refl _, hl, hr, hr2⟩
      · by_cases h1 : t.compare k i < 0
        · simp only [h0, h1, if_true, if_false]
          obtain ⟨s1, pl, pm, pr, e1, pre1, r1, r2, r3⟩ :=
            ihl f s cl k hl (by omega)
          obtain ⟨s2, p2, e2, pre2, r4⟩ :=
            newNodeS_spec i q r3 (rep_mono pre1 hr2)
          rw [e1]
          simp only [e2]
          exact ⟨s2, pl, pm, p2, rfl, pre1.trans pre2, rep_mono pre2 r1,
            rep_mono pre2 r2, r4⟩
        · simp only [h0, h1, if_false]
          obtain ⟨s1, pl, pm, pr, e1, pre1, r1, r2, r3⟩ :=
            ihr f s cr k hr2 (by omega)
          obtain ⟨s2, p2, e2, pre2, r4⟩ :=
            newNodeS_spec i q (rep_mono pre1 hl) r1
          rw [e1]
          simp only [e2]
          exact ⟨s2, p2, pm, pr, rfl, pre1.trans pre2, r4, rep_mono pre2 r2,
            rep_mono pre2 r3⟩

/-- With enough fuel `joinS` returns, only grows the heap, and its result
represents the result of `join`. -/
theorem joinS_spec (t : Treap α) (this that : Node α) :
    ∀ (fuel : Nat) (s : Store α) (pa pb : Option Nat),
      Rep s pa this → Rep s pb that → this.size + that.size < fuel →
      ∃ s2 p, joinS fuel s pa pb = some (s2, p) ∧ s <+: s2 ∧
        Rep s2 p (t.join this that) := by
  induction this, that using Treap.join.induct t with
  | case1 that =>
    intro fuel s pa pb ha hb hf
    cases fuel with
    | zero => omega
    | succ f =>
      rw [rep_nil_iff ha, join_nil_left]
      exact ⟨s, pb, rfl, grow_refl _, hb⟩
  | case2 this hne =>
    intro fuel s pa pb ha hb hf
    cases fuel with
    | zero => omega
    | succ f =>
      rw [rep_nil_iff hb, join_nil_right]
      cases this with
      | nil => exact absurd rfl hne
      | mk i q l r c =>
        obtain ⟨a, cl, cr, rfl, _, _, _⟩ := rep_mk ha
        exact ⟨s, some a, rfl, grow_refl _, ha⟩
  | case3 ti tp tl tr tc hi hp hl hr hcnt h ih =>
    intro fuel s pa pb ha hb hf
    cases fuel with
    | zero => omega
    | succ f =>
      simp only [Node.size] at hf
      obtain ⟨a, cl, cr, rfl, hA, hl1, hr1⟩ := rep_mk ha
      obtain ⟨b, dl, dr, rfl, hB, _, _⟩ := rep_mk hb
      obtain ⟨s1, right, e1, pre1, r1⟩ :=
        ih f s cr (some b) hr1 hb (by simp only [Node.size]; omega)
      obtain ⟨s2, p2, e2, pre2, r2⟩ :=
        newNodeS_spec ti tp (rep_mono pre1 hl1) r1
      refine ⟨s2, p2, ?_, pre1.trans pre2, ?_⟩
      · simp only [joinS, hA, hB, h, if_true, e1, e2]
      · rw [Treap.join]
        simp only [h, if_true]
        exact r2
  | case4 ti tp tl tr tc hi hp hl hr hcnt h ih =>
    intro fuel s pa pb ha hb hf
    cases fuel with
    | zero => omega
    | succ f =>
      simp only [Node.size] at hf
      obtain ⟨a, cl, cr, rfl, hA, _, _⟩ := rep_mk ha
      obtain ⟨b, dl, dr, rfl, hB, hl2, hr2⟩ := rep_mk hb
      obtain ⟨s1, left, e1, pre1, r1⟩ :=
        ih f s (some a) dl ha hl2 (by simp only [Node.size]; omega)
      obtain ⟨s2, p2, e2, pre2, r2⟩ :=
        newNodeS_spec hi hp r1 (rep_mono pre1 hr2)
      refine ⟨s2, p2, ?_, pre1.trans pre2, ?_⟩
      · simp only [joinS, hA, hB, h, if_false, e1, e2]
      · rw [Treap.join]
        simp only [h, if_false]
        exact r2

/-- With enough fuel `unionS` returns, only grows the heap, and its result
represents the result of `union`. -/
theorem unionS_spec (t : Treap α) (this that : Node α) :
    ∀ (fuel : Nat) (s : Store α) (pa pb : Option Nat),
      Rep s pa this → Rep s pb that → this.size + that.size < fuel →
      ∃ s2 p, unionS t.compare fuel s pa pb = some (s2, p) ∧ s <+: s2 ∧
        Rep s2 p (t.union this that) := by
  induction this, that using Treap.union.induct t with
  | case1 that =>
    intro fuel s pa pb ha hb hf
    cases fuel with
    | zero => omega
    | succ f =>
      rw [rep_nil_iff ha, union_nil_left]
      exact ⟨s, pb, rfl, grow_refl _, hb⟩
  | case2 this hne =>
    intro fuel s pa pb ha hb hf
    cases fuel with
    | zero => omega
    | succ f =>
      rw [rep_nil_iff hb, union_nil_right]
      cases this with
      | nil => exact absurd rfl hne
      | mk i q l r c =>
        obtain ⟨a, cl, cr, rfl, _, _, _⟩ := rep_mk ha
        exact ⟨s, some a, rfl, grow_refl _, ha⟩
  | case3 ti tp tl tr tc hi hp hl hr hcnt h lmr hM ih1 ih2 =>
    intro fuel s pa pb ha hb hf
    cases fuel with
    | zero => omega
    | succ f =>
      simp only [Node.size] at hf
      have z1 := Treap.split_size_left t (Node.mk hi hp hl hr hcnt) ti
      have z2 := Treap.split_size_right t (Node.mk hi hp hl hr hcnt) ti
      simp only [Node.size] at z1 z2
      have z3 : lmr.1.size ≤ 1 + hl.size + hr.size := z1
      have z4 : lmr.2.2.size ≤ 1 + hl.size + hr.size := z2
      obtain ⟨a, cl, cr, rfl, hA, hl1, hr1⟩ := rep_mk ha
      obtain ⟨b, dl, dr, rfl, hB, _, _⟩ := rep_mk hb
      obtain ⟨s1, left, middle, right, e1, pre1, r1, r2, r3⟩ :=
        splitS_spec t (Node.mk hi hp hl hr hcnt) (f + 1) s (some b) ti hb
          (by simp only [Node.size]; omega)
      have hM2 : (t.split (Node.mk hi hp hl hr hcnt) ti).2.1 = Node.nil := hM
      rw [hM2] at r2
      have hmid : middle = none := rep_nil_iff r2
      subst hmid
      obtain ⟨s2, uLeft, e2, pre2, r4⟩ :=
        ih1 f s1 cl left (rep_mono pre1 hl1) r1 (by omega)
      obtain ⟨s3, uRight, e3, pre3, r5⟩ :=
        ih2 f s2 cr right (rep_mono (pre1.trans pre2) hr1) (rep_mono pre2 r3)
          (by omega)
      obtain ⟨s4, p4, e4, pre4, r6⟩ :=
        newNodeS_spec ti tp (rep_mono pre3 r4) r5
      refine ⟨s4, p4, ?_, ((pre1.trans pre2).trans pre3).trans pre4, ?_⟩
      · simp only [unionS, hA, hB, h, if_true, e1, e2, e3, e4]
      · rw [union_gt t ti tp tl tr tc hi hp hl hr hcnt h, hM2]
        exact r6
  | case4 ti tp tl tr tc hi hp hl hr hcnt h lmr mi mp ml mr mc hM ih1 ih2 =>
    intro fuel s pa pb ha hb hf
    cases fuel with
    | zero => omega
    | succ f =>
      simp only [Node.size] at hf
      have z1 := Treap.split_size_left t (Node.mk hi hp hl hr hcnt) ti
      have z2 := Treap.split_size_right t (Node.mk hi hp hl hr hcnt) ti
      simp only [Node.size] at z1 z2
      have z3 : lmr.1.size ≤ 1 + hl.size + hr.size := z1
      have z4 : lmr.2.2.size ≤ 1 + hl.size + hr.size := z2
      obtain ⟨a, cl, cr, rfl, hA, hl1, hr1⟩ := rep_mk ha
      obtain ⟨b, dl, dr, rfl, hB, _, _⟩ := rep_mk hb
      obtain ⟨s1, left, middle, right, e1, pre1, r1, r2, r3⟩ :=
        splitS_spec t (Node.mk hi hp hl hr hcnt) (f + 1) s (some b) ti hb
          (by simp only [Node.size]; omega)
      have hM2 : (t.split (Node.mk hi hp hl hr hcnt) ti).2.1
          = Node.mk mi mp ml mr mc := hM
      rw [hM2] at r2
      obtain ⟨m, ml2, mr2, rfl, hmc, _, _⟩ := rep_mk r2
      obtain ⟨s2, uLeft, e2, pre2, r4⟩ :=
        ih1 f s1 cl left (rep_mono pre1 hl1) r1 (by omega)
      obtain ⟨s3, uRight, e3, pre3, r5⟩ :=
        ih2 f s2 cr right (rep_mono (pre1.trans pre2) hr1) (rep_mono pre2 r3)
          (by omega)
      obtain ⟨s4, p4, e4, pre4, r6⟩ :=
        newNodeS_spec mi mp (rep_mono pre3 r4) r5
      have hm3 := grow_getElem (pre2.trans pre3) hmc
      refine ⟨s4, p4, ?_, ((pre1.trans pre2).trans pre3).trans pre4, ?_⟩
      · simp only [unionS, hA, hB, h, if_true, e1, e2, e3, hm3, e4]
      · rw [union_gt t ti tp tl tr tc hi hp hl hr hcnt h, hM2]
        exact r6
  | case5 ti tp tl tr tc hi hp hl hr hcnt h lmr ih1 ih2 =>
    intro fuel s pa pb ha hb hf
    cases fuel with
    | zero => omega
    | succ f =>
      simp only [Node.size] at hf
      have z1 := Treap.split_size_left t (Node.mk ti tp tl tr tc) hi
      have z2 := Treap.split_size_right t (Node.mk ti tp tl tr tc) hi
      simp only [Node.size] at z1 z2
      have z3 : lmr.1.size ≤ 1 + tl.size + tr.size := z1
      have z4 : lmr.2.2.size ≤ 1 + tl.size + tr.size := z2
      obtain ⟨a, cl, cr, rfl, hA, _, _⟩ := rep_mk ha
      obtain ⟨b, dl, dr, rfl, hB, hl2, hr2⟩ := rep_mk hb
      obtain ⟨s1, left, middle, right, e1, pre1, r1, r2, r3⟩ :=
        splitS_spec t (Node.mk ti tp tl tr tc) (f + 1) s (some a) hi ha
          (by simp only [Node.size]; omega)
      obtain ⟨s2, uLeft, e2, pre2, r4⟩ :=
        ih1 f s1 left dl r1 (rep_mono pre1 hl2) (by omega)
      obtain ⟨s3, uRight, e3, pre3, r5⟩ :=
        ih2 f s2 right dr (rep_mono pre2 r3) (rep_mono (pre1.trans pre2) hr2)
          (by omega)
      obtain ⟨s4, p4, e4, pre4, r6⟩ :=
        newNodeS_spec hi hp (rep_mono pre3 r4) r5
      refine ⟨s4, p4, ?_, ((pre1.trans pre2).trans pre3).trans pre4, ?_⟩
      · simp only [unionS, hA, hB, h, if_false, e1, e2, e3, e4]
      · rw [union_le t ti tp tl tr tc hi hp hl hr hcnt h]
        exact r6

theorem split_size_sum (t : Treap α) (n : Node α) (k : α) :
    (t.split n k).1.size + (t.split n k).2.2.size ≤ n.size := by
  induction n with
  | nil => simp [Treap.split, Node.size]
  | mk i p l r c ihl ihr =>
    simp only [Treap.split]
    split_ifs <;> simp only [Node.size] <;> omega

theorem UpsertS_spec (t : Treap α) (n : Node α) (fuel : Nat) (s : Store α)
    (px : Option Nat) (i : α) (p : Int) (hx : Rep s px n)
    (hf : n.size + 1 < fuel) :
    ∃ s2 py, UpsertS t.compare fuel s px i p = some (s2, py) ∧ s <+: s2 ∧
      Rep s2 py (t.union n (Node.mk i p Node.nil Node.nil 1)) := by
  have pre0 : s <+: s ++ [Cell.mk i p none none 1] := grow_append _ _
  have hnew : Rep (s ++ [Cell.mk i p none none 1]) (some s.length)
      (Node.mk i p Node.nil Node.nil 1) :=
    ⟨none, none, List.getElem?_concat_length _ _, trivial, trivial⟩
  obtain ⟨s2, py, e, pre, r⟩ :=
    unionS_spec t n (Node.mk i p Node.nil Node.nil 1) fuel _ px (some s.length)
      (rep_mono pre0 hx) hnew (by simp only [Node.size]; omega)
  exact ⟨s2, py, e, pre0.trans pre, r⟩

theorem DeleteS_spec (t : Treap α) (n : Node α) (fuel : Nat) (s : Store α)
    (px : Option Nat) (k : α) (hx : Rep s px n) (hf : n.size < fuel) :
    ∃ s2 py, DeleteS t.compare fuel s px k = some (s2, py) ∧ s <+: s2 ∧
      Rep s2 py (t.join (t.split n k).1 (t.split n k).2.2) := by
  obtain ⟨s1, pl, pm, pr, e1, pre1, r1, _, r3⟩ :=
    splitS_spec t n fuel s px k hx hf
  have hsum := split_size_sum t n k
  obtain ⟨s2, py, e2, pre2, r⟩ :=
    joinS_spec t _ _ fuel s1 pl pr r1 r3 (by omega)
  refine ⟨s2, py, ?_, pre1.trans pre2, r⟩
  simp only [DeleteS, e1, e2]

theorem SplitS_spec (t : Treap α) (n : Node α) (fuel : Nat) (s : Store α)
    (px : Option Nat) (k : α) (hx : Rep s px n) (hf : n.size < fuel) :
    ∃ s2 pl pm pr, SplitS t.compare fuel s px k = some (s2, pl, pm, pr) ∧
      s <+: s2 ∧ Rep s2 pl (t.split n k).1 ∧ Rep s2 pr (t.split n k).2.2 ∧
      match (t.split n k).2.1, pm with
      | Node.nil, none => True
      | Node.mk i p _ _ _, some q => Rep s2 q (Node.mk i p Node.nil Node.nil 1)
      | _, _ => False := by
  obtain ⟨s1, pl, pm, pr, e1, pre1, r1, r2, r3⟩ :=
    splitS_spec t n fuel s px k hx hf
  cases hM : (t.split n k).2.1 with
  | nil =>
    rw [hM] at r2
    have := rep_nil_iff r2
    subst this
    refine ⟨s1, pl, none, pr, ?_, pre1, r1, r3, trivial⟩
    simp only [SplitS, e1]
  | mk i p l r c =>
    rw [hM] at r2
    obtain ⟨m, ml, mr, rfl, hmc, _, _⟩ := rep_mk r2
    have pre2 : s1 <+: s1 ++ [Cell.mk i p none none 1] := grow_append _ _
    refine ⟨_, pl, some (some s1.length), pr, ?_, pre1.trans pre2,
      rep_mono pre2 r1, rep_mono pre2 r3, ?_⟩
    · simp only [SplitS, e1, hmc]
    · exact ⟨none, none, List.getElem?_concat_length _ _, trivial, trivial⟩

theorem GetS_spec (t : Treap α) (target : α) (n : Node α) :
    ∀ (fuel : Nat) (s : Store α) (p : Option Nat), Rep s p n → n.size < fuel →
      GetS t.compare fuel s p target = some (t.getLoop target n) := by
  induction n with
  | nil =>
    intro fuel s p hr hf
    cases fuel with
    | zero => omega
    | succ f => rw [rep_nil_iff hr]; rfl
  | mk i q l r c ihl ihr =>
    intro fuel s p hr hf
    cases fuel with
    | zero => omega
    | succ f =>
      simp only [Node.size] at hf
      obtain ⟨a, cl, cr, rfl, hcell, hl, hr2⟩ := rep_mk hr
      simp only [GetS, hcell, Treap.getLoop]
      split_ifs
      · exact ihl f s cl hl (by omega)
      · exact ihr f s cr hr2 (by omega)
      · rfl

theorem minLoopS_spec (l : Node α) :
    ∀ (fuel : Nat) (s : Store α) (cell : Cell α), Rep s cell.left l →
      l.size < fuel → minLoopS fuel s cell = some (Treap.minLoop cell.item l) := by
  induction l with
  | nil =>
    intro fuel s cell hr hf
    cases fuel with
    | zero => omega
    | succ f => simp only [minLoopS, rep_nil_iff hr, Treap.minLoop]
  | mk i q l r c ihl _ =>
    intro fuel s cell hr hf
    cases fuel with
    | zero => omega
    | succ f =>
      simp only [Node.size] at hf
      obtain ⟨a, cl, cr, ha, hcell, hl, _⟩ := rep_mk hr
      simp only [minLoopS, ha, hcell, Treap.minLoop]
      exact ihl f s _ hl (by omega)

theorem maxLoopS_spec (r : Node α) :
    ∀ (fuel : Nat) (s : Store α) (cell : Cell α), Rep s cell.right r →
      r.size < fuel → maxLoopS fuel s cell = some (Treap.maxLoop cell.item r) := by
  induction r with
  | nil =>
    intro fuel s cell hr hf
    cases fuel with
    | zero => omega
    | succ f => simp only [maxLoopS, rep_nil_iff hr, Treap.maxLoop]
  | mk i q l r c _ ihr =>
    intro fuel s cell hr hf
    cases fuel with
    | zero => omega
    | succ f =>
      simp only [Node.size] at hf
      obtain ⟨a, cl, cr, ha, hcell, _, hr2⟩ := rep_mk hr
      simp only [maxLoopS, ha, hcell, Treap.maxLoop]
      exact ihr f s _ hr2 (by omega)

theorem visitAscendS_spec (t : Treap α) (visitor : ItemVisitor σ α)
    (n : Node α) :
    ∀ (fuel : Nat) (s : Store α) (p : Option Nat) (pivot : Option α) (st : σ),
      Rep s p n → n.size < fuel →
      visitAscendS t.compare visitor fuel s p pivot st
        = some (t.visitAscend visitor n pivot st) := by
  induction n with
  | nil =>
    intro fuel s p pivot st hr hf
    cases fuel with
    | zero => omega
    | succ f => rw [rep_nil_iff hr]; rfl
  | mk i q l r c ihl ihr =>
    intro fuel s p pivot st hr hf
    cases fuel with
    | zero => omega
    | succ f =>
      simp only [Node.size] at hf
      obtain ⟨a, cl, cr, rfl, hcell, hl, hr2⟩ := rep_mk hr
      have e1 := ihl f s cl pivot st hl (by omega)
      have e2 := ihr f s cr pivot st hr2 (by omega)
      have e3 := fun st2 => ihr f s cr none st2 hr2 (by omega)
      simp only [visitAscendS, hcell, Treap.visitAscend, e1, e2, e3]
      split_ifs <;> rfl

theorem visitDescendS_spec (t : Treap α) (visitor : ItemVisitor σ α)
    (n : Node α) :
    ∀ (fuel : Nat) (s : Store α) (p : Option Nat) (pivot : Option α) (st : σ),
      Rep s p n → n.size < fuel →
      visitDescendS t.compare visitor fuel s p pivot st
        = some (t.visitDescend visitor n pivot st) := by
  induction n with
  | nil =>
    intro fuel s p pivot st hr hf
    cases fuel with
    | zero => omega
    | succ f => rw [rep_nil_iff hr]; rfl
  | mk i q l r c ihl ihr =>
    intro fuel s p pivot st hr hf
    cases fuel with
    | zero => omega
    | succ f =>
      simp only [Node.size] at hf
      obtain ⟨a, cl, cr, rfl, hcell, hl, hr2⟩ := rep_mk hr
      have e1 := ihr f s cr pivot st hr2 (by omega)
      have e2 := ihl f s cl pivot st hl (by omega)
      have e3 := fun st2 => ihl f s cl none st2 hl (by omega)
      simp only [visitDescendS, hcell, Treap.visitDescend, e1, e2, e3]
      split_ifs <;> rfl

/-- A treap represented in the heap is observed there as in the tree model. -/
theorem observes_of_rep (x : Treap α) (fuel : Nat) (s : Store α)
    (px : Option Nat) (hx : Rep s px x.root) (hf : x.root.size < fuel) :
    Observes fuel s px x := by
  refine ⟨fun target => GetS_spec x target x.root fuel s px hx hf, ?_, ?_, ?_,
    fun τ visitor pivot st =>
      visitAscendS_spec x visitor x.root fuel s px pivot st hx hf,
    fun τ visitor pivot st =>
      visitDescendS_spec x visitor x.root fuel s px pivot st hx hf⟩
  · unfold Treap.Min
    cases hroot : x.root with
    | nil =>
      rw [hroot] at hx
      rw [rep_nil_iff hx]
      rfl
    | mk i q l r c =>
      rw [hroot] at hx hf
      simp only [Node.size] at hf
      obtain ⟨a, cl, cr, rfl, hcell, hl, _⟩ := rep_mk hx
      simp only [MinS, hcell]
      rw [minLoopS_spec l fuel s _ hl (by omega)]
      rfl
  · unfold Treap.Max
    cases hroot : x.root with
    | nil =>
      rw [hroot] at hx
      rw [rep_nil_iff hx]
      rfl
    | mk i q l r c =>
      rw [hroot] at hx hf
      simp only [Node.size] at hf
      obtain ⟨a, cl, cr, rfl, hcell, _, hr⟩ := rep_mk hx
      simp only [MaxS, hcell]
      rw [maxLoopS_spec r fuel s _ hr (by omega)]
      rfl
  · unfold Treap.Len
    cases hroot : x.root with
    | nil =>
      rw [hroot] at hx
      rw [rep_nil_iff hx]
      rfl
    | mk i q l r c =>
      rw [hroot] at hx
      obtain ⟨a, cl, cr, rfl, hcell, _, _⟩ := rep_mk hx
      simp only [LenS, hcell]

end HeapModel


/-! ## The log of a traversal -/

section VisitLog

variable {α σ : Type}

/-- The items on which the ascending traversal invokes a visitor: the items
offered to a never-stopping visitor, cut after the first false answer. -/
theorem visitAscend_logged (t : Treap α) (pivot : Option α)
    (w : ItemVisitor σ α) (s : σ) :
    (t.VisitAscend pivot (logged w) (s, [])).2
      = cutAfterStop w (ascendItems t t.root pivot) s := by
  simp only [Treap.VisitAscend]
  rw [visitAscend_eq_run, runVisitor_logged]
  rfl

theorem visitDescend_logged (t : Treap α) (pivot : Option α)
    (w : ItemVisitor σ α) (s : σ) :
    (t.VisitDescend pivot (logged w) (s, [])).2
      = cutAfterStop w (descendItems t t.root pivot) s := by
  simp only [Treap.VisitDescend]
  rw [visitDescend_eq_run, runVisitor_logged]
  rfl

/-- With a pivot, the ascending traversal of a BST-ordered tree offers the
in-order items that compare greater than or equal to the pivot. -/
theorem ascendItems_some_ge (t : Treap α) (hc : Lawful t.compare) {n : Node α}
    (h : BST t.compare n) (pv : α) :
    ascendItems t n (some pv)
      = n.toList.filter (fun x => decide (0 ≤ t.compare x pv)) := by
  rw [ascendItems_some t hc h]
  apply List.filter_congr
  intro x _
  have := hc.swap x pv
  simp only [decide_eq_decide]
  omega

/-- With a pivot, the descending traversal of a BST-ordered tree offers the
reversed in-order items that compare less than or equal to the pivot. -/
theorem descendItems_some_le (t : Treap α) (hc : Lawful t.compare) {n : Node α}
    (h : BST t.compare n) (pv : α) :
    descendItems t n (some pv)
      = n.toList.reverse.filter (fun x => decide (t.compare x pv ≤ 0)) := by
  rw [descendItems_some t hc h]
  apply List.filter_congr
  intro x _
  have := hc.swap x pv
  have := hc.swap pv x
  simp only [decide_eq_decide]
  omega

theorem take_findIdx_of_all (p : α → Bool) (xs : List α)
    (h : ∀ x ∈ xs, p x = true) :
    xs.take (xs.findIdx (fun x => !p x) + 1) = xs := by
  apply List.take_of_length_le
  have : List.findIdx (fun x => !p x) xs = xs.length := by
    rw [List.findIdx_eq_length]
    intro x hx
    simp [h x hx]
  omega

end VisitLog


/-! ## Size consistency of reachable treaps, for any comparator -/

section ReachableSize

variable {α : Type}

/-- Every reachable treap keeps the comparator and size consistency, whatever
the comparator. -/
theorem reachable_sizeOK {c : α → α → Int} {t : Treap α} (h : Reachable c t) :
    t.compare = c ∧ SizeOK t.root := by
  induction h with
  | empty => exact ⟨rfl, trivial⟩
  | upsert t i p _ ih => exact ⟨ih.1, upsert_sizeOK t ih.2 i p⟩
  | delete t x _ ih => exact ⟨ih.1, delete_sizeOK t ih.2 x⟩
  | splitLeft t s _ ih => exact ⟨ih.1, (split_sizeOK t s ih.2).1⟩
  | splitMiddle t s m _ hm ih =>
    obtain ⟨e2, i, p, l, r, cnt, _, hr⟩ := split_middle_root t s m hm
    rw [hr]
    exact ⟨e2.trans ih.1, rfl, trivial, trivial⟩
  | splitRight t s _ ih => exact ⟨ih.1, (split_sizeOK t s ih.2).2⟩

end ReachableSize


/-! ## The sample treap is obtainable -/

section BuiltSample

theorem built_one :
    ((Treap.NewTreap intCompare).Upsert 2 30).root
      = Node.mk 2 30 Node.nil Node.nil 1 := by
  simp [Treap.Upsert, Treap.NewTreap, union_nil_left]

theorem built_two :
    (((Treap.NewTreap intCompare).Upsert 2 30).Upsert 1 10).root
      = Node.mk 2 30 (Node.mk 1 10 Node.nil Node.nil 1) Node.nil 2 := by
  simp [Treap.Upsert, Treap.NewTreap, union_nil_left, union_singleton_mk,
    intCompare, Node.getCount]

/-- The three upserts build exactly the sample treap. -/
theorem built_sample_eq : builtSample = sampleTreap := by
  have h : builtSample.root = sampleTreap.root := by
    simp [builtSample, sampleTreap, Treap.Upsert, Treap.NewTreap, union_nil_left,
      union_singleton_mk, intCompare, Node.getCount]
  have hc : builtSample.compare = sampleTreap.compare := rfl
  cases hb : builtSample with
  | mk c r =>
    rw [hb] at h hc
    simp only at h hc
    rw [h, hc]

theorem builtSample_reachable : Reachable intCompare builtSample :=
  Reachable.upsert _ 3 20
    (Reachable.upsert _ 1 10 (Reachable.upsert _ 2 30 Reachable.empty))

theorem builtSample_lawful : Lawful builtSample.compare := intCompare_lawful

theorem builtSample_BST : BST builtSample.compare builtSample.root := by
  rw [built_sample_eq]; exact sampleTreap_BST

end BuiltSample


section BuiltRaising

/-- Upserting 1 again with the higher priority 40 into the built sample treap
is a sequence of upserts none of which lowers a stored priority. -/
theorem builtSample_raising :
    ReachableRaising intCompare (builtSample.Upsert 1 40) :=
  ReachableRaising.upsert _ 1 40
    (ReachableRaising.upsert _ 3 20
      (ReachableRaising.upsert _ 1 10
        (ReachableRaising.upsert _ 2 30 ReachableRaising.empty
          (by intro e he; cases he))
        (by rw [built_one]; decide))
      (by rw [built_two]; decide))
    (by rw [built_sample_eq]; decide)

theorem builtSample_raised_entries :
    (builtSample.Upsert 1 40).root.entries = [(1, 40), (2, 30), (3, 20)] := by
  rw [upsert_entries builtSample builtSample_lawful, built_sample_eq]
  decide

theorem builtSample_delete_toList :
    (builtSample.Delete 7).root.toList = [1, 2, 3] := by
  rw [delete_toList, built_sample_eq]
  decide

end BuiltRaising


/-! ## Claims -/

section Claims

variable {α σ : Type}

/-- C7: on a BST-ordered treap with a lawful comparator, `Get target` returns
the stored item comparing equal to `target` when there is one, returns absent
exactly when no stored item compares equal to `target`, and is absent on the
empty treap. -/
theorem C7_get_spec (t : Treap α) (hc : Lawful t.compare)
    (hb : BST t.compare t.root) (target : α) :
    (∀ i ∈ t.root.toList, t.compare target i = 0 → t.Get target = some i) ∧
    (∀ i, t.Get target = some i → i ∈ t.root.toList ∧ t.compare target i = 0) ∧
    (t.Get target = none ↔ ∀ i ∈ t.root.toList, t.compare target i ≠ 0) ∧
    (Treap.NewTreap t.compare).Get target = none := by
  refine ⟨fun i hi h0 => (getLoop_eq_some_iff t hc hb target i).2 ⟨hi, h0⟩,
    fun i h => (getLoop_eq_some_iff t hc hb target i).1 h, ?_, rfl⟩
  constructor
  · intro h i hi h0
    have := (getLoop_eq_some_iff t hc hb target i).2 ⟨hi, h0⟩
    unfold Treap.Get at h
    rw [h] at this
    cases this
  · intro h
    cases e : t.Get target with
    | none => rfl
    | some i =>
      have := (getLoop_eq_some_iff t hc hb target i).1 e
      exact absurd this.2 (h i this.1)

/-- C7 at the sample treap: looking up 3 finds the stored 3. -/
theorem C7_get_spec_witness :
    Lawful sampleTreap.compare ∧ BST sampleTreap.compare sampleTreap.root ∧
      sampleTreap.Get 3 = some 3 :=
  ⟨sampleTreap_lawful, sampleTreap_BST,
    (C7_get_spec sampleTreap sampleTreap_lawful sampleTreap_BST 3).1 3
      (by decide) (by decide)⟩


/-- C2: on a BST-ordered treap with a lawful comparator, looking up `k` after
`Delete x` is absent when `k` compares equal to `x`, and is the lookup of `k`
in the original treap otherwise. -/
theorem C2_get_delete (t : Treap α) (hc : Lawful t.compare)
    (hb : BST t.compare t.root) (x k : α) :
    (t.compare k x = 0 → (t.Delete x).Get k = none) ∧
    (t.compare k x ≠ 0 → (t.Delete x).Get k = t.Get k) := by
  have hD := delete_BST t hc hb x
  have e : ∀ n, (t.Delete x).getLoop k n = t.getLoop k n :=
    fun n => getLoop_compare (t.Delete x) t rfl k n
  constructor
  · intro h0
    unfold Treap.Get
    rw [e, getLoop_eq_none_iff t hc hD]
    intro i hi hki
    have := ((mem_delete_iff t hc hb x i).1 hi).2
    have h1 := hc.eq_congr_left (hc.eq_swap hki) x
    omega
  · intro hne
    unfold Treap.Get
    rw [e]
    apply getLoop_congr t hc hD hb
    intro i hki
    rw [mem_delete_iff t hc hb x i]
    have h1 := hc.eq_congr_left (hc.eq_swap hki) x
    constructor
    · exact fun h => h.1
    · exact fun h => ⟨h, by omega⟩

/-- C2 at the sample treap: after deleting 2, key 2 is absent and key 3 is
looked up as before. -/
theorem C2_get_delete_witness :
    Lawful sampleTreap.compare ∧ BST sampleTreap.compare sampleTreap.root ∧
      (sampleTreap.Delete 2).Get 2 = none ∧
      (sampleTreap.Delete 2).Get 3 = sampleTreap.Get 3 :=
  ⟨sampleTreap_lawful, sampleTreap_BST,
    (C2_get_delete sampleTreap sampleTreap_lawful sampleTreap_BST 2 2).1
      (by decide),
    (C2_get_delete sampleTreap sampleTreap_lawful sampleTreap_BST 2 3).2
      (by decide)⟩

/-- C3: split partition law.  On a BST-ordered, size-consistent treap with a
lawful comparator, `Split s` returns a left treap holding exactly the items
that compare less than `s`, a right treap holding exactly those that compare
greater, and a middle that is nil exactly when no item compares equal to `s`
and is otherwise a childless one-node treap of `Len` 1 holding the stored item
equal to `s`; the `Len` of left and right count the items below and above `s`,
and the three `Len`s add up to the `Len` of the treap. -/
theorem C3_split_partition (t : Treap α) (hc : Lawful t.compare)
    (hb : BST t.compare t.root) (hs : SizeOK t.root) (s : α) :
    (t.Split s).1.root.toList
      = t.root.toList.filter (fun x => decide (t.compare x s < 0)) ∧
    (t.Split s).2.2.root.toList
      = t.root.toList.filter (fun x => decide (0 < t.compare x s)) ∧
    ((t.Split s).2.1 = none ↔ ∀ x ∈ t.root.toList, t.compare x s ≠ 0) ∧
    (∀ m, (t.Split s).2.1 = some m →
      ∃ i p, m.root = Node.mk i p Node.nil Node.nil 1 ∧ m.Len = 1 ∧
        i ∈ t.root.toList ∧ t.compare i s = 0 ∧
        t.root.toList.filter (fun x => decide (t.compare x s = 0)) = [i]) ∧
    (t.Split s).1.Len
      = ((t.root.toList.filter
          (fun x => decide (t.compare x s < 0))).length : Int) ∧
    (t.Split s).2.2.Len
      = ((t.root.toList.filter
          (fun x => decide (0 < t.compare x s))).length : Int) ∧
    (t.Split s).1.Len
        + (match (t.Split s).2.1 with
           | none => 0
           | some _ => 1)
        + (t.Split s).2.2.Len = t.Len := by
  have hL := split_left_eq_filter t hc s hb
  have hR := split_right_eq_filter t hc s hb
  have hM := split_mid_eq_filter t hc s hb
  have hN := split_mid_nil_iff t hc s hb
  have hso := split_sizeOK t s hs
  have hlenL : (t.Split s).1.Len = ((t.split t.root s).1.toList.length : Int) := by
    rw [len_eq_getCount]; exact getCount_eq_length hso.1
  have hlenR : (t.Split s).2.2.Len
      = ((t.split t.root s).2.2.toList.length : Int) := by
    rw [len_eq_getCount]; exact getCount_eq_length hso.2
  have htot := congrArg List.length (split_toList t t.root s)
  refine ⟨hL, hR, ?_, ?_, ?_, ?_, ?_⟩
  · rw [← hN]
    simp only [Treap.Split]
    cases (t.split t.root s).2.1 <;> simp
  · intro m hm
    simp only [Treap.Split] at hm
    cases e : (t.split t.root s).2.1 with
    | nil => rw [e] at hm; cases hm
    | mk i p l r c =>
      rw [e] at hm
      cases hm
      rw [e] at hM
      have hi : i ∈ midList (t.split t.root s).2.1 := by rw [e]; simp [midList]
      exact ⟨i, p, rfl, rfl, split_mid_subset t t.root s i hi,
        split_mid_eq_swap t hc t.root s i hi, hM.symm⟩
  · rw [hlenL, hL]
  · rw [hlenR, hR]
  · rw [hlenL, hlenR, len_eq_getCount t, getCount_eq_length hs, htot]
    simp only [Treap.Split, List.length_append]
    cases (t.split t.root s).2.1 <;> simp [midList]

/-- C3 at the sample treap, split at 2: left is the item 1 and right the item 3. -/
theorem C3_split_partition_witness :
    Lawful sampleTreap.compare ∧ BST sampleTreap.compare sampleTreap.root ∧
      SizeOK sampleTreap.root ∧
      (sampleTreap.Split 2).1.root.toList = [1] ∧
      (sampleTreap.Split 2).2.2.root.toList = [3] :=
  ⟨sampleTreap_lawful, sampleTreap_BST, sampleTreap_sizeOK,
    (C3_split_partition sampleTreap sampleTreap_lawful sampleTreap_BST
      sampleTreap_sizeOK 2).1.trans (by decide),
    (C3_split_partition sampleTreap sampleTreap_lawful sampleTreap_BST
      sampleTreap_sizeOK 2).2.1.trans (by decide)⟩

/-- C10: on a BST-ordered, size-consistent treap with a lawful comparator,
`Delete x` lowers `Len` by one when a stored item compares equal to `x` and
leaves it unchanged when none does. -/
theorem C10_len_delete (t : Treap α) (hc : Lawful t.compare)
    (hb : BST t.compare t.root) (hs : SizeOK t.root) (x : α) :
    ((∃ i ∈ t.root.toList, t.compare i x = 0) →
      (t.Delete x).Len = t.Len - 1) ∧
    ((∀ i ∈ t.root.toList, t.compare i x ≠ 0) →
      (t.Delete x).Len = t.Len) := by
  have hN := split_mid_nil_iff t hc x hb
  have htot := congrArg List.length (split_toList t t.root x)
  have hD : (t.Delete x).Len
      = (((t.split t.root x).1.toList ++ (t.split t.root x).2.2.toList).length
          : Int) := by
    rw [len_eq_getCount, getCount_eq_length (delete_sizeOK t hs x),
      delete_toList]
  rw [hD, len_eq_getCount t, getCount_eq_length hs, htot]
  simp only [List.length_append]
  constructor
  · rintro ⟨i, hi, h0⟩
    cases e : (t.split t.root x).2.1 with
    | nil => exact absurd h0 (hN.1 e i hi)
    | mk j p l r c => simp only [midList, List.length_singleton]; push_cast; ring
  · intro h
    rw [hN.2 h]
    simp [midList]

/-- C10 at the sample treap: deleting the stored 2 lowers `Len` by one. -/
theorem C10_len_delete_witness :
    Lawful sampleTreap.compare ∧ BST sampleTreap.compare sampleTreap.root ∧
      SizeOK sampleTreap.root ∧
      (sampleTreap.Delete 2).Len = sampleTreap.Len - 1 :=
  ⟨sampleTreap_lawful, sampleTreap_BST, sampleTreap_sizeOK,
    (C10_len_delete sampleTreap sampleTreap_lawful sampleTreap_BST
      sampleTreap_sizeOK 2).1 ⟨2, by decide, by decide⟩⟩


/-- C4: on a BST-ordered treap with a lawful comparator and a visitor that
always answers true, `VisitAscend` without a pivot invokes the visitor on the
items of the treap, each once, in strictly increasing order, and with a pivot
on exactly the items of that sequence that compare greater than or equal to
the pivot, in the same order. -/
theorem C4_visit_ascend (t : Treap α) (hc : Lawful t.compare)
    (hb : BST t.compare t.root) (v : ItemVisitor σ α)
    (hv : ∀ i st, (v i st).1 = true) (st : σ) :
    (t.VisitAscend none (logged v) (st, [])).2 = t.root.toList ∧
    t.root.toList.Pairwise (fun a b => t.compare a b < 0) ∧
    ∀ pivot, (t.VisitAscend (some pivot) (logged v) (st, [])).2
      = t.root.toList.filter (fun x => decide (0 ≤ t.compare x pivot)) := by
  refine ⟨?_, BST_pairwise hc hb, ?_⟩
  · simp only [Treap.VisitAscend]
    rw [visitAscend_eq_run, runVisitor_logged, cutAfterStop_of_true v hv,
      ascendItems_none]
    rfl
  · intro pivot
    simp only [Treap.VisitAscend]
    rw [visitAscend_eq_run, runVisitor_logged, cutAfterStop_of_true v hv,
      ascendItems_some t hc hb]
    simp only [List.nil_append]
    apply List.filter_congr
    intro x _
    have := hc.swap x pivot
    simp only [decide_eq_decide]
    omega

/-- C4 at the sample treap with pivot 2: the items 2 and 3 are visited. -/
theorem C4_visit_ascend_witness :
    Lawful sampleTreap.compare ∧ BST sampleTreap.compare sampleTreap.root ∧
      (sampleTreap.VisitAscend (some 2) (logged always) ((), [])).2 = [2, 3] :=
  ⟨sampleTreap_lawful, sampleTreap_BST,
    ((C4_visit_ascend sampleTreap sampleTreap_lawful sampleTreap_BST always
      (fun _ _ => rfl) ()).2.2 2).trans (by decide)⟩

/-- C5: on a BST-ordered treap with a lawful comparator and a visitor that
always answers true, `VisitDescend` without a pivot invokes the visitor on the
items of the treap, each once, in strictly decreasing order (the reverse of the
ascending sequence), and with a pivot on exactly the items of that descending
sequence that compare less than or equal to the pivot. -/
theorem C5_visit_descend (t : Treap α) (hc : Lawful t.compare)
    (hb : BST t.compare t.root) (v : ItemVisitor σ α)
    (hv : ∀ i st, (v i st).1 = true) (st : σ) :
    (t.VisitDescend none (logged v) (st, [])).2 = t.root.toList.reverse ∧
    (t.VisitDescend none (logged v) (st, [])).2
      = (t.VisitAscend none (logged v) (st, [])).2.reverse ∧
    t.root.toList.reverse.Pairwise (fun a b => 0 < t.compare a b) ∧
    ∀ pivot, (t.VisitDescend (some pivot) (logged v) (st, [])).2
      = t.root.toList.reverse.filter
          (fun x => decide (t.compare x pivot ≤ 0)) := by
  have h1 : (t.VisitDescend none (logged v) (st, [])).2
      = t.root.toList.reverse := by
    simp only [Treap.VisitDescend]
    rw [visitDescend_eq_run, runVisitor_logged, cutAfterStop_of_true v hv,
      descendItems_none]
    rfl
  have h2 : (t.VisitAscend none (logged v) (st, [])).2 = t.root.toList := by
    simp only [Treap.VisitAscend]
    rw [visitAscend_eq_run, runVisitor_logged, cutAfterStop_of_true v hv,
      ascendItems_none]
    rfl
  refine ⟨h1, by rw [h1, h2], ?_, ?_⟩
  · rw [List.pairwise_reverse]
    exact (BST_pairwise hc hb).imp (fun h => hc.lt_swap h)
  · intro pivot
    simp only [Treap.VisitDescend]
    rw [visitDescend_eq_run, runVisitor_logged, cutAfterStop_of_true v hv,
      descendItems_some t hc hb]
    simp only [List.nil_append]
    apply List.filter_congr
    intro x _
    have := hc.swap x pivot
    have := hc.swap pivot x
    simp only [decide_eq_decide]
    omega

/-- C5 at the sample treap with pivot 2: the items 2 and 1 are visited. -/
theorem C5_visit_descend_witness :
    Lawful sampleTreap.compare ∧ BST sampleTreap.compare sampleTreap.root ∧
      (sampleTreap.VisitDescend (some 2) (logged always) ((), [])).2 = [2, 1] :=
  ⟨sampleTreap_lawful, sampleTreap_BST,
    ((C5_visit_descend sampleTreap sampleTreap_lawful sampleTreap_BST always
      (fun _ _ => rfl) ()).2.2.2 2).trans (by decide)⟩

/-- C6: early termination.  For every treap, pivot and visitor, the items on
which `VisitAscend` (`VisitDescend`) invokes the visitor are the qualifying
ascending (descending) sequence cut immediately after the first item for which
the visitor answers false.  The qualifying sequence is the sequence of items
the traversal offers (`ascendItems`, `descendItems`): without a pivot the
in-order list of the treap (its reverse), and with a pivot on a BST-ordered
treap with a lawful comparator the in-order items comparing greater than or
equal to the pivot (the reversed in-order items comparing less than or equal
to it).  For a visitor that is a predicate `p` of the item the visited items
are the prefix of the qualifying sequence up to and including the first item
failing `p`, and the whole qualifying sequence when no item fails it. -/
theorem C6_early_termination (t : Treap α) (pivot : Option α)
    (v : ItemVisitor σ α) (st : σ) (p : α → Bool) :
    (t.VisitAscend pivot (logged v) (st, [])).2
      = cutAfterStop v (t.VisitAscend pivot (logged always) ((), [])).2 st ∧
    (t.VisitDescend pivot (logged v) (st, [])).2
      = cutAfterStop v (t.VisitDescend pivot (logged always) ((), [])).2 st ∧
    (t.VisitAscend pivot (logged (fun i s => (p i, s))) ((), [])).2
      = (t.VisitAscend pivot (logged always) ((), [])).2.take
          ((t.VisitAscend pivot (logged always) ((), [])).2.findIdx
            (fun x => !p x) + 1) ∧
    (t.VisitDescend pivot (logged (fun i s => (p i, s))) ((), [])).2
      = (t.VisitDescend pivot (logged always) ((), [])).2.take
          ((t.VisitDescend pivot (logged always) ((), [])).2.findIdx
            (fun x => !p x) + 1) ∧
    ((∀ x ∈ (t.VisitAscend pivot (logged always) ((), [])).2, p x = true) →
      (t.VisitAscend pivot (logged (fun i s => (p i, s))) ((), [])).2
        = (t.VisitAscend pivot (logged always) ((), [])).2) ∧
    ((∀ x ∈ (t.VisitDescend pivot (logged always) ((), [])).2, p x = true) →
      (t.VisitDescend pivot (logged (fun i s => (p i, s))) ((), [])).2
        = (t.VisitDescend pivot (logged always) ((), [])).2) ∧
    (t.VisitAscend pivot (logged always) ((), [])).2
      = ascendItems t t.root pivot ∧
    (t.VisitDescend pivot (logged always) ((), [])).2
      = descendItems t t.root pivot ∧
    (t.VisitAscend pivot (logged v) (st, [])).2
      = cutAfterStop v (ascendItems t t.root pivot) st ∧
    (t.VisitDescend pivot (logged v) (st, [])).2
      = cutAfterStop v (descendItems t t.root pivot) st ∧
    (t.VisitAscend none (logged v) (st, [])).2
      = cutAfterStop v t.root.toList st ∧
    (t.VisitDescend none (logged v) (st, [])).2
      = cutAfterStop v t.root.toList.reverse st ∧
    (t.VisitAscend none (logged (fun i s => (p i, s))) ((), [])).2
      = t.root.toList.take (t.root.toList.findIdx (fun x => !p x) + 1) ∧
    (t.VisitDescend none (logged (fun i s => (p i, s))) ((), [])).2
      = t.root.toList.reverse.take
          (t.root.toList.reverse.findIdx (fun x => !p x) + 1) ∧
    (Lawful t.compare → BST t.compare t.root → ∀ pv,
      (t.VisitAscend (some pv) (logged v) (st, [])).2
        = cutAfterStop v
            (t.root.toList.filter (fun x => decide (0 ≤ t.compare x pv))) st ∧
      (t.VisitDescend (some pv) (logged v) (st, [])).2
        = cutAfterStop v
            (t.root.toList.reverse.filter
              (fun x => decide (t.compare x pv ≤ 0))) st ∧
      (t.VisitAscend (some pv) (logged (fun i s => (p i, s))) ((), [])).2
        = (t.root.toList.filter (fun x => decide (0 ≤ t.compare x pv))).take
            ((t.root.toList.filter
                (fun x => decide (0 ≤ t.compare x pv))).findIdx
              (fun x => !p x) + 1) ∧
      (t.VisitDescend (some pv) (logged (fun i s => (p i, s))) ((), [])).2
        = (t.root.toList.reverse.filter
              (fun x => decide (t.compare x pv ≤ 0))).take
            ((t.root.toList.reverse.filter
                (fun x => decide (t.compare x pv ≤ 0))).findIdx
              (fun x => !p x) + 1)) := by
  have hA0 : (t.VisitAscend pivot (logged always) ((), [])).2
      = ascendItems t t.root pivot := by
    rw [visitAscend_logged, cutAfterStop_of_true always (fun _ _ => rfl)]
  have hD0 : (t.VisitDescend pivot (logged always) ((), [])).2
      = descendItems t t.root pivot := by
    rw [visitDescend_logged, cutAfterStop_of_true always (fun _ _ => rfl)]
  rw [hA0, hD0]
  refine ⟨visitAscend_logged t pivot v st, visitDescend_logged t pivot v st,
    ?_, ?_, ?_, ?_, rfl, rfl, visitAscend_logged t pivot v st,
    visitDescend_logged t pivot v st, ?_, ?_, ?_, ?_, ?_⟩
  · rw [visitAscend_logged, cutAfterStop_pred]
  · rw [visitDescend_logged, cutAfterStop_pred]
  · intro h
    rw [visitAscend_logged, cutAfterStop_pred]
    exact take_findIdx_of_all p _ h
  · intro h
    rw [visitDescend_logged, cutAfterStop_pred]
    exact take_findIdx_of_all p _ h
  · rw [visitAscend_logged, ascendItems_none]
  · rw [visitDescend_logged, descendItems_none]
  · rw [visitAscend_logged, cutAfterStop_pred, ascendItems_none]
  · rw [visitDescend_logged, cutAfterStop_pred, descendItems_none]
  · intro hc hb pv
    refine ⟨?_, ?_, ?_, ?_⟩
    · rw [visitAscend_logged, ascendItems_some_ge t hc hb]
    · rw [visitDescend_logged, descendItems_some_le t hc hb]
    · rw [visitAscend_logged, cutAfterStop_pred, ascendItems_some_ge t hc hb]
    · rw [visitDescend_logged, cutAfterStop_pred, descendItems_some_le t hc hb]

/-- C6 at the sample treap with the visitor that stops at the item 2: without
a pivot the ascending traversal visits 1 and 2 and the descending one 3 and 2;
from the pivot 2 the ascending traversal visits only 2. -/
theorem C6_early_termination_witness :
    Lawful sampleTreap.compare ∧ BST sampleTreap.compare sampleTreap.root ∧
      (sampleTreap.VisitAscend none
          (logged (fun i s => (decide (i ≠ 2), s))) ((), [])).2 = [1, 2] ∧
      (sampleTreap.VisitDescend none
          (logged (fun i s => (decide (i ≠ 2), s))) ((), [])).2 = [3, 2] ∧
      (sampleTreap.VisitAscend (some 2)
          (logged (fun i s => (decide (i ≠ 2), s))) ((), [])).2 = [2] :=
  ⟨sampleTreap_lawful, sampleTreap_BST,
    (C6_early_termination sampleTreap none always ()
      (fun i => decide (i ≠ 2))).2.2.2.2.2.2.2.2.2.2.2.2.1.trans (by decide),
    (C6_early_termination sampleTreap none always ()
      (fun i => decide (i ≠ 2))).2.2.2.2.2.2.2.2.2.2.2.2.2.1.trans (by decide),
    ((C6_early_termination sampleTreap none always ()
      (fun i => decide (i ≠ 2))).2.2.2.2.2.2.2.2.2.2.2.2.2.2
        sampleTreap_lawful sampleTreap_BST 2).2.2.1.trans (by decide)⟩

/-- C8: on a non-empty BST-ordered treap with a lawful comparator, `Min`
returns the stored item that compares less than or equal to every stored item
(the first of the ascending sequence) and `Max` the one that compares greater
than or equal to every stored item (the last of the ascending sequence); on an
empty treap both are absent. -/
theorem C8_min_max (t : Treap α) (hc : Lawful t.compare)
    (hb : BST t.compare t.root) :
    (t.root ≠ Node.nil →
      ∃ lo hi, t.Min = some lo ∧ t.Max = some hi ∧
        lo ∈ t.root.toList ∧ hi ∈ t.root.toList ∧
        (∀ x ∈ t.root.toList, t.compare lo x ≤ 0) ∧
        (∀ x ∈ t.root.toList, 0 ≤ t.compare hi x) ∧
        t.root.toList.head? = some lo ∧ t.root.toList.getLast? = some hi) ∧
    (t.root = Node.nil → t.Min = none ∧ t.Max = none) := by
  have hp := BST_pairwise hc hb
  constructor
  · intro hne
    have hmin := min_eq_head t
    have hmax := max_eq_last t
    cases e : t.root with
    | nil => exact absurd e hne
    | mk i p l r c =>
      have h1 : t.Min = some (Treap.minLoop i l) := by
        unfold Treap.Min; rw [e]
      have h2 : t.Max = some (Treap.maxLoop i r) := by
        unfold Treap.Max; rw [e]
      rw [h1] at hmin
      rw [h2] at hmax
      rw [← e]
      obtain ⟨ys, hys⟩ := List.head?_eq_some_iff.1 hmin.symm
      obtain ⟨zs, hzs⟩ := List.getLast?_eq_some_iff.1 hmax.symm
      refine ⟨_, _, h1, h2, ?_, ?_, ?_, ?_, hmin.symm, hmax.symm⟩
      · rw [hys]; simp
      · rw [hzs]; simp
      · intro x hx
        rw [hys] at hx hp
        rcases List.mem_cons.1 hx with hx | hx
        · rw [hx, hc.refl]
        · exact le_of_lt (List.rel_of_pairwise_cons hp hx)
      · intro x hx
        rw [hzs] at hx hp
        rcases List.mem_append.1 hx with hx | hx
        · have := (List.pairwise_append.1 hp).2.2 x hx _
            (List.mem_singleton_self _)
          exact le_of_lt (hc.lt_swap this)
        · rw [List.mem_singleton.1 hx, hc.refl]
  · intro e
    unfold Treap.Min Treap.Max
    rw [e]
    exact ⟨rfl, rfl⟩

/-- C8 at the sample treap: `Min` is 1 and `Max` is 3. -/
theorem C8_min_max_witness :
    Lawful sampleTreap.compare ∧ BST sampleTreap.compare sampleTreap.root ∧
      sampleTreap.root ≠ Node.nil ∧
      ∃ lo hi, sampleTreap.Min = some lo ∧ sampleTreap.Max = some hi ∧
        (∀ x ∈ sampleTreap.root.toList, sampleTreap.compare lo x ≤ 0) ∧
        (∀ x ∈ sampleTreap.root.toList, 0 ≤ sampleTreap.compare hi x) :=
  ⟨sampleTreap_lawful, sampleTreap_BST, by decide,
    match (C8_min_max sampleTreap sampleTreap_lawful sampleTreap_BST).1
      (by decide) with
    | ⟨lo, hi, h1, h2, _, _, h5, h6, _, _⟩ => ⟨lo, hi, h1, h2, h5, h6⟩⟩


/-- C1: on a BST-ordered treap with a lawful comparator, looking up `k` after
`Upsert i p` returns the inserted item `i` itself when `k` compares equal to
`i` (whatever was stored under that key and whatever the priorities), and is
the lookup of `k` in the original treap otherwise. -/
theorem C1_get_upsert (t : Treap α) (hc : Lawful t.compare)
    (hb : BST t.compare t.root) (i : α) (p : Int) (k : α) :
    (t.compare k i = 0 → (t.Upsert i p).Get k = some i) ∧
    (t.compare k i ≠ 0 → (t.Upsert i p).Get k = t.Get k) := by
  have hU := upsert_BST t hc hb i p
  have e : ∀ n, (t.Upsert i p).getLoop k n = t.getLoop k n :=
    fun n => getLoop_compare (t.Upsert i p) t rfl k n
  constructor
  · intro h0
    unfold Treap.Get
    rw [e, getLoop_eq_some_iff t hc hU]
    exact ⟨(mem_upsert_iff t hc hb i p i).2 (Or.inl rfl), h0⟩
  · intro hne
    unfold Treap.Get
    rw [e]
    apply getLoop_congr t hc hU hb
    intro j hkj
    rw [mem_upsert_iff t hc hb i p j]
    have h1 := hc.eq_congr_left (hc.eq_swap hkj) i
    constructor
    · rintro (h | h)
      · subst h; exact absurd hkj hne
      · exact h.1
    · exact fun h => Or.inr ⟨h, by omega⟩

/-- C1 at the sample treap: upserting 2 again returns the new 2, and key 3 is
looked up as before. -/
theorem C1_get_upsert_witness :
    Lawful sampleTreap.compare ∧ BST sampleTreap.compare sampleTreap.root ∧
      (sampleTreap.Upsert 2 5).Get 2 = some 2 ∧
      (sampleTreap.Upsert 2 5).Get 3 = sampleTreap.Get 3 :=
  ⟨sampleTreap_lawful, sampleTreap_BST,
    (C1_get_upsert sampleTreap sampleTreap_lawful sampleTreap_BST 2 5 2).1
      (by decide),
    (C1_get_upsert sampleTreap sampleTreap_lawful sampleTreap_BST 2 5 3).2
      (by decide)⟩

/-- C9: on a BST-ordered, size-consistent treap with a lawful comparator,
`Upsert i p` raises `Len` by one when no stored item compares equal to `i` and
leaves it unchanged when one does; hence upserting `n` items with pairwise
distinct keys into the empty treap gives `Len = n`. -/
theorem C9_len_upsert (t : Treap α) (hc : Lawful t.compare)
    (hb : BST t.compare t.root) (hs : SizeOK t.root) (i : α) (p : Int) :
    ((∀ x ∈ t.root.toList, t.compare x i ≠ 0) →
      (t.Upsert i p).Len = t.Len + 1) ∧
    ((∃ x ∈ t.root.toList, t.compare x i = 0) →
      (t.Upsert i p).Len = t.Len) ∧
    (∀ items : List (α × Int),
      items.Pairwise (fun a b => t.compare a.1 b.1 ≠ 0) →
      (upsertAll (Treap.NewTreap t.compare) items).Len
        = (items.length : Int)) := by
  refine ⟨upsert_len_absent t hc hb hs i p, upsert_len_present t hc hb hs i p,
    ?_⟩
  intro items hd
  have := upsertAll_len t.compare hc items (Treap.NewTreap t.compare) rfl
    trivial trivial hd (by intro a _ x hx; cases hx)
  rw [this]
  simp [Treap.NewTreap, Treap.Len]

/-- C9 at the sample treap: upserting the new key 7 raises `Len` by one. -/
theorem C9_len_upsert_witness :
    Lawful sampleTreap.compare ∧ BST sampleTreap.compare sampleTreap.root ∧
      SizeOK sampleTreap.root ∧
      (sampleTreap.Upsert 7 5).Len = sampleTreap.Len + 1 :=
  ⟨sampleTreap_lawful, sampleTreap_BST, sampleTreap_sizeOK,
    (C9_len_upsert sampleTreap sampleTreap_lawful sampleTreap_BST
      sampleTreap_sizeOK 7 5).1 (by decide)⟩


/-- C11: BST ordering and size consistency are invariants of every treap
obtainable from `NewTreap` by `Upsert`, `Delete` and `Split` with arbitrary
priorities and a lawful comparator, so that `Len` is the number of items
visited by `VisitAscend` without a pivot. -/
theorem C11_bst_size_invariant (c : α → α → Int) (hc : Lawful c) (t : Treap α)
    (h : Reachable c t) :
    t.compare = c ∧ BST c t.root ∧ SizeOK t.root ∧
      t.Len
        = ((t.VisitAscend none (logged always) ((), [])).2.length : Int) := by
  obtain ⟨e, hb, hs⟩ := reachable_inv hc h
  refine ⟨e, hb, hs, ?_⟩
  rw [visitAscend_all_log, len_eq_getCount, getCount_eq_length hs]

/-- C11 at the treap obtained by upserting 2, 1 and 3 into the empty treap and
deleting the absent key 7, which holds the three items 1, 2 and 3. -/
theorem C11_bst_size_invariant_witness :
    Lawful intCompare ∧ Reachable intCompare (builtSample.Delete 7) ∧
      (builtSample.Delete 7).root.toList = [1, 2, 3] ∧
      BST intCompare (builtSample.Delete 7).root ∧
      SizeOK (builtSample.Delete 7).root :=
  ⟨intCompare_lawful, Reachable.delete _ 7 builtSample_reachable,
    builtSample_delete_toList,
    (C11_bst_size_invariant intCompare intCompare_lawful _
      (Reachable.delete _ 7 builtSample_reachable)).2.1,
    (C11_bst_size_invariant intCompare intCompare_lawful _
      (Reachable.delete _ 7 builtSample_reachable)).2.2.1⟩

/-- C13: `Delete` of an absent key is a no-op.  On a BST-ordered treap with a
lawful comparator, `Delete` of a key that compares equal to no stored item
leaves the full ascending item sequence (`VisitAscend` without a pivot)
unchanged; it leaves `Len` unchanged on every treap obtainable from `NewTreap`
by `Upsert`, `Delete` and `Split`, and more generally on every treap whose
cached counts are consistent, as those of every obtainable treap are. -/
theorem C13_delete_absent (t : Treap α) (hc : Lawful t.compare)
    (hb : BST t.compare t.root) (x : α)
    (h : ∀ i ∈ t.root.toList, t.compare i x ≠ 0) :
    (t.Delete x).root.toList = t.root.toList ∧
    (t.Delete x).VisitAscend none (logged always) ((), [])
      = t.VisitAscend none (logged always) ((), []) ∧
    (SizeOK t.root → (t.Delete x).Len = t.Len) ∧
    (∀ c, Reachable c t → (t.Delete x).Len = t.Len) := by
  have h1 : (t.Delete x).root.toList = t.root.toList := by
    rw [delete_toList]
    conv_rhs => rw [split_toList t t.root x]
    rw [(split_mid_nil_iff t hc x hb).2 h]
    simp [midList]
  have h3 : SizeOK t.root → (t.Delete x).Len = t.Len := by
    intro hs
    rw [len_eq_getCount, getCount_eq_length (delete_sizeOK t hs x), h1,
      len_eq_getCount, getCount_eq_length hs]
  refine ⟨h1, ?_, h3, fun c hr => h3 (reachable_sizeOK hr).2⟩
  apply Prod.ext
  · rfl
  · rw [visitAscend_all_log, visitAscend_all_log, h1]

/-- C13 at the treap built by upserting 2, 1 and 3 into the empty treap:
deleting the absent key 7 changes neither the item sequence nor `Len`. -/
theorem C13_delete_absent_witness :
    Lawful builtSample.compare ∧ BST builtSample.compare builtSample.root ∧
      (∀ i ∈ builtSample.root.toList, builtSample.compare i 7 ≠ 0) ∧
      Reachable intCompare builtSample ∧
      (builtSample.Delete 7).root.toList = builtSample.root.toList ∧
      (builtSample.Delete 7).Len = builtSample.Len :=
  ⟨builtSample_lawful, builtSample_BST, by rw [built_sample_eq]; decide,
    builtSample_reachable,
    (C13_delete_absent builtSample builtSample_lawful builtSample_BST 7
      (by rw [built_sample_eq]; decide)).1,
    (C13_delete_absent builtSample builtSample_lawful builtSample_BST 7
      (by rw [built_sample_eq]; decide)).2.2.2 intCompare
      builtSample_reachable⟩

/-- C14, as stated, fails when the pivot is stored: splitting the sample treap
at 2 and joining left and right gives the items 1 and 3, without the 2. -/
theorem C14_join_split_counterexample :
    Lawful sampleTreap.compare ∧ BST sampleTreap.compare sampleTreap.root ∧
      SizeOK sampleTreap.root ∧
      (sampleTreap.join (sampleTreap.split sampleTreap.root 2).1
        (sampleTreap.split sampleTreap.root 2).2.2).toList = [1, 3] ∧
      sampleTreap.root.toList = [1, 2, 3] ∧
      (sampleTreap.join (sampleTreap.split sampleTreap.root 2).1
        (sampleTreap.split sampleTreap.root 2).2.2).toList
        ≠ sampleTreap.root.toList := by
  refine ⟨sampleTreap_lawful, sampleTreap_BST, sampleTreap_sizeOK, ?_, by decide,
    ?_⟩
  · rw [join_toList]; decide
  · rw [join_toList]; decide

/-- C14 (amended): on a BST-ordered, size-consistent treap with a lawful
comparator, joining the left and right results of `split` at `s` gives a tree
whose ascending item sequence is that of the treap without the item comparing
equal to `s`; when no stored item compares equal to `s` the sequence and the
count are those of the treap, and when one does the count is one less. -/
theorem C14_join_split (t : Treap α) (hc : Lawful t.compare)
    (hb : BST t.compare t.root) (hs : SizeOK t.root) (s : α) :
    (t.join (t.split t.root s).1 (t.split t.root s).2.2).toList
      = t.root.toList.filter (fun x => decide (t.compare x s ≠ 0)) ∧
    ((∀ i ∈ t.root.toList, t.compare i s ≠ 0) →
      (t.join (t.split t.root s).1 (t.split t.root s).2.2).toList
          = t.root.toList ∧
        (t.join (t.split t.root s).1 (t.split t.root s).2.2).getCount
          = t.Len) ∧
    ((∃ i ∈ t.root.toList, t.compare i s = 0) →
      (t.join (t.split t.root s).1 (t.split t.root s).2.2).getCount
        = t.Len - 1) := by
  have h1 := join_split_toList t hc hb s
  have h2 := join_split_count t hs s
  have hN := split_mid_nil_iff t hc s hb
  rw [← len_eq_getCount] at h2
  refine ⟨h1, ?_, ?_⟩
  · intro h
    constructor
    · rw [h1, List.filter_eq_self]
      intro x hx
      simpa using h x hx
    · rw [hN.2 h] at h2
      simpa [midList] using h2
  · rintro ⟨i, hi, h0⟩
    cases e : (t.split t.root s).2.1 with
    | nil => exact absurd h0 (hN.1 e i hi)
    | mk j p l r c =>
      rw [e] at h2
      simp only [midList, List.length_singleton] at h2
      omega

/-- C14 (amended) at the sample treap, split at the absent key 7. -/
theorem C14_join_split_witness :
    Lawful sampleTreap.compare ∧ BST sampleTreap.compare sampleTreap.root ∧
      SizeOK sampleTreap.root ∧
      (sampleTreap.join (sampleTreap.split sampleTreap.root 7).1
        (sampleTreap.split sampleTreap.root 7).2.2).toList
        = sampleTreap.root.toList :=
  ⟨sampleTreap_lawful, sampleTreap_BST, sampleTreap_sizeOK,
    ((C14_join_split sampleTreap sampleTreap_lawful sampleTreap_BST
      sampleTreap_sizeOK 7).2.1 (by decide)).1⟩


/-- C12, as stated, fails: upserting 2 with priority 30, 1 with priority 10 and
then 2 again with the lower priority 5 into the empty treap gives a root of
priority 5 above a child of priority 10. -/
theorem C12_heap_invariant_counterexample :
    Lawful intCompare ∧
      Reachable intCompare
        ((((Treap.NewTreap intCompare).Upsert 2 30).Upsert 1 10).Upsert 2 5) ∧
      ((((Treap.NewTreap intCompare).Upsert 2 30).Upsert 1 10).Upsert 2 5).root
        = Node.mk 2 5 (Node.mk 1 10 Node.nil Node.nil 1) Node.nil 2 ∧
      ¬ Heap
        ((((Treap.NewTreap intCompare).Upsert 2 30).Upsert 1 10).Upsert 2 5).root := by
  refine ⟨intCompare_lawful,
    Reachable.upsert _ 2 5
      (Reachable.upsert _ 1 10 (Reachable.upsert _ 2 30 Reachable.empty)),
    lowered_root, ?_⟩
  rw [lowered_root]
  decide

/-- C12 (amended): heap ordering is an invariant of every treap obtainable from
`NewTreap` by `Upsert`, `Delete` and `Split` in which no `Upsert` gives an
already stored key a priority lower than the stored one. -/
theorem C12_heap_invariant (c : α → α → Int) (t : Treap α)
    (h : ReachableRaising c t) : Heap t.root :=
  (reachableRaising_inv h).2

/-- C12 (amended) at the treap obtained by upserting 2, 1 and 3 into the empty
treap and then 1 again with the higher priority 40: it holds three pairs and is
heap-ordered. -/
theorem C12_heap_invariant_witness :
    ReachableRaising intCompare (builtSample.Upsert 1 40) ∧
      (builtSample.Upsert 1 40).root.entries = [(1, 40), (2, 30), (3, 20)] ∧
      Heap (builtSample.Upsert 1 40).root :=
  ⟨builtSample_raising, builtSample_raised_entries,
    C12_heap_invariant intCompare _ builtSample_raising⟩

/-- C18: on a treap with a lawful comparator that already holds an item
comparing equal to `i`, after `Upsert i p` the pairs below and above `i` are
kept, the pair for that key is the inserted item with the inserted priority,
and no other pair has a key comparing equal to `i`, whether the stored priority
was above `p` or not. -/
theorem C18_upsert_replaces (t : Treap α) (hc : Lawful t.compare)
    (hb : BST t.compare t.root) (i : α) (p : Int)
    (h : ∃ e ∈ t.root.entries, t.compare e.1 i = 0) :
    (t.Upsert i p).root.entries
      = (t.split t.root i).1.entries ++ [(i, p)]
        ++ (t.split t.root i).2.2.entries ∧
    (i, p) ∈ (t.Upsert i p).root.entries ∧
    (∀ e ∈ (t.Upsert i p).root.entries, t.compare e.1 i = 0 → e = (i, p)) ∧
    (∀ e ∈ t.root.entries, t.compare e.1 i = 0 → e ≠ (i, p) →
      e ∉ (t.Upsert i p).root.entries) := by
  have he := upsert_entries t hc i p
  have key : ∀ e ∈ (t.Upsert i p).root.entries, t.compare e.1 i = 0 →
      e = (i, p) := by
    intro e hmem h0
    rw [he] at hmem
    simp only [List.mem_append, List.mem_singleton] at hmem
    rcases hmem with (hm | hm) | hm
    · have := split_left_lt t hc i hb e.1 (fst_mem_toList hm)
      omega
    · exact hm
    · have := split_right_gt t hc i hb e.1 (fst_mem_toList hm)
      omega
  refine ⟨he, by rw [he]; simp, key, ?_⟩
  intro e _ h0 hne hmem
  exact hne (key e hmem h0)

/-- C18 at the sample treap, whose 2 is stored with priority 30: after
upserting 2 with priority 5 the pair (2, 5) is stored. -/
theorem C18_upsert_replaces_witness :
    Lawful sampleTreap.compare ∧ BST sampleTreap.compare sampleTreap.root ∧
      (∃ e ∈ sampleTreap.root.entries, sampleTreap.compare e.1 2 = 0) ∧
      (2, 5) ∈ (sampleTreap.Upsert 2 5).root.entries :=
  ⟨sampleTreap_lawful, sampleTreap_BST, ⟨(2, 30), by decide, by decide⟩,
    (C18_upsert_replaces sampleTreap sampleTreap_lawful sampleTreap_BST 2 5
      ⟨(2, 30), by decide, by decide⟩).2.1⟩

/-- C19: heap ordering is preserved by the reshaping primitives.  The three
trees returned by `split` on a heap-ordered tree are heap-ordered, the `join`
of two heap-ordered trees is heap-ordered, hence `Delete` and `Split` of a
heap-ordered treap return heap-ordered treaps, and `Upsert i p` returns a
heap-ordered treap whenever no stored pair with a key comparing equal to `i`
has a priority above `p`. -/
theorem C19_heap_preserved (t : Treap α) (hh : Heap t.root) :
    (∀ (n : Node α) (s : α), Heap n →
      Heap (t.split n s).1 ∧ Heap (t.split n s).2.1 ∧ Heap (t.split n s).2.2) ∧
    (∀ this that : Node α, Heap this → Heap that → Heap (t.join this that)) ∧
    (∀ x, Heap (t.Delete x).root) ∧
    (∀ s, Heap (t.Split s).1.root ∧ Heap (t.Split s).2.2.root ∧
      ∀ m, (t.Split s).2.1 = some m → Heap m.root) ∧
    (∀ i p, (∀ e ∈ t.root.entries, t.compare e.1 i = 0 → e.2 ≤ p) →
      Heap (t.Upsert i p).root) := by
  refine ⟨fun n s h => split_heap t s h, fun a b h1 h2 => join_heap t a b h1 h2,
    fun x => delete_heap t hh x, ?_, fun i p hp => upsert_heap t hh i p hp⟩
  intro s
  refine ⟨(split_heap t s hh).1, (split_heap t s hh).2.2, ?_⟩
  intro m hm
  obtain ⟨_, i, p, l, r, cnt, _, hr⟩ := split_middle_root t s m hm
  rw [hr]
  exact ⟨trivial, trivial, trivial, trivial⟩

/-- C19 at the sample treap: deleting 2 and upserting the new key 7 keep heap
ordering. -/
theorem C19_heap_preserved_witness :
    Heap sampleTreap.root ∧ Heap (sampleTreap.Delete 2).root ∧
      Heap (sampleTreap.Upsert 7 5).root :=
  ⟨by decide,
    (C19_heap_preserved sampleTreap (by decide)).2.2.1 2,
    (C19_heap_preserved sampleTreap (by decide)).2.2.2.2 7 5 (by decide)⟩


/-- C16: union precedence.  For two trees that are BST-ordered under a lawful
comparator, `union this that` is BST-ordered, its key set is the union of the
two key sets, for every key the stored item is the item of `that` when `that`
holds the key and the item of `this` otherwise, and union with an empty side
returns the other tree unchanged.  Its count is the number of distinct keys of
the two trees at every call the code makes, that is for the root of any treap
obtainable from `NewTreap` by `Upsert`, `Delete` and `Split` united with the
one-node tree of `Upsert`, and more generally whenever the cached counts of the
two trees are consistent. -/
theorem C16_union_precedence (t : Treap α) (hc : Lawful t.compare)
    (this that : Node α) (h1 : BST t.compare this) (h2 : BST t.compare that) :
    BST t.compare (t.union this that) ∧
    (∀ k, (∃ x ∈ (t.union this that).toList, t.compare k x = 0) ↔
      ((∃ x ∈ this.toList, t.compare k x = 0) ∨
        (∃ x ∈ that.toList, t.compare k x = 0))) ∧
    (∀ k, t.getLoop k (t.union this that)
      = match t.getLoop k that with
        | some y => some y
        | none => t.getLoop k this) ∧
    (∀ x, x ∈ (t.union this that).toList ↔
      (x ∈ that.toList ∨
        (x ∈ this.toList ∧ ∀ y ∈ that.toList, t.compare x y ≠ 0))) ∧
    (SizeOK this → SizeOK that →
      (t.union this that).getCount
        = (distinctKeys t.compare this that : Int)) ∧
    (∀ (u : Treap α) (i : α) (p : Int), Reachable t.compare u →
      (u.union u.root (Node.mk i p Node.nil Node.nil 1)).getCount
        = (distinctKeys t.compare u.root (Node.mk i p Node.nil Node.nil 1)
            : Int)) ∧
    t.union Node.nil that = that ∧ t.union this Node.nil = this := by
  obtain ⟨hU, hm⟩ := union_spec t hc this that h1 h2
  refine ⟨hU, ?_, getLoop_union t hc this that h1 h2, hm,
    union_count t hc this that h1 h2, ?_, union_nil_left t that,
    union_nil_right t this⟩
  · intro k
    constructor
    · rintro ⟨x, hx, hkx⟩
      rcases (hm x).1 hx with hx | ⟨hx, _⟩
      · exact Or.inr ⟨x, hx, hkx⟩
      · exact Or.inl ⟨x, hx, hkx⟩
    · rintro (⟨x, hx, hkx⟩ | ⟨x, hx, hkx⟩)
      · by_cases hex : ∃ y ∈ that.toList, t.compare x y = 0
        · obtain ⟨y, hy, hxy⟩ := hex
          refine ⟨y, (hm y).2 (Or.inl hy), ?_⟩
          exact (hc.eq_congr_left (hc.eq_swap hkx) y).1 hxy
        · refine ⟨x, (hm x).2 (Or.inr ⟨hx, ?_⟩), hkx⟩
          intro y hy hxy
          exact hex ⟨y, hy, hxy⟩
      · exact ⟨x, (hm x).2 (Or.inl hx), hkx⟩
  · intro u i p hr
    obtain ⟨e, hb, hs⟩ := reachable_inv hc hr
    have hcu : Lawful u.compare := by rw [e]; exact hc
    have := union_count u hcu u.root (Node.mk i p Node.nil Node.nil 1)
      (by rw [e]; exact hb) (singleton_BST u.compare i p) hs
      ⟨rfl, trivial, trivial⟩
    rw [e] at this
    exact this

/-- C16 at the root of the treap built by upserting 2, 1 and 3, united with a
one-node tree holding 2: the result is BST-ordered, a lookup of 2 finds the
item of the one-node tree, and the count is 3. -/
theorem C16_union_precedence_witness :
    Lawful builtSample.compare ∧ BST builtSample.compare builtSample.root ∧
      BST builtSample.compare (Node.mk 2 5 Node.nil Node.nil 1) ∧
      BST builtSample.compare
        (builtSample.union builtSample.root (Node.mk 2 5 Node.nil Node.nil 1)) ∧
      (builtSample.union builtSample.root
          (Node.mk 2 5 Node.nil Node.nil 1)).getCount = 3 :=
  ⟨builtSample_lawful, builtSample_BST, by decide,
    (C16_union_precedence builtSample builtSample_lawful builtSample.root
      (Node.mk 2 5 Node.nil Node.nil 1) builtSample_BST (by decide)).1,
    ((C16_union_precedence builtSample builtSample_lawful builtSample.root
      (Node.mk 2 5 Node.nil Node.nil 1) builtSample_BST
      (by decide)).2.2.2.2.2.1 builtSample 2 5 builtSample_reachable).trans
      (by rw [built_sample_eq]; decide)⟩

/-- C17: totality.  `split`, `join` and `union` are total functions satisfying
the recursion of the source: the pieces of a split have together as many nodes
as the tree (the middle counted once), `join` recurses on one subtree less, and
every recursive call of `union`, made on a piece returned by `split`, is on two
trees with strictly fewer nodes in total. -/
theorem C17_totality (t : Treap α) :
    (∀ (n : Node α) (s : α),
      (t.split n s).1.size + (midList (t.split n s).2.1).length
        + (t.split n s).2.2.size = n.size) ∧
    (∀ (ti : α) (tp : Int) (tl tr : Node α) (tc : Int) (hi : α) (hp : Int)
        (hl hr : Node α) (hcnt : Int),
      tl.size + (t.split (Node.mk hi hp hl hr hcnt) ti).1.size
          < (Node.mk ti tp tl tr tc).size + (Node.mk hi hp hl hr hcnt).size ∧
      tr.size + (t.split (Node.mk hi hp hl hr hcnt) ti).2.2.size
          < (Node.mk ti tp tl tr tc).size + (Node.mk hi hp hl hr hcnt).size ∧
      (t.split (Node.mk ti tp tl tr tc) hi).1.size + hl.size
          < (Node.mk ti tp tl tr tc).size + (Node.mk hi hp hl hr hcnt).size ∧
      (t.split (Node.mk ti tp tl tr tc) hi).2.2.size + hr.size
          < (Node.mk ti tp tl tr tc).size + (Node.mk hi hp hl hr hcnt).size ∧
      tr.size + (Node.mk hi hp hl hr hcnt).size
          < (Node.mk ti tp tl tr tc).size + (Node.mk hi hp hl hr hcnt).size ∧
      (Node.mk ti tp tl tr tc).size + hl.size
          < (Node.mk ti tp tl tr tc).size + (Node.mk hi hp hl hr hcnt).size ∧
      (tp > hp →
        t.union (Node.mk ti tp tl tr tc) (Node.mk hi hp hl hr hcnt)
          = Node.mk
              (match (t.split (Node.mk hi hp hl hr hcnt) ti).2.1 with
               | Node.nil => ti
               | Node.mk mi _ _ _ _ => mi)
              (match (t.split (Node.mk hi hp hl hr hcnt) ti).2.1 with
               | Node.nil => tp
               | Node.mk _ mp _ _ _ => mp)
              (t.union tl (t.split (Node.mk hi hp hl hr hcnt) ti).1)
              (t.union tr (t.split (Node.mk hi hp hl hr hcnt) ti).2.2)
              (1 + (t.union tl
                    (t.split (Node.mk hi hp hl hr hcnt) ti).1).getCount
                + (t.union tr
                    (t.split (Node.mk hi hp hl hr hcnt) ti).2.2).getCount)) ∧
      (¬ tp > hp →
        t.union (Node.mk ti tp tl tr tc) (Node.mk hi hp hl hr hcnt)
          = Node.mk hi hp
              (t.union (t.split (Node.mk ti tp tl tr tc) hi).1 hl)
              (t.union (t.split (Node.mk ti tp tl tr tc) hi).2.2 hr)
              (1 + (t.union (t.split (Node.mk ti tp tl tr tc) hi).1 hl).getCount
                + (t.union
                    (t.split (Node.mk ti tp tl tr tc) hi).2.2 hr).getCount)) ∧
      (tp > hp →
        t.join (Node.mk ti tp tl tr tc) (Node.mk hi hp hl hr hcnt)
          = Node.mk ti tp tl (t.join tr (Node.mk hi hp hl hr hcnt))
              (1 + tl.getCount
                + (t.join tr (Node.mk hi hp hl hr hcnt)).getCount)) ∧
      (¬ tp > hp →
        t.join (Node.mk ti tp tl tr tc) (Node.mk hi hp hl hr hcnt)
          = Node.mk hi hp (t.join (Node.mk ti tp tl tr tc) hl) hr
              (1 + (t.join (Node.mk ti tp tl tr tc) hl).getCount
                + hr.getCount))) ∧
    (∀ n : Node α, t.union Node.nil n = n ∧ t.union n Node.nil = n ∧
      t.join Node.nil n = n ∧ t.join n Node.nil = n) := by
  have hsz : ∀ (n : Node α) (s : α),
      (t.split n s).1.size + (midList (t.split n s).2.1).length
        + (t.split n s).2.2.size = n.size := by
    intro n s
    induction n with
    | nil => simp [Treap.split, Node.size, midList]
    | mk i p l r c ihl ihr =>
      simp only [Treap.split]
      split_ifs
      · simp only [Node.size, midList, List.length_singleton]; omega
      · simp only [Node.size]; omega
      · simp only [Node.size]; omega
  refine ⟨hsz, ?_, fun n => ⟨union_nil_left t n, union_nil_right t n,
    join_nil_left t n, join_nil_right t n⟩⟩
  intro ti tp tl tr tc hi hp hl hr hcnt
  have a1 := hsz (Node.mk hi hp hl hr hcnt) ti
  have a2 := hsz (Node.mk ti tp tl tr tc) hi
  simp only [Node.size] at a1 a2 ⊢
  refine ⟨by omega, by omega, by omega, by omega, by omega, by omega,
    union_gt t ti tp tl tr tc hi hp hl hr hcnt,
    union_le t ti tp tl tr tc hi hp hl hr hcnt, ?_, ?_⟩
  · intro h
    rw [Treap.join]
    simp only [h, if_true]
  · intro h
    rw [Treap.join]
    simp only [h, if_false]


/-- C20: insertion-order independence.  For (item, priority) pairs whose keys
are pairwise distinct under a lawful comparator and whose priorities are
pairwise distinct, upserting the pairs into the empty treap yields the same
treap (shape, items, priorities and counts) for every order of insertion. -/
theorem C20_order_independence (c : α → α → Int) (hc : Lawful c)
    (l1 l2 : List (α × Int)) (hperm : l1.Perm l2)
    (hk : l1.Pairwise (fun a b => c a.1 b.1 ≠ 0))
    (hp : l1.Pairwise (fun a b => a.2 ≠ b.2)) :
    upsertAll (Treap.NewTreap c) l1 = upsertAll (Treap.NewTreap c) l2 := by
  have hk2 : l2.Pairwise (fun a b => c a.1 b.1 ≠ 0) :=
    hperm.pairwise hk (fun {x y} h e => h (hc.eq_swap e))
  obtain ⟨a1, a2, a3, a4, a5⟩ := upsertAll_inv c hc l1 (Treap.NewTreap c) rfl
    trivial trivial trivial hk (by intro a _ e he; cases he)
  obtain ⟨b1, b2, b3, b4, b5⟩ := upsertAll_inv c hc l2 (Treap.NewTreap c) rfl
    trivial trivial trivial hk2 (by intro a _ e he; cases he)
  have hroot : (upsertAll (Treap.NewTreap c) l1).root
      = (upsertAll (Treap.NewTreap c) l2).root := by
    apply tree_unique hc _ _ a2 b2 a4 b4 a3 b3
    · intro e1 h1 e2 h2 heq
      have m1 : e1 ∈ l1 := by
        rcases (a5 e1).1 h1 with h | h
        · cases h
        · exact h
      have m2 : e2 ∈ l1 := by
        rcases (a5 e2).1 h2 with h | h
        · cases h
        · exact h
      by_contra hne
      exact hp.forall (fun x y h => Ne.symm h) m1 m2 hne heq
    · intro e
      rw [a5 e, b5 e]
      simp only [Treap.NewTreap, Node.entries, List.not_mem_nil, false_or]
      exact hperm.mem_iff
  cases h1 : upsertAll (Treap.NewTreap c) l1 with
  | mk c1 r1 =>
    cases h2 : upsertAll (Treap.NewTreap c) l2 with
    | mk c2 r2 =>
      rw [h1] at a1 hroot
      rw [h2] at b1 hroot
      simp only at a1 b1 hroot
      rw [a1, b1, hroot]

/-- C20 at the pairs (1, 10) and (2, 30) over `intCompare`, in both orders. -/
theorem C20_order_independence_witness :
    Lawful intCompare ∧
      upsertAll (Treap.NewTreap intCompare) [(1, 10), (2, 30)]
        = upsertAll (Treap.NewTreap intCompare) [(2, 30), (1, 10)] :=
  ⟨intCompare_lawful,
    C20_order_independence intCompare intCompare_lawful [(1, 10), (2, 30)]
      [(2, 30), (1, 10)] (List.Perm.swap _ _ _) (by decide) (by decide)⟩


/-- C15: persistence.  For every treap `x` stored in a heap (its root pointer
`px` representing the tree `x.root`), `Upsert`, `Delete` and `Split` run on the
heap return (with fuel above the number of nodes), change no field of any
existing cell, and leave every observation of `x` (`Get` of any key, `Min`,
`Max`, `Len`, ascending and descending traversals) with the same result after
the call as before it; the returned pointers represent the results of the
operations on the tree. -/
theorem C15_persistence (x : Treap α) (s : Store α) (px : Option Nat)
    (hx : Rep s px x.root) (fuel : Nat) (hf : x.root.size + 1 < fuel) (k : α)
    (p : Int) :
    (∃ s2 py, UpsertS x.compare fuel s px k p = some (s2, py) ∧
      (∀ (a : Nat) (c : Cell α), s[a]? = some c → s2[a]? = some c) ∧
      Observes fuel s px x ∧ Observes fuel s2 px x ∧
      Rep s2 py (x.Upsert k p).root) ∧
    (∃ s2 py, DeleteS x.compare fuel s px k = some (s2, py) ∧
      (∀ (a : Nat) (c : Cell α), s[a]? = some c → s2[a]? = some c) ∧
      Observes fuel s px x ∧ Observes fuel s2 px x ∧
      Rep s2 py (x.Delete k).root) ∧
    (∃ s2 pl pm pr, SplitS x.compare fuel s px k = some (s2, pl, pm, pr) ∧
      (∀ (a : Nat) (c : Cell α), s[a]? = some c → s2[a]? = some c) ∧
      Observes fuel s px x ∧ Observes fuel s2 px x ∧
      Rep s2 pl (x.Split k).1.root ∧ Rep s2 pr (x.Split k).2.2.root ∧
      match (x.Split k).2.1, pm with
      | none, none => True
      | some m, some q => Rep s2 q m.root
      | _, _ => False) := by
  have hobs := observes_of_rep x fuel s px hx (by omega)
  refine ⟨?_, ?_, ?_⟩
  · obtain ⟨s2, py, e, pre, r⟩ := UpsertS_spec x x.root fuel s px k p hx hf
    exact ⟨s2, py, e, fun a c h => grow_getElem pre h, hobs,
      observes_of_rep x fuel s2 px (rep_mono pre hx) (by omega), r⟩
  · obtain ⟨s2, py, e, pre, r⟩ :=
      DeleteS_spec x x.root fuel s px k hx (by omega)
    exact ⟨s2, py, e, fun a c h => grow_getElem pre h, hobs,
      observes_of_rep x fuel s2 px (rep_mono pre hx) (by omega), r⟩
  · obtain ⟨s2, pl, pm, pr, e, pre, r1, r3, r2⟩ :=
      SplitS_spec x x.root fuel s px k hx (by omega)
    refine ⟨s2, pl, pm, pr, e, fun a c h => grow_getElem pre h, hobs,
      observes_of_rep x fuel s2 px (rep_mono pre hx) (by omega), r1, r3, ?_⟩
    simp only [Treap.Split]
    cases hM : (x.split x.root k).2.1 with
    | nil =>
      rw [hM] at r2
      cases pm with
      | none => trivial
      | some q => exact r2
    | mk i q l r c =>
      rw [hM] at r2
      cases pm with
      | none => exact r2
      | some q2 => exact r2

/-- C15 at the one-cell heap: upserting 1 returns and changes no existing
cell. -/
theorem C15_persistence_witness :
    Rep oneCellStore (some 0) oneNodeTreap.root ∧
      oneNodeTreap.root.size + 1 < 5 ∧
      ∃ s2 py, UpsertS oneNodeTreap.compare 5 oneCellStore (some 0) 1 10
          = some (s2, py) ∧
        (∀ (a : Nat) (c : Cell Int), oneCellStore[a]? = some c →
          s2[a]? = some c) ∧
        Observes 5 oneCellStore (some 0) oneNodeTreap ∧
        Observes 5 s2 (some 0) oneNodeTreap ∧
        Rep s2 py (oneNodeTreap.Upsert 1 10).root :=
  ⟨⟨none, none, rfl, trivial, trivial⟩, by decide,
    (C15_persistence oneNodeTreap oneCellStore (some 0)
      ⟨none, none, rfl, trivial, trivial⟩ 5 (by decide) 1 10).1⟩


end Claims

end Gtreap
